import Mathlib

/-!
# FCCUR: dual hashing and the save-and-hash pipeline

A shallow embedding of `internal/hash/hash.go` (`DualHash`, `DualHashWithProgress`,
`ParallelDualHash`, `parallelHashLargeFile`, `progressReader.Read`) and of
`Server.saveAndHash` in `internal/api/handlers.go`, together with the parts of the Go
standard library they are built from (`io.Copy`, `io.MultiWriter`, `io.TeeReader`,
`io.Pipe`, `hex.EncodeToString`). Further sections embed `RateLimiter` and `getIP` of
`internal/api/ratelimit.go`, `User.CanUploadToCourse` of `internal/models/user.go`, the token
and password functions of `internal/auth/jwt.go`, `sanitizeFilename` of
`internal/api/validation.go` and `PackageCache` of `internal/api/cache.go`, each with the
library functions it calls.

Conventions.
* An `io.Reader` is a state machine: `rd s n` is the call `Read(p)` with `len(p) = n` in
  reader state `s`; it gives the bytes placed in `p[:k]` (so `k` is the length of the data),
  the returned error, and the next state. The contract `k ≤ len(p)` of `io.Reader` is part of
  the predicate `Reads` below, through which the theorems speak about readers.
* An `io.Writer` is a state machine: `wr d p` is the call `Write(p)`; it gives the returned
  count, the returned error, and the next state.
* A `hash.Hash` is represented by the message absorbed so far; `Write` appends to it and
  never fails, `Sum(nil)` is the digest function of the algorithm applied to that message.
* Loops that end only when the reader says so take a fuel argument; `none` means that the
  fuel ran out before the Go loop would have ended.
* `int64` counters are integers reduced by `wrap64`.
* A progress callback acts on a state of its own; it cannot touch the reader or the hashers,
  which are local to the hashing call.
-/

namespace FCCUR

/-! ## Data model -/

abbrev Byte := UInt8

/-- Go `error` values that the modelled code can see. `EOF` is `io.EOF`, `ErrShortWrite` is
`io.ErrShortWrite`, `errInvalidWrite` is the unexported error of package `io`; every other
error value is `other code`. A nil error is `none : Option Error`. -/
inductive Error where
  | EOF
  | ErrShortWrite
  | errInvalidWrite
  | other (code : Nat)
  deriving DecidableEq, Repr

/-- Outcome of one `Read(p)`: the bytes stored in `p[:n]` and the error. -/
structure ReadResult where
  data : List Byte
  err : Option Error
  deriving DecidableEq, Repr

/-- Outcome of one `Write(p)`: the count `n` and the error. -/
structure WriteResult where
  n : Int
  err : Option Error
  deriving DecidableEq, Repr

abbrev Reader (W : Type) := W → Nat → ReadResult × W

abbrev Writer (W : Type) := W → List Byte → WriteResult × W

/-- A progress callback `func(bytesProcessed int64)`; whatever it remembers is its own
state `κ`. -/
abbrev ProgressCallback (κ : Type) := κ → Int → κ

/-- Two's-complement reduction of an integer to the range of `int64`. -/
def wrap64 (x : Int) : Int := (x + 2 ^ 63) % 2 ^ 64 - 2 ^ 63

/-- A 256-bit digest algorithm: the function computed by `New()`, `Write(..)*`, `Sum(nil)`
on the concatenation of everything written. -/
structure HashAlg where
  sum : List Byte → List Byte
  size_eq : ∀ m, (sum m).length = 32

/-! ## Standard library -/

def hextable : List Char := "0123456789abcdef".toList

/-- `hex.EncodeToString`: two characters per byte, `hextable[v>>4]` then `hextable[v&0x0f]`. -/
def hexEncodeToString (src : List Byte) : String :=
  String.mk (src.flatMap fun v =>
    [hextable.getD (v.toNat / 16) '0', hextable.getD (v.toNat % 16) '0'])

/-- Size of the buffer `io.Copy` allocates. -/
def copyBufSize : Nat := 32 * 1024

/-- The loop of `io.Copy` (`io.copyBuffer`), with `written` the running total. The result is
`(written, err)` and the final state. This is the read-then-write loop; the readers and
writers the modelled code builds itself (`progressReader`, the pipe, the value of
`io.MultiWriter`) have no `WriteTo` or `ReadFrom`, so for them no shortcut applies; a reader
handed in by the caller that has `WriteTo` is taken to write what its reads would return. -/
def ioCopy {W : Type} (src : Reader W) (dst : Writer W) : Nat → W → Int → Option ((Int × Option Error) × W)
  | 0, _, _ => none
  | fuel + 1, w, written =>
    let (r, w1) := src w copyBufSize
    let nr : Int := r.data.length
    if 0 < nr then
      let (wres, w2) := dst w1 r.data
      let bad : Bool := decide (wres.n < 0 ∨ nr < wres.n)
      let nw : Int := if bad then 0 else wres.n
      let ew : Option Error := if bad ∧ wres.err = none then some Error.errInvalidWrite else wres.err
      let written1 := wrap64 (written + nw)
      match ew with
      | some e => some ((written1, some e), w2)
      | none =>
        if nr ≠ nw then some ((written1, some Error.ErrShortWrite), w2)
        else
          match r.err with
          | some Error.EOF => some ((written1, none), w2)
          | some e => some ((written1, some e), w2)
          | none => ioCopy src dst fuel w2 written1
    else
      match r.err with
      | some Error.EOF => some ((written, none), w1)
      | some e => some ((written, some e), w1)
      | none => ioCopy src dst fuel w1 written

/-- The method `Write` of `io.MultiWriter(writers...)`. -/
def multiWriterWrite {W : Type} : List (Writer W) → Writer W
  | [], w, p => (⟨p.length, none⟩, w)
  | wr :: rest, w, p =>
    let (res, w1) := wr w p
    match res.err with
    | some e => (⟨res.n, some e⟩, w1)
    | none =>
      if res.n ≠ p.length then (⟨res.n, some Error.ErrShortWrite⟩, w1)
      else multiWriterWrite rest w1 p

/-- The method `Read` of `io.TeeReader(r, w)`. -/
def teeReaderRead {W : Type} (r : Reader W) (wr : Writer W) : Reader W := fun w n =>
  let (res, w1) := r w n
  if 0 < res.data.length then
    let (wres, w2) := wr w1 res.data
    match wres.err with
    | some e => (⟨res.data.take wres.n.toNat, some e⟩, w2)
    | none => (res, w2)
  else (res, w1)

/-! ## internal/hash/hash.go -/

/-- Threshold for using parallel hashing (100MB). -/
def parallelThreshold : Int := 100 * 1024 * 1024

/-- Chunk size for parallel processing (8MB per chunk). -/
def chunkSize : Nat := 8 * 1024 * 1024

/-- One invocation of the progress callback, as seen from outside: the value passed, and how
many bytes each hasher had absorbed at that moment. -/
structure Sample where
  bytesProcessed : Int
  fedB3 : Nat
  fedS256 : Nat
  deriving DecidableEq, Repr

/-- Everything one hashing call owns: the reader `r`, the messages absorbed by the BLAKE3 and
SHA-256 hashers, the `bytesProcessed` counter, the callback state. `reads` (number of calls of
`r.Read`) and `calls` (callback invocations, oldest first) are observation only: no step
reads them. -/
structure HashEnv (σ κ : Type) where
  r : σ
  b3 : List Byte
  s256 : List Byte
  bytesProcessed : Int
  cb : κ
  reads : Nat
  calls : List Sample

/-- Result `(blake3Hash, sha256Hash string, err error)`. -/
structure HashResult where
  blake3Hash : String
  sha256Hash : String
  err : Option Error
  deriving DecidableEq, Repr

/-- The call `r.Read(p)` on the reader owned by the environment. -/
def readR {σ κ : Type} (rd : Reader σ) : Reader (HashEnv σ κ) := fun w n =>
  let (res, s) := rd w.r n
  (res, { w with r := s, reads := w.reads + 1 })

/-- The method `Write` of the BLAKE3 hasher. -/
def b3Write {σ κ : Type} : Writer (HashEnv σ κ) := fun w p =>
  (⟨p.length, none⟩, { w with b3 := w.b3 ++ p })

/-- The method `Write` of the SHA-256 hasher. -/
def s256Write {σ κ : Type} : Writer (HashEnv σ κ) := fun w p =>
  (⟨p.length, none⟩, { w with s256 := w.s256 ++ p })

/-- Invoking `progress(v)`. -/
def invoke {σ κ : Type} (f : ProgressCallback κ) (v : Int) (w : HashEnv σ κ) : HashEnv σ κ :=
  { w with cb := f w.cb v, calls := w.calls ++ [⟨v, w.b3.length, w.s256.length⟩] }

/-- The method `progressReader.Read`. -/
def progressReader.Read {σ κ : Type} (rd : Reader σ) (callback : Option (ProgressCallback κ)) :
    Reader (HashEnv σ κ) := fun w n =>
  let (res, w1) := readR rd w n
  if 0 < res.data.length then
    let w2 := { w1 with bytesProcessed := wrap64 (w1.bytesProcessed + res.data.length) }
    match callback with
    | some f => (res, invoke f w2.bytesProcessed w2)
    | none => (res, w2)
  else (res, w1)

/-- Environment at entry of a hashing call. -/
def HashEnv.init {σ κ : Type} (s : σ) (k : κ) : HashEnv σ κ :=
  { r := s, b3 := [], s256 := [], bytesProcessed := 0, cb := k, reads := 0, calls := [] }

/-- The two return statements after the copy: the error path and the digest path. -/
def finish {σ κ : Type} (B3 S256 : HashAlg) (err : Option Error) (w : HashEnv σ κ) : HashResult :=
  match err with
  | some e => ⟨"", "", some e⟩
  | none => ⟨hexEncodeToString (B3.sum w.b3), hexEncodeToString (S256.sum w.s256), none⟩

/-- `DualHashWithProgress(r, progress)`. -/
def DualHashWithProgress {σ κ : Type} (B3 S256 : HashAlg) (rd : Reader σ)
    (progress : Option (ProgressCallback κ)) (fuel : Nat) (s : σ) (k : κ) :
    Option (HashResult × HashEnv σ κ) :=
  let writer : Writer (HashEnv σ κ) := multiWriterWrite [b3Write, s256Write]
  match progress with
  | some f =>
    match ioCopy (progressReader.Read rd (some f)) writer fuel (HashEnv.init s k) 0 with
    | none => none
    | some ((_, err), w) => some (finish B3 S256 err w, w)
  | none =>
    match ioCopy (readR rd) writer fuel (HashEnv.init s k) 0 with
    | none => none
    | some ((_, err), w) => some (finish B3 S256 err w, w)

/-- `DualHash(r)`. -/
def DualHash {σ : Type} (B3 S256 : HashAlg) (rd : Reader σ) (fuel : Nat) (s : σ) :
    Option (HashResult × HashEnv σ Unit) :=
  DualHashWithProgress B3 S256 rd none fuel s ()

/-- The `for` loop of `parallelHashLargeFile`, reading into a buffer of `bufSize` bytes. The
result is the error with which the function returns early, if any. -/
def chunkLoop {σ κ : Type} (rd : Reader σ) (progress : Option (ProgressCallback κ)) (bufSize : Nat) :
    Nat → HashEnv σ κ → Option (Option Error × HashEnv σ κ)
  | 0, _ => none
  | fuel + 1, w =>
    let (res, w1) := teeReaderRead (readR rd) s256Write w bufSize
    let w3 :=
      if 0 < res.data.length then
        let w2 := (b3Write w1 res.data).2
        match progress with
        | some f =>
          let w2a := { w2 with bytesProcessed := wrap64 (w2.bytesProcessed + res.data.length) }
          invoke f w2a.bytesProcessed w2a
        | none => w2
      else w1
    match res.err with
    | some Error.EOF => some (none, w3)
    | some e => some (some e, w3)
    | none => chunkLoop rd progress bufSize fuel w3

/-- The body of `parallelHashLargeFile` with the size of `buffer` as a parameter. -/
def parallelHashLargeFileWith {σ κ : Type} (B3 S256 : HashAlg) (bufSize : Nat) (rd : Reader σ)
    (progress : Option (ProgressCallback κ)) (fuel : Nat) (s : σ) (k : κ) :
    Option (HashResult × HashEnv σ κ) :=
  match chunkLoop rd progress bufSize fuel (HashEnv.init s k) with
  | none => none
  | some (err, w) => some (finish B3 S256 err w, w)

/-- `parallelHashLargeFile(r, fileSize, progress)`: the buffer has `chunkSize` bytes. -/
def parallelHashLargeFile {σ κ : Type} (B3 S256 : HashAlg) (rd : Reader σ) (_fileSize : Int)
    (progress : Option (ProgressCallback κ)) (fuel : Nat) (s : σ) (k : κ) :
    Option (HashResult × HashEnv σ κ) :=
  parallelHashLargeFileWith B3 S256 chunkSize rd progress fuel s k

/-- `ParallelDualHash(r, fileSize, progress)`. -/
def ParallelDualHash {σ κ : Type} (B3 S256 : HashAlg) (rd : Reader σ) (fileSize : Int)
    (progress : Option (ProgressCallback κ)) (fuel : Nat) (s : σ) (k : κ) :
    Option (HashResult × HashEnv σ κ) :=
  if fileSize < parallelThreshold then DualHashWithProgress B3 S256 rd progress fuel s k
  else parallelHashLargeFile B3 S256 rd fileSize progress fuel s k

/-! ## internal/api/handlers.go -/

/-- What `saveAndHash` does to the outside, in the order in which it does it: a read of
`src`, a write to `dest` (with what the write returned), a write to the pipe `pw`. -/
inductive Event where
  | srcRead (res : ReadResult)
  | destWrite (p : List Byte) (res : WriteResult)
  | pipeWrite (p : List Byte)
  deriving DecidableEq, Repr

/-- Everything the copying side of `saveAndHash` owns: the source, the sink, and the slices
handed to `pw.Write`, oldest first. `trace` is observation only: no step reads it. -/
structure PipeEnv (σ ω : Type) where
  src : σ
  dest : ω
  pipe : List (List Byte)
  trace : List Event

/-- The call `src.Read(p)`. -/
def srcRead {σ ω : Type} (rd : Reader σ) : Reader (PipeEnv σ ω) := fun w n =>
  let (res, s) := rd w.src n
  (res, { w with src := s, trace := w.trace ++ [Event.srcRead res] })

/-- The call `dest.Write(p)`. -/
def destWrite {σ ω : Type} (wr : Writer ω) : Writer (PipeEnv σ ω) := fun w p =>
  let (res, d) := wr w.dest p
  (res, { w with dest := d, trace := w.trace ++ [Event.destWrite p res] })

/-- The call `pw.Write(p)` on the write end of `io.Pipe()`. The pipe is synchronous: the call
returns once the reading side has taken all of `p`. The reading side here is the goroutine
running `DualHashWithProgress(pr, ..)`, which keeps reading until it sees end-of-stream or an
error and never closes `pr`; so the call returns `len(p), nil`. -/
def pwWrite {σ ω : Type} : Writer (PipeEnv σ ω) := fun w p =>
  (⟨p.length, none⟩, { w with pipe := w.pipe ++ [p], trace := w.trace ++ [Event.pipeWrite p] })

/-- The call `pr.Read(b)` on the read end of the pipe, the state being the slices written and
not yet taken. A read takes from the oldest write what fits in `b`; what is left of that write
is offered to the next read. With no write left the read sees `pw.Close()`. -/
def pipeRead : Reader (List (List Byte)) := fun q n =>
  match q with
  | [] => (⟨[], some Error.EOF⟩, [])
  | p :: rest =>
    if p.length ≤ n then (⟨p, none⟩, rest) else (⟨p.take n, none⟩, p.drop n :: rest)

/-- Result `(blake3Hash, sha256Hash string, size int64, err error)`. -/
structure SaveResult where
  blake3Hash : String
  sha256Hash : String
  size : Int
  err : Option Error
  deriving DecidableEq, Repr

/-- The `progressCallback` of the goroutine: it does nothing. -/
def progressCallback : ProgressCallback Unit := fun k _ => k

/-- `Server.saveAndHash(src, dest)`. The copy `io.Copy(mw, src)` runs, then `pw.Close()`; on a
copy error the function returns without receiving from `hashResult`. Otherwise it receives
what the goroutine computed. The goroutine is `DualHashWithProgress(pr, progressCallback)`:
its reads of `pr` see, in order, the slices written to `pw` and then, after `pw.Close()`,
end-of-stream, and nothing else reaches it; so its result is that of the call on the pipe
holding all the slices written, however its steps interleave with the copy. -/
def saveAndHash {σ ω : Type} (B3 S256 : HashAlg) (srcRd : Reader σ) (destWr : Writer ω)
    (fuel : Nat) (s : σ) (d : ω) : Option (SaveResult × PipeEnv σ ω) :=
  let mw : Writer (PipeEnv σ ω) := multiWriterWrite [destWrite destWr, pwWrite]
  match ioCopy (srcRead srcRd) mw fuel { src := s, dest := d, pipe := [], trace := [] } 0 with
  | none => none
  | some ((written, copyErr), w) =>
    match copyErr with
    | some e => some (⟨"", "", 0, some e⟩, w)
    | none =>
      match DualHashWithProgress B3 S256 pipeRead (some progressCallback) fuel w.pipe () with
      | none => none
      | some (result, _) =>
        match result.err with
        | some e => some (⟨"", "", 0, some e⟩, w)
        | none => some (⟨result.blake3Hash, result.sha256Hash, written, none⟩, w)

/-- The bytes a trace shows as written to the sink: for every `dest.Write(p)` that returned
`n`, the first `n` bytes of `p`. -/
def sinkBytes : List Event → List Byte
  | [] => []
  | Event.destWrite p res :: t => p.take res.n.toNat ++ sinkBytes t
  | _ :: t => sinkBytes t

/-- The bytes a trace shows as written to the pipe. -/
def pipeBytes : List Event → List Byte
  | [] => []
  | Event.pipeWrite p :: t => p ++ pipeBytes t
  | _ :: t => pipeBytes t

/-! ## Readers and sinks, as the claims describe them -/

/-- The successive calls `Read(p)` with `len(p) = b`, starting in state `s`, return the slices
`ds` in this order, every call but the last with a nil error and the last one with error `e`
(`io.EOF` for end-of-stream); `s1` is the state after the last call. Slices may be empty or
shorter than `b`, and the last call may return data together with `e`. -/
inductive Reads {σ : Type} (rd : Reader σ) (b : Nat) : σ → List (List Byte) → Error → σ → Prop
  | last {s : σ} {d : List Byte} {e : Error} {s1 : σ} :
      rd s b = (⟨d, some e⟩, s1) → d.length ≤ b → Reads rd b s [d] e s1
  | more {s : σ} {d : List Byte} {s1 : σ} {ds : List (List Byte)} {e : Error} {s2 : σ} :
      rd s b = (⟨d, none⟩, s1) → d.length ≤ b → Reads rd b s1 ds e s2 → Reads rd b s (d :: ds) e s2

/-- The reader, read with buffers of `b` bytes from state `s`, delivers the byte sequence `S`
(in slices of its own choosing) and then end-of-stream. -/
def Delivers {σ : Type} (rd : Reader σ) (b : Nat) (s : σ) (S : List Byte) : Prop :=
  ∃ (ds : List (List Byte)) (s1 : σ), Reads rd b s ds Error.EOF s1 ∧ ds.flatten = S

/-- What a copy loop returns for the error with which its reader stopped. -/
def stopErr : Error → Option Error
  | Error.EOF => none
  | e => some e

/-- A sink that accepts all writes: every `Write(p)` returns `len(p), nil`. -/
def Accepts {ω : Type} (wr : Writer ω) : Prop :=
  ∀ (d : ω) (p : List Byte), (wr d p).1 = ⟨p.length, none⟩

/-- A sink that fails with error `e` once it has accepted `budget d` more bytes: a non-empty
write that fits is accepted whole and uses up the budget, a write that does not fit returns
`e` (with whatever count). -/
def FailsAfter {ω : Type} (wr : Writer ω) (budget : ω → Nat) (e : Error) : Prop :=
  ∀ (d : ω) (p : List Byte), p ≠ [] →
    (p.length ≤ budget d → (wr d p).1 = ⟨p.length, none⟩ ∧ budget (wr d p).2 = budget d - p.length) ∧
    (budget d < p.length → (wr d p).1.err = some e)

/-! ## Concrete readers, sinks and digests -/

/-- A reader over a byte sequence held in memory: a read returns as much of what is left as
fits, and end-of-stream once nothing is left. -/
def sliceRead : Reader (List Byte) := fun s n =>
  match s with
  | [] => (⟨[], some Error.EOF⟩, [])
  | _ :: _ => (⟨s.take n, none⟩, s.drop n)

/-- A reader that hands out `data` on its first read together with error `e`, and only `e`
afterwards. The state counts the reads. -/
def brokenRead (data : List Byte) (e : Error) : Reader Nat := fun s n =>
  match s with
  | 0 => (⟨data.take n, some e⟩, 1)
  | k + 1 => (⟨[], some e⟩, k + 2)

/-- A sink that keeps what it is given and accepts everything. -/
def bufferWrite : Writer (List Byte) := fun d p => (⟨p.length, none⟩, d ++ p)

/-- A sink with room for a number of bytes (its state): a write that fits is accepted, a
write that does not fit stores what fits and fails with `e`. -/
def fullWrite (e : Error) : Writer Nat := fun room p =>
  if p.length ≤ room then (⟨p.length, none⟩, room - p.length) else (⟨room, some e⟩, 0)

/-- A sink on which every write fails with `e`. -/
def deadWrite (e : Error) : Writer Unit := fun d _ => (⟨0, some e⟩, d)

/-- A stand-in digest for evaluating the definitions: the first byte is the sum of the message
bytes, the other 31 bytes are zero. -/
def toyHash : HashAlg where
  sum := fun m => m.foldl (fun a b => a + b) 0 :: List.replicate 31 0
  size_eq := fun _ => rfl

/-! ## Proof vocabulary -/

/-- A reader on the hashing environment that performs exactly one `Read` of `rd` and leaves
both hashers alone: `readR rd` and `progressReader.Read rd callback` are such readers. -/
def ReaderOver {σ κ : Type} (rd : Reader σ) (R : Reader (HashEnv σ κ)) : Prop :=
  ∀ (w : HashEnv σ κ) (n : Nat), (R w n).1 = (rd w.r n).1 ∧ (R w n).2.r = (rd w.r n).2 ∧
    (R w n).2.b3 = w.b3 ∧ (R w n).2.s256 = w.s256 ∧ (R w n).2.reads = w.reads + 1

/-- The environment after one iteration of the loop of `parallelHashLargeFile` in which the
read returned `d` and left the reader in state `s1`. -/
def afterChunk {σ κ : Type} (progress : Option (ProgressCallback κ)) (w : HashEnv σ κ)
    (d : List Byte) (s1 : σ) : HashEnv σ κ :=
  let w1 : HashEnv σ κ := { w with r := s1, reads := w.reads + 1 }
  if 0 < d.length then
    let w2 : HashEnv σ κ := { w1 with s256 := w.s256 ++ d, b3 := w.b3 ++ d }
    match progress with
    | some f =>
      invoke f (wrap64 (w.bytesProcessed + d.length))
        { w2 with bytesProcessed := wrap64 (w.bytesProcessed + d.length) }
    | none => w2
  else w1

/-! ## The two digest algorithms

`crypto/sha256` and `github.com/zeebo/blake3` are libraries outside the repository; what
`New()`, `Write(..)*`, `Sum(nil)` compute is the SHA-256 of FIPS 180-4 and the BLAKE3 hash
(default mode, 32 bytes of output) of the message written. Words are natural numbers below
2^32. -/

/-- Rotate a 32-bit word right by `n` bits. -/
def rotr32 (x n : Nat) : Nat := ((x >>> n) ||| (x <<< (32 - n))) % 2 ^ 32

/-- The four bytes of a 32-bit word, most significant first. -/
def toBE32 (w : Nat) : List Byte :=
  [UInt8.ofNat (w >>> 24), UInt8.ofNat (w >>> 16), UInt8.ofNat (w >>> 8), UInt8.ofNat w]

/-- The four bytes of a 32-bit word, least significant first. -/
def toLE32 (w : Nat) : List Byte :=
  [UInt8.ofNat w, UInt8.ofNat (w >>> 8), UInt8.ofNat (w >>> 16), UInt8.ofNat (w >>> 24)]

/-- Bytes to 32-bit words, each word from four bytes, most significant first. -/
def wordsBE : List Byte → List Nat
  | a :: b :: c :: d :: t =>
    (a.toNat <<< 24 ||| b.toNat <<< 16 ||| c.toNat <<< 8 ||| d.toNat) :: wordsBE t
  | _ => []

/-- Bytes to 32-bit words, each word from four bytes, least significant first. -/
def wordsLE : List Byte → List Nat
  | a :: b :: c :: d :: t =>
    (a.toNat ||| b.toNat <<< 8 ||| c.toNat <<< 16 ||| d.toNat <<< 24) :: wordsLE t
  | _ => []

/-- Cut a byte sequence into pieces of `n` bytes (the last one may be shorter); `fuel` bounds
the number of pieces. -/
def pieces (n : Nat) : Nat → List Byte → List (List Byte)
  | 0, _ => []
  | _, [] => []
  | fuel + 1, a :: t => (a :: t).take n :: pieces n fuel ((a :: t).drop n)

/-! ### SHA-256 (FIPS 180-4) -/

/-- The largest `r` below `2 ^ bits` with `r ^ k ≤ n`, found bit by bit from the top
(`r` holds the bits already fixed). -/
def floorRoot (k n : Nat) : Nat → Nat → Nat
  | 0, r => r
  | bits + 1, r => floorRoot k n bits (if (r + 2 ^ bits) ^ k ≤ n then r + 2 ^ bits else r)

/-- Trial division. -/
def isPrime (n : Nat) : Bool :=
  decide (2 ≤ n) && (List.range n).all fun d => decide (d < 2) || n % d != 0

/-- The first 64 primes: 2, 3, 5, ..., 311. -/
def firstPrimes : List Nat := (List.range 312).filter isPrime

/-- The round constants (FIPS 180-4, 4.2.2): the first 32 bits of the fractional parts of the
cube roots of the first 64 primes. -/
def sha256K : List Nat :=
  firstPrimes.map fun p => floorRoot 3 (p * 2 ^ 96) 36 0 % 2 ^ 32

/-- The initial hash value (FIPS 180-4, 5.3.3): the first 32 bits of the fractional parts of
the square roots of the first 8 primes. -/
def sha256H0 : List Nat :=
  (firstPrimes.take 8).map fun p => floorRoot 2 (p * 2 ^ 64) 36 0 % 2 ^ 32

/-- Padding: the bit 1, zero bits up to 56 modulo 64 bytes, the bit length as 64 bits. -/
def sha256Pad (m : List Byte) : List Byte :=
  m ++ [(0x80 : Byte)] ++ List.replicate ((119 - m.length % 64) % 64) (0 : Byte) ++
    (toBE32 (((8 * m.length) >>> 32) % 2 ^ 32) ++ toBE32 ((8 * m.length) % 2 ^ 32))

/-- The message schedule: `n` more words appended to `w`. -/
def sha256Schedule : Nat → List Nat → List Nat
  | 0, w => w
  | n + 1, w =>
    let t := w.length
    let w15 := w.getD (t - 15) 0
    let w2 := w.getD (t - 2) 0
    let s0 := rotr32 w15 7 ^^^ rotr32 w15 18 ^^^ (w15 >>> 3)
    let s1 := rotr32 w2 17 ^^^ rotr32 w2 19 ^^^ (w2 >>> 10)
    sha256Schedule n (w ++ [(s1 + w.getD (t - 7) 0 + s0 + w.getD (t - 16) 0) % 2 ^ 32])

/-- One round on the working variables `[a, b, c, d, e, f, g, h]`. -/
def sha256Round (v : List Nat) (kw : Nat × Nat) : List Nat :=
  match v with
  | [a, b, c, d, e, f, g, h] =>
    let s1 := rotr32 e 6 ^^^ rotr32 e 11 ^^^ rotr32 e 25
    let ch := (e &&& f) ^^^ ((e ^^^ 0xffffffff) &&& g)
    let t1 := (h + s1 + ch + kw.1 + kw.2) % 2 ^ 32
    let s0 := rotr32 a 2 ^^^ rotr32 a 13 ^^^ rotr32 a 22
    let maj := (a &&& b) ^^^ (a &&& c) ^^^ (b &&& c)
    let t2 := (s0 + maj) % 2 ^ 32
    [(t1 + t2) % 2 ^ 32, a, b, c, (d + t1) % 2 ^ 32, e, f, g]
  | _ => v

/-- The compression function on one 64-byte block. -/
def sha256Block (h : List Nat) (block : List Byte) : List Nat :=
  let w := sha256Schedule 48 (wordsBE block)
  let v := (sha256K.zip w).foldl sha256Round h
  List.zipWith (fun x y => (x + y) % 2 ^ 32) h v

def sha256Sum (m : List Byte) : List Byte :=
  let p := sha256Pad m
  let h := (pieces 64 p.length p).foldl sha256Block sha256H0
  [h.getD 0 0, h.getD 1 0, h.getD 2 0, h.getD 3 0, h.getD 4 0, h.getD 5 0, h.getD 6 0,
    h.getD 7 0].flatMap toBE32

/-! ### BLAKE3 (hash mode, 32 bytes of output) -/

def blake3MsgPermutation : List Nat := [2, 6, 3, 10, 7, 0, 4, 13, 1, 11, 12, 5, 9, 14, 15, 8]

/-- The quarter-round `g` on the words `a b c d` of the state. -/
def blake3G (s : List Nat) (a b c d mx my : Nat) : List Nat :=
  let s := s.set a ((s.getD a 0 + s.getD b 0 + mx) % 2 ^ 32)
  let s := s.set d (rotr32 (s.getD d 0 ^^^ s.getD a 0) 16)
  let s := s.set c ((s.getD c 0 + s.getD d 0) % 2 ^ 32)
  let s := s.set b (rotr32 (s.getD b 0 ^^^ s.getD c 0) 12)
  let s := s.set a ((s.getD a 0 + s.getD b 0 + my) % 2 ^ 32)
  let s := s.set d (rotr32 (s.getD d 0 ^^^ s.getD a 0) 8)
  let s := s.set c ((s.getD c 0 + s.getD d 0) % 2 ^ 32)
  s.set b (rotr32 (s.getD b 0 ^^^ s.getD c 0) 7)

def blake3Round (s m : List Nat) : List Nat :=
  let s := blake3G s 0 4 8 12 (m.getD 0 0) (m.getD 1 0)
  let s := blake3G s 1 5 9 13 (m.getD 2 0) (m.getD 3 0)
  let s := blake3G s 2 6 10 14 (m.getD 4 0) (m.getD 5 0)
  let s := blake3G s 3 7 11 15 (m.getD 6 0) (m.getD 7 0)
  let s := blake3G s 0 5 10 15 (m.getD 8 0) (m.getD 9 0)
  let s := blake3G s 1 6 11 12 (m.getD 10 0) (m.getD 11 0)
  let s := blake3G s 2 7 8 13 (m.getD 12 0) (m.getD 13 0)
  blake3G s 3 4 9 14 (m.getD 14 0) (m.getD 15 0)

/-- `n` rounds, the message words permuted after each. -/
def blake3Rounds : Nat → List Nat → List Nat → List Nat
  | 0, s, _ => s
  | n + 1, s, m => blake3Rounds n (blake3Round s m) (blake3MsgPermutation.map fun i => m.getD i 0)

/-- What a node of the hash tree feeds to the compression function: chaining value, block
words, counter, block length, flags. -/
structure Blake3Node where
  cv : List Nat
  block : List Nat
  counter : Nat
  blockLen : Nat
  flags : Nat

/-- The compression function: 16 words of output. -/
def blake3Compress (n : Blake3Node) : List Nat :=
  let s0 := n.cv.take 8 ++ sha256H0.take 4 ++
    [n.counter % 2 ^ 32, n.counter >>> 32 % 2 ^ 32, n.blockLen, n.flags]
  let s := blake3Rounds 7 s0 n.block
  (List.range 8).map (fun i => s.getD i 0 ^^^ s.getD (i + 8) 0) ++
    (List.range 8).map (fun i => s.getD (i + 8) 0 ^^^ n.cv.getD i 0)

/-- The words of a block, the block filled up with zero bytes to 64. -/
def blake3BlockWords (b : List Byte) : List Nat := wordsLE (b ++ List.replicate (64 - b.length) 0)

/-- The blocks of one chunk, in order: the node of the last block. -/
def blake3ChunkBlocks (counter : Nat) : List Nat → Nat → List (List Byte) → Blake3Node
  | cv, start, [] => ⟨cv, blake3BlockWords [], counter, 0, start ||| 2⟩
  | cv, start, [b] => ⟨cv, blake3BlockWords b, counter, b.length, start ||| 2⟩
  | cv, start, b :: rest =>
    blake3ChunkBlocks counter
      ((blake3Compress ⟨cv, blake3BlockWords b, counter, 64, start⟩).take 8) 0 rest

/-- The node of a chunk of at most 1024 bytes: flag 1 marks its first block, flag 2 its last. -/
def blake3Chunk (chunk : List Byte) (counter : Nat) : Blake3Node :=
  blake3ChunkBlocks counter sha256H0 1 (pieces 64 chunk.length chunk)

/-- The largest power of two below `n`, for `n` at least 2, found by doubling `l`. -/
def blake3LeftLen (n : Nat) : Nat → Nat → Nat
  | 0, l => l
  | fuel + 1, l => if 2 * l < n then blake3LeftLen n fuel (2 * l) else l

/-- The node of a subtree over the given chunks, the first of which has number `counter`: a
single chunk, or a parent (flag 4) of the left subtree, which takes the largest power of two
of chunks that leaves something to the right, and the right subtree. -/
def blake3Subtree : Nat → List (List Byte) → Nat → Blake3Node
  | 0, _, counter => blake3Chunk [] counter
  | _, [], counter => blake3Chunk [] counter
  | _, [c], counter => blake3Chunk c counter
  | fuel + 1, chunks, counter =>
    let l := blake3LeftLen chunks.length chunks.length 1
    let left := blake3Compress (blake3Subtree fuel (chunks.take l) counter)
    let right := blake3Compress (blake3Subtree fuel (chunks.drop l) (counter + l))
    ⟨sha256H0, left.take 8 ++ right.take 8, 0, 64, 4⟩

def blake3Sum (m : List Byte) : List Byte :=
  let chunks := pieces 1024 m.length m
  let root := blake3Subtree chunks.length chunks 0
  let out := blake3Compress { root with flags := root.flags ||| 8 }
  [out.getD 0 0, out.getD 1 0, out.getD 2 0, out.getD 3 0, out.getD 4 0, out.getD 5 0,
    out.getD 6 0, out.getD 7 0].flatMap toLE32

/-- SHA-256 as a digest algorithm. -/
def sha256 : HashAlg where
  sum := sha256Sum
  size_eq := fun _ => rfl

/-- BLAKE3 as a digest algorithm. -/
def blake3 : HashAlg where
  sum := blake3Sum
  size_eq := fun _ => rfl

/-! ## Vocabulary of the later claims -/

/-- A string of exactly 64 characters, each one of `0`..`9`, `a`..`f`. -/
def IsHex64 (str : String) : Prop :=
  str.length = 64 ∧ ∀ c ∈ str.toList, c ∈ "0123456789abcdef".toList

/-- The values the progress callback is invoked with when the reads return the slices `ds` and
the counter starts at `bp`: one value per non-empty slice, the running total. -/
def progressValues (bp : Int) : List (List Byte) → List Int
  | [] => []
  | d :: ds =>
    if 0 < d.length then wrap64 (bp + d.length) :: progressValues (wrap64 (bp + d.length)) ds
    else progressValues bp ds

/-- The invocations of the callback in `DualHashWithProgress` when the reads return the slices
`ds`, the counter starts at `bp` and the hashers have absorbed `fed3` and `fed256` bytes: at
the invocation for a slice the hashers have not yet absorbed that slice. -/
def seqSamples (bp : Int) (fed3 fed256 : Nat) : List (List Byte) → List Sample
  | [] => []
  | d :: ds =>
    if 0 < d.length then
      ⟨wrap64 (bp + d.length), fed3, fed256⟩ ::
        seqSamples (wrap64 (bp + d.length)) (fed3 + d.length) (fed256 + d.length) ds
    else seqSamples bp fed3 fed256 ds

/-- The invocations of the callback in the loop of `parallelHashLargeFile`: at the invocation
for a slice both hashers have absorbed that slice. -/
def chunkSamples (bp : Int) (fed3 fed256 : Nat) : List (List Byte) → List Sample
  | [] => []
  | d :: ds =>
    if 0 < d.length then
      ⟨wrap64 (bp + d.length), fed3 + d.length, fed256 + d.length⟩ ::
        chunkSamples (wrap64 (bp + d.length)) (fed3 + d.length) (fed256 + d.length) ds
    else chunkSamples bp fed3 fed256 ds

/-- The environment after one iteration of the copy loop of `DualHashWithProgress` with
callback `f`, in which the read returned `d` and left the reader in state `s1`. -/
def afterSeq {σ κ : Type} (f : ProgressCallback κ) (w : HashEnv σ κ) (d : List Byte) (s1 : σ) :
    HashEnv σ κ :=
  if 0 < d.length then
    { r := s1, b3 := w.b3 ++ d, s256 := w.s256 ++ d,
      bytesProcessed := wrap64 (w.bytesProcessed + d.length),
      cb := f w.cb (wrap64 (w.bytesProcessed + d.length)), reads := w.reads + 1,
      calls := w.calls ++ [⟨wrap64 (w.bytesProcessed + d.length), w.b3.length, w.s256.length⟩] }
  else { w with r := s1, reads := w.reads + 1 }

/-- A callback that records the values it is invoked with, oldest first. -/
def recordProgress : ProgressCallback (List Int) := fun l v => l ++ [v]

/-- The slices of a run of reads that carry data. -/
def nonEmptySlices (ds : List (List Byte)) : List (List Byte) :=
  ds.filter fun d => decide (0 < d.length)

/-! ## internal/api/ratelimit.go

Times are integers, the reading of the clock in nanoseconds. A `time.Duration` is an `int64`
of nanoseconds: `now.Sub(t)` is the difference, brought to the largest or smallest `int64`
when it is out of range (`subDuration`), and `rl.window*2` is the product reduced by
`wrap64`, as is `rl.limit - 1` on `int`. `time.Now()` is an argument of the operation that
calls it. -/

/-- `t.Sub(u)`: the duration `t - u`, or the maximum (minimum) duration if the difference
exceeds it. -/
def subDuration (t u : Int) : Int := max (-(2 ^ 63)) (min (2 ^ 63 - 1) (t - u))

structure bucket where
  tokens : Int
  lastSeen : Int
  deriving DecidableEq, Repr

/-- The fields of `RateLimiter` that `Allow` and `cleanup` use; `buckets` is the map from IP
to bucket. -/
structure RateLimiter where
  buckets : String → Option bucket
  limit : Int
  window : Int

/-- `NewRateLimiter(limit, window)`: a limiter with no bucket yet. The function starts the
ticker that drives `cleanup` with `time.NewTicker(window)`, which panics for a window that is
not positive: `none` is that panic. -/
def NewRateLimiter (limit window : Int) : Option RateLimiter :=
  if window ≤ 0 then none
  else some { buckets := fun _ => none, limit := limit, window := window }

/-- `rl.Allow(ip)` with `time.Now()` returning `now`: the answer and the limiter afterwards. -/
def RateLimiter.Allow (rl : RateLimiter) (ip : String) (now : Int) : Bool × RateLimiter :=
  match rl.buckets ip with
  | none =>
    (true, { rl with buckets := fun i =>
      if i = ip then some { tokens := wrap64 (rl.limit - 1), lastSeen := now }
      else rl.buckets i })
  | some b =>
    if subDuration now b.lastSeen > rl.window then
      (true, { rl with buckets := fun i =>
        if i = ip then some { tokens := wrap64 (rl.limit - 1), lastSeen := now }
        else rl.buckets i })
    else if b.tokens > 0 then
      (true, { rl with buckets := fun i =>
        if i = ip then some { tokens := wrap64 (b.tokens - 1), lastSeen := now }
        else rl.buckets i })
    else (false, rl)

/-- One pass of the loop of `rl.cleanup()` with `time.Now()` returning `now`: stale buckets are
removed. -/
def RateLimiter.cleanup (rl : RateLimiter) (now : Int) : RateLimiter :=
  { rl with buckets := fun i =>
      match rl.buckets i with
      | none => none
      | some b => if subDuration now b.lastSeen > wrap64 (rl.window * 2) then none else some b }

/-- What happens to a limiter: a call `Allow(ip)` or a tick of the cleanup ticker, each holding
the mutex for its whole duration, at the time given. -/
inductive LimiterEvent where
  | allow (ip : String) (now : Int)
  | tick (now : Int)
  deriving DecidableEq, Repr

def LimiterEvent.time : LimiterEvent → Int
  | LimiterEvent.allow _ now => now
  | LimiterEvent.tick now => now

/-- The times of the calls `Allow(ip)` that returned true, in a run of events from `rl`. -/
def allowedTimes (ip : String) (rl : RateLimiter) : List LimiterEvent → List Int
  | [] => []
  | LimiterEvent.allow i now :: evs =>
    if i = ip ∧ (rl.Allow i now).1 = true then now :: allowedTimes ip (rl.Allow i now).2 evs
    else allowedTimes ip (rl.Allow i now).2 evs
  | LimiterEvent.tick now :: evs => allowedTimes ip (rl.cleanup now) evs

/-- How many of the times `ts` lie in the interval from `a` to `b`, ends included. -/
def countIn (a b : Int) (ts : List Int) : Nat :=
  (ts.filter fun t => decide (a ≤ t ∧ t ≤ b)).length

/-- The events happen at non-decreasing times, none before `t0`. -/
def TimesFrom (t0 : Int) : List LimiterEvent → Prop
  | [] => True
  | ev :: evs => t0 ≤ ev.time ∧ TimesFrom ev.time evs

/-- What holds between the bucket of `ip`, the times `hist` at which `ip` was allowed so far,
and the time `tcur` of the latest event. -/
def LimiterInv (ip : String) (limit window : Int) (rl : RateLimiter) (hist : List Int)
    (tcur : Int) : Prop :=
  rl.limit = limit ∧ rl.window = window ∧ (∀ h ∈ hist, h ≤ tcur) ∧
  (∀ a b, b - a ≤ window → (countIn a b hist : Int) ≤ limit) ∧
  match rl.buckets ip with
  | none => ∀ h ∈ hist, window < tcur - h
  | some bk => 0 ≤ bk.tokens ∧ bk.lastSeen ≤ tcur ∧ (∀ h ∈ hist, h ≤ bk.lastSeen) ∧
      ∀ a b, b - a ≤ window → bk.lastSeen ≤ b → (countIn a b hist : Int) + bk.tokens ≤ limit

/-- `time.Hour` in nanoseconds. -/
def hour : Int := 3600000000000

/-- `Server.SetRateLimit(limit)`, as far as the field `rateLimiter` goes (`none` for a nil
pointer): a limiter is installed only for a positive limit. The outer `none` is the panic of
`NewRateLimiter`, which the window of one hour never causes. -/
def SetRateLimit (rateLimiter : Option RateLimiter) (limit : Int) :
    Option (Option RateLimiter) :=
  if limit > 0 then (NewRateLimiter limit hour).map some else some rateLimiter

/-! ## internal/models/user.go

A Go string is a `String`; `len` is its length in bytes. -/

abbrev UserRole := String

def RoleGuest : UserRole := "guest"

def RoleStudent : UserRole := "student"

def RoleProfessor : UserRole := "professor"

def RoleAdmin : UserRole := "admin"

/-- The fields of `User` that the permission checks read. -/
structure User where
  ID : Int
  Email : String
  Role : UserRole
  AssignedCourses : String
  IsAdmin : Bool
  deriving DecidableEq, Repr

/-- The function `contains(str, substr)` of `user.go`. -/
def contains (str substr : String) : Bool :=
  decide (str.utf8ByteSize > 0) && decide (substr.utf8ByteSize > 0) &&
    (decide (str = substr) || decide (str.utf8ByteSize > substr.utf8ByteSize))

/-- `u.CanUploadToCourse(courseName)`. -/
def User.CanUploadToCourse (u : User) (courseName : String) : Bool :=
  if u.Role = RoleAdmin then true
  else if u.Role ≠ RoleProfessor then false
  else if u.AssignedCourses = "" then false
  else contains u.AssignedCourses courseName

/-- The course name occurs in the assigned-courses string, as a run of consecutive
characters. -/
def Occurs (courseName assigned : String) : Prop :=
  courseName.toList <:+: assigned.toList

/-! ## Go strings as bytes

A Go `string` is a sequence of bytes, which need not be valid UTF-8. The functions below that
look into their strings byte by byte (`ValidatePassword`, `sanitizeFilename`, `getIP`), and
the claims of a token, whose strings `encoding/json` rewrites when they are not valid UTF-8,
take their strings as lists of bytes. -/

/-- The bytes of a string literal: its UTF-8 encoding. -/
def goString (s : String) : List Byte := s.data.flatMap String.utf8EncodeChar

/-- `utf8.RuneError`. -/
def runeError : Nat := 0xFFFD

/-- A continuation byte: between `locb = 0x80` and `hicb = 0xBF`. -/
def isCont (b : Byte) : Bool := decide (0x80 ≤ b.toNat) && decide (b.toNat ≤ 0xBF)

/-- `decoderune(s, k)` of package `runtime` on `s[k:]`, for a first byte that is not ASCII:
the rune and the number of bytes it takes. A sequence that is cut short, has a wrong
continuation byte, is longer than needed for its rune, encodes a surrogate or goes past
`utf8.MaxRune` gives `(RuneError, 1)`. -/
def decoderune (s : List Byte) : Nat × Nat :=
  match s with
  | [] => (runeError, 1)
  | s0 :: rest =>
    if 0xC0 ≤ s0.toNat ∧ s0.toNat < 0xE0 then
      match rest with
      | s1 :: _ =>
        if isCont s1 then
          let r := ((s0.toNat &&& 0x1F) <<< 6) ||| (s1.toNat &&& 0x3F)
          if 0x7F < r then (r, 2) else (runeError, 1)
        else (runeError, 1)
      | _ => (runeError, 1)
    else if 0xE0 ≤ s0.toNat ∧ s0.toNat < 0xF0 then
      match rest with
      | s1 :: s2 :: _ =>
        if isCont s1 && isCont s2 then
          let r := ((s0.toNat &&& 0x0F) <<< 12) ||| ((s1.toNat &&& 0x3F) <<< 6) |||
            (s2.toNat &&& 0x3F)
          if 0x7FF < r ∧ ¬ (0xD800 ≤ r ∧ r ≤ 0xDFFF) then (r, 3) else (runeError, 1)
        else (runeError, 1)
      | _ => (runeError, 1)
    else if 0xF0 ≤ s0.toNat ∧ s0.toNat < 0xF8 then
      match rest with
      | s1 :: s2 :: s3 :: _ =>
        if isCont s1 && isCont s2 && isCont s3 then
          let r := ((s0.toNat &&& 0x07) <<< 18) ||| ((s1.toNat &&& 0x3F) <<< 12) |||
            ((s2.toNat &&& 0x3F) <<< 6) ||| (s3.toNat &&& 0x3F)
          if 0xFFFF < r ∧ r ≤ 0x10FFFF then (r, 4) else (runeError, 1)
        else (runeError, 1)
      | _ => (runeError, 1)
    else (runeError, 1)

/-- The runes that `for _, char := range s` goes through: a byte below `utf8.RuneSelf = 0x80`
is its own rune, anything else goes through `decoderune`. Every step takes at least one byte,
so a fuel of `len(s)` is never used up (`runes`). -/
def rangeRunes : Nat → List Byte → List Nat
  | 0, _ => []
  | _, [] => []
  | fuel + 1, b :: rest =>
    if b.toNat < 0x80 then b.toNat :: rangeRunes fuel rest
    else (decoderune (b :: rest)).1 :: rangeRunes fuel ((b :: rest).drop (decoderune (b :: rest)).2)

def runes (s : List Byte) : List Nat := rangeRunes s.length s

/-- `utf8.ValidString(s)`, with fuel for the length of `s`: every byte is ASCII or begins a
sequence that decodes to a rune. -/
def validLoop : Nat → List Byte → Bool
  | 0, _ => true
  | _, [] => true
  | fuel + 1, b :: rest =>
    if b.toNat < 0x80 then validLoop fuel rest
    else if (decoderune (b :: rest)).1 = runeError ∧ (decoderune (b :: rest)).2 = 1 then false
    else validLoop fuel ((b :: rest).drop (decoderune (b :: rest)).2)

def utf8ValidString (s : List Byte) : Bool := validLoop s.length s

/-- What `encoding/json` makes of a string on the way out and back in: "String values encode
as JSON strings coerced to valid UTF-8, replacing invalid bytes with the Unicode replacement
rune". The encoder goes through the string as `range` does and writes the escape of U+FFFD for every byte
at which decoding gives `(RuneError, 1)`; the decoder gives back U+FFFD, the bytes `EF BF BD`,
for it, and every other rune as it was. -/
def jsonCoerceLoop : Nat → List Byte → List Byte
  | 0, _ => []
  | _, [] => []
  | fuel + 1, b :: rest =>
    if b.toNat < 0x80 then b :: jsonCoerceLoop fuel rest
    else if (decoderune (b :: rest)).1 = runeError ∧ (decoderune (b :: rest)).2 = 1 then
      [0xEF, 0xBF, 0xBD] ++ jsonCoerceLoop fuel rest
    else
      (b :: rest).take (decoderune (b :: rest)).2 ++
        jsonCoerceLoop fuel ((b :: rest).drop (decoderune (b :: rest)).2)

def jsonCoerce (s : List Byte) : List Byte := jsonCoerceLoop s.length s

/-! ## internal/auth/jwt.go

A `time.Time` is an integer, the nanoseconds since the Unix epoch; `Unix()` is the whole
seconds. `time.Now()` is an argument of the operation that calls it. -/

inductive AuthError where
  | ErrInvalidToken
  | ErrTokenExpired
  | ErrWeakPassword
  | ErrInvalidEmail
  deriving DecidableEq, Repr

/-- The JWT payload. -/
structure JWTClaims where
  UserID : Int
  Email : List Byte
  Role : List Byte
  IsAdmin : Bool
  ExpiresAt : Int
  IssuedAt : Int
  deriving DecidableEq, Repr

structure JWTManager where
  secret : List Byte
  accessExpiration : Int
  refreshExpiration : Int

/-- The claims as they come back from `json.Unmarshal(json.Marshal(claims))`: the integers
and the boolean as they were, the two strings coerced to valid UTF-8. -/
def coerceClaims (c : JWTClaims) : JWTClaims :=
  { c with Email := jsonCoerce c.Email, Role := jsonCoerce c.Role }

/-- The library functions `jwt.go` calls for encoding: `base64.RawURLEncoding` and
`encoding/json` on `JWTClaims`, with what their documentation promises and the code relies
on: decoding undoes encoding, the base64url alphabet has no dot, and unmarshalling what was
marshalled gives the claims back with their strings coerced to valid UTF-8 (`coerceClaims`).
(`json.Marshal` cannot fail on a struct of integers, strings and a boolean.) -/
structure JWTLib where
  base64Encode : List Byte → String
  base64Decode : String → Option (List Byte)
  jsonMarshal : JWTClaims → List Byte
  jsonUnmarshal : List Byte → Option JWTClaims
  base64_roundtrip : ∀ b, base64Decode (base64Encode b) = some b
  base64_alphabet : ∀ b, '.' ∉ (base64Encode b).data
  json_roundtrip : ∀ c, jsonUnmarshal (jsonMarshal c) = some (coerceClaims c)

/-- `t.Unix()`. -/
def unixSeconds (t : Int) : Int := t / 1000000000

/-- HMAC-SHA256 (RFC 2104): what `hmac.New(sha256.New, key)`, `Write(data)`, `Sum(nil)`
compute. -/
def hmacSHA256 (key data : List Byte) : List Byte :=
  let k0 := if key.length > 64 then sha256Sum key else key
  let k := k0 ++ List.replicate (64 - k0.length) 0
  sha256Sum (k.map (fun x => x ^^^ 0x5c) ++ sha256Sum (k.map (fun x => x ^^^ 0x36) ++ data))

/-- The pieces of `s` between the occurrences of `sep`. -/
def splitChars (sep : Char) : List Char → List (List Char)
  | [] => [[]]
  | c :: cs =>
    if c = sep then [] :: splitChars sep cs
    else
      match splitChars sep cs with
      | [] => [[c]]
      | p :: ps => (c :: p) :: ps

/-- `strings.Split(s, sep)` for a separator of one character. -/
def stringsSplit (s : String) (sep : Char) : List String :=
  (splitChars sep s.data).map String.mk

/-- `j.sign(data)`. -/
def JWTManager.sign (L : JWTLib) (j : JWTManager) (data : String) : String :=
  L.base64Encode (hmacSHA256 j.secret data.toUTF8.toList)

/-- `j.GenerateToken(userID, email, role, isAdmin)` with `time.Now()` returning `now`: the
token and the expiry time. -/
def JWTManager.GenerateToken (L : JWTLib) (j : JWTManager) (now : Int) (userID : Int)
    (email role : List Byte) (isAdmin : Bool) : String × Int :=
  let expiresAt := now + j.accessExpiration
  let claims : JWTClaims :=
    { UserID := userID, Email := email, Role := role, IsAdmin := isAdmin,
      ExpiresAt := unixSeconds expiresAt, IssuedAt := unixSeconds now }
  let claimsJSON := L.jsonMarshal claims
  let header := L.base64Encode "\x7b\"alg\":\"HS256\",\"typ\":\"JWT\"\x7d".toUTF8.toList
  let payload := L.base64Encode claimsJSON
  let signature := j.sign L (header ++ "." ++ payload)
  (header ++ "." ++ payload ++ "." ++ signature, expiresAt)

/-- `j.ValidateToken(token)` with `time.Now()` returning `now`. -/
def JWTManager.ValidateToken (L : JWTLib) (j : JWTManager) (now : Int) (token : String) :
    Except AuthError JWTClaims :=
  match stringsSplit token '.' with
  | [header, payload, signature] =>
    let expectedSignature := j.sign L (header ++ "." ++ payload)
    if signature ≠ expectedSignature then Except.error AuthError.ErrInvalidToken
    else
      match L.base64Decode payload with
      | none => Except.error AuthError.ErrInvalidToken
      | some claimsJSON =>
        match L.jsonUnmarshal claimsJSON with
        | none => Except.error AuthError.ErrInvalidToken
        | some claims =>
          if unixSeconds now > claims.ExpiresAt then Except.error AuthError.ErrTokenExpired
          else Except.ok claims
  | _ => Except.error AuthError.ErrInvalidToken

/-! ## Stand-ins for the encoding libraries -/

/-- A byte written in unary: as many `a` as the byte says, then a `b`. -/
def unaryEncode (b : List Byte) : String :=
  String.mk (b.flatMap fun v => List.replicate v.toNat 'a' ++ ['b'])

/-- Reading unary: `acc` counts the `a` seen since the last `b`. -/
def unaryDecode (acc : Nat) : List Char → Option (List Byte)
  | [] => if acc = 0 then some [] else none
  | c :: cs =>
    if c = 'a' then unaryDecode (acc + 1) cs
    else if c = 'b' then (unaryDecode 0 cs).map fun vs => UInt8.ofNat acc :: vs
    else none

/-- The claims as a tuple of integers, byte values and a boolean. -/
def claimsTuple (c : JWTClaims) : Int × List Nat × List Nat × Bool × Int × Int :=
  (c.UserID, c.Email.map UInt8.toNat, c.Role.map UInt8.toNat, c.IsAdmin, c.ExpiresAt,
    c.IssuedAt)

def tupleClaims (t : Int × List Nat × List Nat × Bool × Int × Int) : JWTClaims :=
  ⟨t.1, t.2.1.map UInt8.ofNat, t.2.2.1.map UInt8.ofNat, t.2.2.2.1, t.2.2.2.2.1, t.2.2.2.2.2⟩

/-- Like `json.Marshal`, the stand-in writes the strings coerced to valid UTF-8. -/
def toyMarshal (c : JWTClaims) : List Byte :=
  (Nat.digits 256 (Encodable.encode (claimsTuple (coerceClaims c)))).map UInt8.ofNat

def toyUnmarshal (bs : List Byte) : Option JWTClaims :=
  (Encodable.decode (Nat.ofDigits 256 (bs.map UInt8.toNat))).map tupleClaims

/-! ## The two tasks of `saveAndHash`

`saveAndHash` runs its body and the hashing goroutine side by side; they meet at the pipe and
at the channel `hashResult`, which `make(chan ...)` creates without a buffer: a send on it
completes only together with a receive. The steps below are the places where one task can
move; what each computes is taken from the definitions above. -/

/-- Where the body of `saveAndHash` stands. -/
inductive MainPc where
  /-- In `io.Copy(mw, src)`. -/
  | copying
  /-- `io.Copy` has returned `written, copyErr`, having written `slices` to `pw`; next is
  `pw.Close()`. -/
  | closing (written : Int) (copyErr : Option Error) (slices : List (List Byte))
  /-- At `if copyErr != nil`. -/
  | checking (written : Int) (copyErr : Option Error)
  /-- At `result := <-hashResult`. -/
  | receiving (written : Int)
  /-- Returned `"", "", 0, copyErr`. -/
  | returnedCopyErr (e : Error)
  /-- Returned `"", "", 0, result.err`. -/
  | returnedHashErr (e : Error)
  /-- Returned `result.b3Hash, result.s256Hash, written, nil`. -/
  | returnedOk (b3Hash s256Hash : String) (written : Int)

/-- Where the hashing goroutine stands. -/
inductive HasherPc where
  /-- In `hash.DualHashWithProgress(pr, progressCallback)`. -/
  | hashing
  /-- At `hashResult <- ...`, with the result to send. -/
  | sending (result : HashResult)
  /-- The goroutine has returned. -/
  | finished

/-- The two tasks and the pipe: `closed` is `none` while `pw` is open and holds the slices
written once `pw.Close()` has run. -/
structure Tasks where
  main : MainPc
  hasher : HasherPc
  closed : Option (List (List Byte))

/-- The tasks when the goroutine has been started and the copy begins. -/
def Tasks.init : Tasks := ⟨MainPc.copying, HasherPc.hashing, none⟩

/-- The copy `io.Copy(mw, src)` of `saveAndHash` can return `written, copyErr` having written
`slices` to the pipe. -/
def CopyOutcome {σ ω : Type} (src : Reader σ) (dest : Writer ω) (s : σ) (d : ω) (written : Int)
    (copyErr : Option Error) (slices : List (List Byte)) : Prop :=
  ∃ (fuel : Nat) (w : PipeEnv σ ω),
    ioCopy (srcRead src) (multiWriterWrite [destWrite dest, pwWrite]) fuel
      { src := s, dest := d, pipe := [], trace := [] } 0 = some ((written, copyErr), w) ∧
    w.pipe = slices

/-- One step of one of the two tasks, or of both together at the channel. -/
inductive TaskStep {σ ω : Type} (B3 S256 : HashAlg) (src : Reader σ) (dest : Writer ω) (s : σ)
    (d : ω) : Tasks → Tasks → Prop
  /-- `io.Copy` returns. -/
  | copyReturns (st : Tasks) (written : Int) (copyErr : Option Error)
      (slices : List (List Byte)) :
      st.main = MainPc.copying → CopyOutcome src dest s d written copyErr slices →
      TaskStep B3 S256 src dest s d st { st with main := MainPc.closing written copyErr slices }
  /-- `pw.Close()`. -/
  | close (st : Tasks) (written : Int) (copyErr : Option Error) (slices : List (List Byte)) :
      st.main = MainPc.closing written copyErr slices →
      TaskStep B3 S256 src dest s d st
        { st with main := MainPc.checking written copyErr, closed := some slices }
  /-- `copyErr != nil`: return it. -/
  | copyFailed (st : Tasks) (written : Int) (e : Error) :
      st.main = MainPc.checking written (some e) →
      TaskStep B3 S256 src dest s d st { st with main := MainPc.returnedCopyErr e }
  /-- `copyErr == nil`: go on to the receive. -/
  | copyOk (st : Tasks) (written : Int) :
      st.main = MainPc.checking written none →
      TaskStep B3 S256 src dest s d st { st with main := MainPc.receiving written }
  /-- `DualHashWithProgress` returns: the goroutine has read the pipe to its end, which it
  sees only after `pw.Close()`. -/
  | hashReturns (st : Tasks) (slices : List (List Byte)) (fuel : Nat) (result : HashResult)
      (v : HashEnv (List (List Byte)) Unit) :
      st.hasher = HasherPc.hashing → st.closed = some slices →
      DualHashWithProgress B3 S256 pipeRead (some progressCallback) fuel slices () =
        some (result, v) →
      TaskStep B3 S256 src dest s d st { st with hasher := HasherPc.sending result }
  /-- The send and the receive on `hashResult`, together. -/
  | handOver (st : Tasks) (written : Int) (result : HashResult) :
      st.main = MainPc.receiving written → st.hasher = HasherPc.sending result →
      TaskStep B3 S256 src dest s d st
        { st with
          main := (match result.err with
            | some e => MainPc.returnedHashErr e
            | none => MainPc.returnedOk result.blake3Hash result.sha256Hash written),
          hasher := HasherPc.finished }

/-- The states of the two tasks that a call of `saveAndHash` can get to. -/
def Reachable {σ ω : Type} (B3 S256 : HashAlg) (src : Reader σ) (dest : Writer ω) (s : σ)
    (d : ω) (st : Tasks) : Prop :=
  Relation.ReflTransGen (TaskStep B3 S256 src dest s d) Tasks.init st

/-- What holds of every reachable state: before the receive the goroutine has not finished,
and the body gets to the receive only after a copy without error. -/
def TasksInv {σ ω : Type} (src : Reader σ) (dest : Writer ω) (s : σ) (d : ω) (st : Tasks) : Prop :=
  match st.main with
  | MainPc.copying => st.hasher = HasherPc.hashing ∧ st.closed = none
  | MainPc.closing written copyErr slices =>
    st.hasher = HasherPc.hashing ∧ st.closed = none ∧
      CopyOutcome src dest s d written copyErr slices
  | MainPc.checking written copyErr =>
    st.hasher ≠ HasherPc.finished ∧ ∃ slices, CopyOutcome src dest s d written copyErr slices
  | MainPc.receiving written =>
    st.hasher ≠ HasherPc.finished ∧ ∃ slices, CopyOutcome src dest s d written none slices
  | MainPc.returnedCopyErr e =>
    st.hasher ≠ HasherPc.finished ∧
      ∃ written slices, CopyOutcome src dest s d written (some e) slices
  | MainPc.returnedHashErr _ => ∃ written slices, CopyOutcome src dest s d written none slices
  | MainPc.returnedOk _ _ _ => ∃ written slices, CopyOutcome src dest s d written none slices

/-! ## internal/auth/jwt.go: the password policy -/

/-- The three flags of `ValidatePassword`. -/
structure PasswordFlags where
  hasUpper : Bool
  hasLower : Bool
  hasDigit : Bool
  deriving DecidableEq, Repr

/-- The `switch` in the loop of `ValidatePassword`: `'A' = 65`, `'Z' = 90`, `'a' = 97`,
`'z' = 122`, `'0' = 48`, `'9' = 57`. -/
def passwordStep (f : PasswordFlags) (char : Nat) : PasswordFlags :=
  if 65 ≤ char ∧ char ≤ 90 then { f with hasUpper := true }
  else if 97 ≤ char ∧ char ≤ 122 then { f with hasLower := true }
  else if 48 ≤ char ∧ char ≤ 57 then { f with hasDigit := true }
  else f

/-- `ValidatePassword(password)`; `none` is the nil error. -/
def ValidatePassword (password : List Byte) : Option AuthError :=
  if password.length < 8 then some AuthError.ErrWeakPassword
  else
    let f := (runes password).foldl passwordStep ⟨false, false, false⟩
    if !f.hasUpper || !f.hasLower || !f.hasDigit then some AuthError.ErrWeakPassword
    else none

/-! ## Standard library: `path/filepath` and `strings`, with `/` as the separator -/

/-- `filepath.Base(path)`: trailing slashes are stripped, then the last element is taken; an
empty path gives `.`, a path of slashes only gives `/`. (`46` is `.`, `47` is `/`.) -/
def filepathBase (path : List Byte) : List Byte :=
  if path = [] then [46]
  else
    let stripped := (path.reverse.dropWhile fun b => b == 47).reverse
    let last := (stripped.reverse.takeWhile fun b => b != 47).reverse
    if last = [] then [47] else last

/-- The loop of `filepath.Ext`, from the last byte backwards: `c` is `path[i]`, `seen` is
`path[i+1:]`. -/
def extLoop : List Byte → List Byte → List Byte
  | [], _ => []
  | c :: before, seen =>
    if c = 47 then []
    else if c = 46 then c :: seen
    else extLoop before (c :: seen)

/-- `filepath.Ext(path)`: the suffix beginning at the final dot of the final element, empty
if there is no dot. -/
def filepathExt (path : List Byte) : List Byte := extLoop path.reverse []

/-- `strings.TrimSuffix(s, suffix)`. -/
def stringsTrimSuffix (s suffix : List Byte) : List Byte :=
  if suffix.isSuffixOf s then s.take (s.length - suffix.length) else s

/-- The elements of a path: the pieces between the slashes. -/
def pathElements : List Byte → List (List Byte)
  | [] => [[]]
  | c :: cs =>
    if c = 47 then [] :: pathElements cs
    else
      match pathElements cs with
      | [] => [[c]]
      | p :: ps => (c :: p) :: ps

/-- One element in the loop of `filepath.Clean`, on the elements written so far: an empty
element and `.` are dropped; `..` removes the element before it, unless there is none or it
is itself a `..` that could not be removed, in which case `..` is kept in a path that is not
rooted and dropped in a rooted one. -/
def cleanStep (rooted : Bool) (out : List (List Byte)) (e : List Byte) : List (List Byte) :=
  if e = [] ∨ e = [46] then out
  else if e = [46, 46] then
    match out.getLast? with
    | some top =>
      if top ≠ [46, 46] then out.dropLast
      else if rooted then out
      else out ++ [e]
    | none => if rooted then out else out ++ [e]
  else out ++ [e]

/-- The elements of `filepath.Clean(path)`. -/
def cleanElements (path : List Byte) : List (List Byte) :=
  (pathElements path).foldl (cleanStep (path.head? == some 47)) []

/-- Elements joined by slashes. -/
def joinElements : List (List Byte) → List Byte
  | [] => []
  | [e] => e
  | e :: es => e ++ 47 :: joinElements es

/-- `filepath.Clean(path)`: the shortest path equivalent to `path` by lexical processing. -/
def filepathClean (path : List Byte) : List Byte :=
  if path = [] then [46]
  else if path.head? == some 47 then 47 :: joinElements (cleanElements path)
  else if cleanElements path = [] then [46]
  else joinElements (cleanElements path)

/-- `filepath.Join(dir, name)`: empty elements are ignored, the rest is joined by slashes and
cleaned. -/
def filepathJoin (dir name : List Byte) : List Byte :=
  if dir ≠ [] then filepathClean (dir ++ 47 :: name)
  else if name ≠ [] then filepathClean name
  else []

/-! ## internal/api/validation.go

The regular expressions of the file are written as the tests on bytes that they are. All of
them look for ASCII bytes only, and an ASCII byte of a Go string is a rune of its own whether
or not the string is valid UTF-8, so a test on bytes says what `MatchString` says. -/

/-- The class `\s` of package `regexp`: tab, line feed, form feed, carriage return, space. -/
def isSpace (b : Byte) : Bool := b == 9 || b == 10 || b == 12 || b == 13 || b == 32

/-- The expression `\.\.`: two dots in a row somewhere. -/
def hasDotDot : List Byte → Bool
  | [] => false
  | a :: t => (a == 46 && t.head? == some 46) || hasDotDot t

/-- `dangerousPatterns`, in the order of the source: `\.\.`, `^/`, a backslash (`92`), one of
`<>:"|?*` (`60`, `62`, `58`, `34`, `124`, `63`, `42`), `^\s+`, `\s+$`. -/
def dangerousPatterns : List (List Byte → Bool) :=
  [hasDotDot,
   fun s => s.head? == some 47,
   fun s => s.contains 92,
   fun s => s.any fun b => [60, 62, 58, 34, 124, 63, 42].contains b,
   fun s => (s.head?.map isSpace).getD false,
   fun s => (s.getLast?.map isSpace).getD false]

/-- What the `strings.NewReplacer` of `sanitizeFilename` does to one byte: space, `(`, `)`,
`[`, `]`, `\x7b`, `\x7d` (`32`, `40`, `41`, `91`, `93`, `123`, `125`) become `_` (`95`), `&`
(`38`) becomes `and`, the two quotes (`39`, `34`) disappear. -/
def replacerByte (b : Byte) : List Byte :=
  if b = 32 ∨ b = 40 ∨ b = 41 ∨ b = 91 ∨ b = 93 ∨ b = 123 ∨ b = 125 then [95]
  else if b = 38 then [97, 110, 100]
  else if b = 39 ∨ b = 34 then []
  else [b]

/-- `replacer.Replace(s)`: every old string is one byte, so each byte is replaced on its
own. -/
def replacerReplace (s : List Byte) : List Byte := s.flatMap replacerByte

/-- `multiUnderscore.ReplaceAllString(s, "_")` for the expression `_{2,}`: every run of two
or more underscores becomes one underscore. -/
def collapseUnderscores : List Byte → List Byte
  | [] => []
  | a :: t =>
    if a = 95 ∧ t.head? = some 95 then collapseUnderscores t
    else a :: collapseUnderscores t

/-- `strings.Trim(s, "_")`. -/
def trimUnderscores (s : List Byte) : List Byte :=
  ((s.dropWhile fun b => b == 95).reverse.dropWhile fun b => b == 95).reverse

deriving instance DecidableEq for Except

/-- The length limit of `sanitizeFilename`, on the base name. The slice
`nameWithoutExt[:maxNameLen]` is in range, because the name is longer than 255 bytes and the
extension is part of it (`truncate_in_range`). -/
def limitLength (filename : List Byte) : Except String (List Byte) :=
  if filename.length > 255 then
    let ext := filepathExt filename
    let nameWithoutExt := stringsTrimSuffix filename ext
    let maxNameLen : Int := 255 - (ext.length : Int)
    if maxNameLen > 0 then Except.ok (nameWithoutExt.take maxNameLen.toNat ++ ext)
    else Except.error "filename too long"
  else Except.ok filename

/-- `sanitizeFilename(filename)`. -/
def sanitizeFilename (filename : List Byte) : Except String (List Byte) :=
  if filename = [] then Except.error "filename cannot be empty"
  else if dangerousPatterns.any (fun pattern => pattern filename) then
    Except.error "filename contains invalid characters or patterns"
  else
    match limitLength (filepathBase filename) with
    | Except.error e => Except.error e
    | Except.ok limited =>
      let cleaned := trimUnderscores (collapseUnderscores (replacerReplace limited))
      if cleaned = [] ∨ cleaned = [46] ∨ cleaned = [46, 46] then
        Except.error "invalid filename after sanitization"
      else Except.ok cleaned

/-! ## Standard library: `net.SplitHostPort` and `http.Header.Get` -/

/-- The errors of `net.SplitHostPort` (the `Err` of its `*AddrError`). -/
inductive AddrError where
  | missingPort
  | tooManyColons
  | missingBracket
  | unexpectedOpen
  | unexpectedClose
  deriving DecidableEq, Repr

/-- `bytealg.IndexByteString(s, c)`; `none` is `-1`. -/
def indexByte (s : List Byte) (c : Byte) : Option Nat :=
  if s.indexOf c < s.length then some (s.indexOf c) else none

/-- `bytealg.LastIndexByteString(s, c)`; `none` is `-1`. -/
def lastIndexByte (s : List Byte) (c : Byte) : Option Nat :=
  if s.reverse.indexOf c < s.length then some (s.length - 1 - s.reverse.indexOf c) else none

/-- The end of `net.SplitHostPort`: no `[` (`91`) from position `j` on, no `]` (`93`) from
position `k` on; the port is what follows the colon at position `i`. -/
def splitFinish (hostport host : List Byte) (i j k : Nat) :
    Except AddrError (List Byte × List Byte) :=
  if (hostport.drop j).contains 91 then Except.error AddrError.unexpectedOpen
  else if (hostport.drop k).contains 93 then Except.error AddrError.unexpectedClose
  else Except.ok (host, hostport.drop (i + 1))

/-- `net.SplitHostPort(hostport)`: host and port of `host:port`, `[host]:port` and the like.
The port starts after the last colon (`58`). -/
def SplitHostPort (hostport : List Byte) : Except AddrError (List Byte × List Byte) :=
  match lastIndexByte hostport 58 with
  | none => Except.error AddrError.missingPort
  | some i =>
    if hostport.head? = some 91 then
      match indexByte hostport 93 with
      | none => Except.error AddrError.missingBracket
      | some close =>
        if close + 1 = hostport.length then Except.error AddrError.missingPort
        else if close + 1 = i then
          splitFinish hostport ((hostport.take close).drop 1) i 1 (close + 1)
        else if hostport.get? (close + 1) = some 58 then Except.error AddrError.tooManyColons
        else Except.error AddrError.missingPort
    else if (hostport.take i).contains 58 then Except.error AddrError.tooManyColons
    else splitFinish hostport (hostport.take i) i 0 0

/-- The part of `http.Request` that `getIP` reads. `Header key` is the list of values stored
for the header that `Header.Get(key)` looks up (`Get` brings `key` into its canonical form,
under which the server stored the header). -/
structure Request where
  Header : String → List (List Byte)
  RemoteAddr : List Byte

/-- `r.Header.Get(key)`: the first value, or the empty string when there is none. -/
def Request.headerGet (r : Request) (key : String) : List Byte := ((r.Header key).head?).getD []

/-! ## internal/api/ratelimit.go: `getIP` -/

/-- `getIP(r)`. -/
def getIP (r : Request) : List Byte :=
  if r.headerGet "X-Forwarded-For" ≠ [] then
    match SplitHostPort (r.headerGet "X-Forwarded-For") with
    | Except.ok (ip, _) => ip
    | Except.error _ => r.headerGet "X-Forwarded-For"
  else if r.headerGet "X-Real-IP" ≠ [] then r.headerGet "X-Real-IP"
  else
    match SplitHostPort r.RemoteAddr with
    | Except.ok (ip, _) => ip
    | Except.error _ => r.RemoteAddr

/-- In the words of the claim: the first entry of a comma-separated list (`44` is the
comma). -/
def firstListed (xff : List Byte) : List Byte := xff.takeWhile fun b => b != 44

/-! ## internal/api/cache.go

The cache is modelled as its fields; a call is a function on them, which is what the calls
are when they do not overlap in time. A slice is `none` when it is nil. The elements are the
pointers `*models.Package`, of which nothing is looked at. -/

structure PackageCache (α : Type) where
  packages : Option (List α)
  lastUpdated : Option Int
  enabled : Bool

/-- `NewPackageCache()`; `lastUpdated = none` is the zero time. -/
def NewPackageCache (α : Type) : PackageCache α := ⟨some [], none, true⟩

/-- `c.Get()`. -/
def PackageCache.Get {α : Type} (c : PackageCache α) : Option (List α) × Bool :=
  if !c.enabled then (none, false)
  else
    match c.packages with
    | none => (none, false)
    | some ps => if ps.length = 0 then (none, false) else (some ps, true)

/-- `c.Set(packages)` with `time.Now()` returning `now`. -/
def PackageCache.Set {α : Type} (c : PackageCache α) (packages : Option (List α)) (now : Int) :
    PackageCache α :=
  if !c.enabled then c
  else { c with packages := packages, lastUpdated := some now }

/-- `c.Invalidate()`. -/
def PackageCache.Invalidate {α : Type} (c : PackageCache α) : PackageCache α :=
  { c with packages := none, lastUpdated := none }

/-- `c.Enable()`. -/
def PackageCache.Enable {α : Type} (c : PackageCache α) : PackageCache α :=
  { c with enabled := true }

/-- `c.Disable()`. -/
def PackageCache.Disable {α : Type} (c : PackageCache α) : PackageCache α :=
  { c with enabled := false, packages := none }

/-- A call on the cache. `Get`, `LastUpdated` and `Size` only read. -/
inductive CacheCall (α : Type) where
  | Get
  | Set (packages : Option (List α)) (now : Int)
  | Invalidate
  | Enable
  | Disable
  | LastUpdated
  | Size

/-- The cache after a call. -/
def PackageCache.call {α : Type} (c : PackageCache α) : CacheCall α → PackageCache α
  | CacheCall.Get => c
  | CacheCall.Set packages now => c.Set packages now
  | CacheCall.Invalidate => c.Invalidate
  | CacheCall.Enable => c.Enable
  | CacheCall.Disable => c.Disable
  | CacheCall.LastUpdated => c
  | CacheCall.Size => c

/-- The cache after a sequence of calls. -/
def PackageCache.calls {α : Type} (c : PackageCache α) (l : List (CacheCall α)) :
    PackageCache α :=
  l.foldl PackageCache.call c

def CacheCall.isSet {α : Type} : CacheCall α → Bool
  | CacheCall.Set _ _ => true
  | _ => false

def CacheCall.isEnable {α : Type} : CacheCall α → Bool
  | CacheCall.Enable => true
  | _ => false

/-! ## The sink and the callback, as the calls leave them -/

/-- The state of a sink after the calls `Write(p)` for the slices `ps`, in this order, from
state `d`. -/
def writeAll {ω : Type} (wr : Writer ω) (d : ω) (ps : List (List Byte)) : ω :=
  ps.foldl (fun st p => (wr st p).2) d

/-- The slices handed to `dest.Write`, oldest first, as a trace shows them. -/
def sinkWrites : List Event → List (List Byte)
  | [] => []
  | Event.destWrite p _ :: t => p :: sinkWrites t
  | _ :: t => sinkWrites t

/-- The state of a callback after it was invoked with the values `vs`, in this order, from
state `k`. -/
def invokeAll {κ : Type} (f : ProgressCallback κ) (k : κ) (vs : List Int) : κ := vs.foldl f k

/-! # Theorems -/

/-! ## Arithmetic of `int64` counters -/

theorem wrap64_of_range (x : Int) (h0 : -(2 ^ 63) ≤ x) (h1 : x < 2 ^ 63) : wrap64 x = x := by
  unfold wrap64
  omega

theorem wrap64_wrap64_add (a b : Int) : wrap64 (wrap64 a + b) = wrap64 (a + b) := by
  unfold wrap64
  omega

theorem wrap64_idem (a : Int) : wrap64 (wrap64 a) = wrap64 a := by
  unfold wrap64
  omega

/-! ## One iteration of `io.Copy` -/

theorem ioCopy_step_empty {W : Type} (src : Reader W) (dst : Writer W) (fuel : Nat) (w w1 : W)
    (written : Int) (er : Option Error) (h : src w copyBufSize = (⟨[], er⟩, w1)) :
    ioCopy src dst (fuel + 1) w written =
      match er with
      | none => ioCopy src dst fuel w1 written
      | some e => some ((written, stopErr e), w1) := by
  simp only [ioCopy, h]
  cases er with
  | none => simp
  | some e => cases e <;> simp [stopErr]

theorem ioCopy_step_full {W : Type} (src : Reader W) (dst : Writer W) (fuel : Nat) (w w1 w2 : W)
    (written : Int) (d : List Byte) (er : Option Error) (hd : d ≠ [])
    (h : src w copyBufSize = (⟨d, er⟩, w1)) (hw : dst w1 d = (⟨d.length, none⟩, w2)) :
    ioCopy src dst (fuel + 1) w written =
      match er with
      | none => ioCopy src dst fuel w2 (wrap64 (written + d.length))
      | some e => some ((wrap64 (written + d.length), stopErr e), w2) := by
  have hpos : (0 : Int) < (d.length : Int) := by
    have := List.length_pos.mpr hd
    omega
  have hneg : ¬ ((d.length : Int) < 0) := by omega
  simp only [ioCopy, h, hw, hpos]
  cases er with
  | none => simp [hneg]
  | some e => cases e <;> simp [stopErr, hneg]

theorem ioCopy_step_fail {W : Type} (src : Reader W) (dst : Writer W) (fuel : Nat) (w w1 w2 : W)
    (written : Int) (d : List Byte) (er : Option Error) (n : Int) (e : Error) (hd : d ≠ [])
    (h : src w copyBufSize = (⟨d, er⟩, w1)) (hw : dst w1 d = (⟨n, some e⟩, w2)) :
    ioCopy src dst (fuel + 1) w written =
      some ((wrap64 (written + if n < 0 ∨ (d.length : Int) < n then 0 else n), some e), w2) := by
  have hpos : (0 : Int) < (d.length : Int) := by
    have := List.length_pos.mpr hd
    omega
  simp only [ioCopy, h, hw, hpos]
  simp

/-! ## The sequential hasher on a reader that stops -/

theorem multiWriter_hashers {σ κ : Type} (w : HashEnv σ κ) (p : List Byte) :
    multiWriterWrite [b3Write, s256Write] w p =
      (⟨p.length, none⟩, { w with b3 := w.b3 ++ p, s256 := w.s256 ++ p }) := by
  simp [multiWriterWrite, b3Write, s256Write]

theorem readerOver_readR {σ κ : Type} (rd : Reader σ) : ReaderOver rd (readR rd : Reader (HashEnv σ κ)) := by
  intro w n
  simp [readR]

theorem readerOver_progress {σ κ : Type} (rd : Reader σ) (cb : Option (ProgressCallback κ)) :
    ReaderOver rd (progressReader.Read rd cb) := by
  intro w n
  unfold progressReader.Read readR
  cases cb <;> simp only [] <;> split <;> simp [invoke]

/-- The copy loop of `DualHashWithProgress` on a reader whose reads return `ds` and then stop
with `e`: with enough fuel it returns, having fed `ds.flatten` to both hashers. -/
theorem ioCopy_hash {σ κ : Type} (rd : Reader σ) (R : Reader (HashEnv σ κ)) (hR : ReaderOver rd R)
    {s : σ} {ds : List (List Byte)} {e : Error} {s1 : σ} (h : Reads rd copyBufSize s ds e s1) :
    ∀ (w : HashEnv σ κ) (written : Int), w.r = s → wrap64 written = written →
      ∃ N w1, (w1.r = s1 ∧ w1.b3 = w.b3 ++ ds.flatten ∧ w1.s256 = w.s256 ++ ds.flatten ∧
          w1.reads = w.reads + ds.length) ∧
        ∀ fuel, N ≤ fuel →
          ioCopy R (multiWriterWrite [b3Write, s256Write]) fuel w written =
            some ((wrap64 (written + ds.flatten.length), stopErr e), w1) := by
  induction h with
  | @last s d e s1 hrd _ =>
    intro w written hw hwr
    obtain ⟨h1, h2, h3, h4, h5⟩ := hR w copyBufSize
    rw [hw, hrd] at h1 h2
    have hsrc : R w copyBufSize = (⟨d, some e⟩, (R w copyBufSize).2) := Prod.ext h1 rfl
    simp only [] at h2
    by_cases hd : d = []
    · subst hd
      refine ⟨1, (R w copyBufSize).2, ⟨h2, by simp [h3], by simp [h4], by simp [h5]⟩,
        fun fuel hfuel => ?_⟩
      obtain ⟨f, rfl⟩ : ∃ f, fuel = f + 1 := ⟨fuel - 1, by omega⟩
      rw [ioCopy_step_empty _ _ _ _ _ _ _ hsrc]
      simp [hwr]
    · refine ⟨1, { (R w copyBufSize).2 with
          b3 := (R w copyBufSize).2.b3 ++ d, s256 := (R w copyBufSize).2.s256 ++ d },
        by simp [h2, h3, h4, h5], fun fuel hfuel => ?_⟩
      obtain ⟨f, rfl⟩ : ∃ f, fuel = f + 1 := ⟨fuel - 1, by omega⟩
      rw [ioCopy_step_full _ _ _ _ _ _ _ _ _ hd hsrc (multiWriter_hashers _ _)]
      simp
  | @more s d s1 ds e s2 hrd _ _ ih =>
    intro w written hw hwr
    obtain ⟨h1, h2, h3, h4, h5⟩ := hR w copyBufSize
    rw [hw, hrd] at h1 h2
    have hsrc : R w copyBufSize = (⟨d, none⟩, (R w copyBufSize).2) := Prod.ext h1 rfl
    simp only [] at h2
    by_cases hd : d = []
    · subst hd
      obtain ⟨N, w1, ⟨hr, hb, hs, hn⟩, hN⟩ := ih (R w copyBufSize).2 written h2 hwr
      refine ⟨N + 1, w1, ⟨hr, by simpa [h3] using hb, by simpa [h4] using hs, ?_⟩,
        fun fuel hfuel => ?_⟩
      · rw [hn, h5]
        simp
        omega
      · obtain ⟨f, rfl⟩ : ∃ f, fuel = f + 1 := ⟨fuel - 1, by omega⟩
        rw [ioCopy_step_empty _ _ _ _ _ _ _ hsrc]
        simpa using hN f (by omega)
    · obtain ⟨N, w1, ⟨hr, hb, hs, hn⟩, hN⟩ := ih { (R w copyBufSize).2 with
          b3 := (R w copyBufSize).2.b3 ++ d, s256 := (R w copyBufSize).2.s256 ++ d }
        (wrap64 (written + d.length)) h2 (wrap64_idem _)
      refine ⟨N + 1, w1, ⟨hr, by simpa [h3] using hb, by simpa [h4] using hs, ?_⟩,
        fun fuel hfuel => ?_⟩
      · rw [hn]
        simp [h5]
        omega
      · obtain ⟨f, rfl⟩ : ∃ f, fuel = f + 1 := ⟨fuel - 1, by omega⟩
        rw [ioCopy_step_full _ _ _ _ _ _ _ _ _ hd hsrc (multiWriter_hashers _ _)]
        simp only []
        rw [hN f (by omega), wrap64_wrap64_add]
        simp [add_assoc]

/-! ## The chunked hasher on a reader that stops -/

theorem afterChunk_fields {σ κ : Type} (progress : Option (ProgressCallback κ)) (w : HashEnv σ κ)
    (d : List Byte) (s1 : σ) :
    (afterChunk progress w d s1).r = s1 ∧ (afterChunk progress w d s1).b3 = w.b3 ++ d ∧
      (afterChunk progress w d s1).s256 = w.s256 ++ d ∧
      (afterChunk progress w d s1).reads = w.reads + 1 := by
  unfold afterChunk
  by_cases hd : 0 < d.length
  · cases progress <;> simp [hd, invoke]
  · have : d = [] := List.length_eq_zero.mp (by omega)
    subst this
    simp

theorem chunkLoop_step {σ κ : Type} (rd : Reader σ) (progress : Option (ProgressCallback κ))
    (b fuel : Nat) (w : HashEnv σ κ) (d : List Byte) (er : Option Error) (s1 : σ)
    (h : rd w.r b = (⟨d, er⟩, s1)) :
    chunkLoop rd progress b (fuel + 1) w =
      match er with
      | none => chunkLoop rd progress b fuel (afterChunk progress w d s1)
      | some e => some (stopErr e, afterChunk progress w d s1) := by
  by_cases hd : 0 < d.length
  · cases progress <;> cases er with
    | none => simp [chunkLoop, teeReaderRead, readR, s256Write, b3Write, afterChunk, h, hd]
    | some e => cases e <;>
        simp [chunkLoop, teeReaderRead, readR, s256Write, b3Write, afterChunk, h, hd, stopErr]
  · cases er with
    | none => simp [chunkLoop, teeReaderRead, readR, afterChunk, h, hd]
    | some e => cases e <;> simp [chunkLoop, teeReaderRead, readR, afterChunk, h, hd, stopErr]

/-- The loop of `parallelHashLargeFile`, for any buffer size, on a reader whose reads return
`ds` and then stop with `e`: with enough fuel it ends, having fed `ds.flatten` to both hashers
and performed exactly one read per slice. -/
theorem chunkLoop_hash {σ κ : Type} (rd : Reader σ) (progress : Option (ProgressCallback κ))
    (b : Nat) {s : σ} {ds : List (List Byte)} {e : Error} {s1 : σ} (h : Reads rd b s ds e s1) :
    ∀ (w : HashEnv σ κ), w.r = s →
      ∃ N w1, (w1.r = s1 ∧ w1.b3 = w.b3 ++ ds.flatten ∧ w1.s256 = w.s256 ++ ds.flatten ∧
          w1.reads = w.reads + ds.length) ∧
        ∀ fuel, N ≤ fuel → chunkLoop rd progress b fuel w = some (stopErr e, w1) := by
  induction h with
  | @last s d e s1 hrd _ =>
    intro w hw
    rw [← hw] at hrd
    obtain ⟨h1, h2, h3, h4⟩ := afterChunk_fields progress w d s1
    refine ⟨1, afterChunk progress w d s1, ⟨h1, by simp [h2], by simp [h3], by simp [h4]⟩,
      fun fuel hfuel => ?_⟩
    obtain ⟨f, rfl⟩ : ∃ f, fuel = f + 1 := ⟨fuel - 1, by omega⟩
    rw [chunkLoop_step rd progress b f w d (some e) s1 hrd]
  | @more s d s1 ds e s2 hrd _ _ ih =>
    intro w hw
    rw [← hw] at hrd
    obtain ⟨h1, h2, h3, h4⟩ := afterChunk_fields progress w d s1
    obtain ⟨N, w1, ⟨hr, hb, hs, hn⟩, hN⟩ := ih (afterChunk progress w d s1) h1
    refine ⟨N + 1, w1, ⟨hr, by simpa [h2] using hb, by simpa [h3] using hs, ?_⟩,
      fun fuel hfuel => ?_⟩
    · rw [hn, h4]
      simp
      omega
    · obtain ⟨f, rfl⟩ : ∃ f, fuel = f + 1 := ⟨fuel - 1, by omega⟩
      rw [chunkLoop_step rd progress b f w d none s1 hrd]
      exact hN f (by omega)

/-! ## The copying side of `saveAndHash` -/

theorem sinkBytes_append (a b : List Event) : sinkBytes (a ++ b) = sinkBytes a ++ sinkBytes b := by
  induction a with
  | nil => rfl
  | cons ev t ih => cases ev <;> simp [sinkBytes, ih]

theorem pipeBytes_append (a b : List Event) : pipeBytes (a ++ b) = pipeBytes a ++ pipeBytes b := by
  induction a with
  | nil => rfl
  | cons ev t ih => cases ev <;> simp [pipeBytes, ih]

theorem mw_accept {σ ω : Type} (wr : Writer ω) (w : PipeEnv σ ω) (p : List Byte) (d1 : ω)
    (h : wr w.dest p = (⟨p.length, none⟩, d1)) :
    multiWriterWrite [destWrite wr, pwWrite] w p =
      (⟨p.length, none⟩,
        { src := w.src, dest := d1, pipe := w.pipe ++ [p], trace :=
            w.trace ++ [Event.destWrite p ⟨p.length, none⟩, Event.pipeWrite p] }) := by
  simp [multiWriterWrite, destWrite, pwWrite, h]

theorem mw_fail {σ ω : Type} (wr : Writer ω) (w : PipeEnv σ ω) (p : List Byte) (d1 : ω) (n : Int)
    (e : Error) (h : wr w.dest p = (⟨n, some e⟩, d1)) :
    multiWriterWrite [destWrite wr, pwWrite] w p =
      (⟨n, some e⟩, { w with dest := d1, trace := w.trace ++ [Event.destWrite p ⟨n, some e⟩] }) := by
  simp [multiWriterWrite, destWrite, h]

/-- The copy loop of `saveAndHash` on a source whose reads return `ds` and then stop with `e`,
into a sink that accepts all writes: with enough fuel it returns, the count is the number of
bytes read, and both the sink and the pipe have been written `ds.flatten`. -/
theorem saveCopy_accepts {σ ω : Type} (rd : Reader σ) (wr : Writer ω) (hacc : Accepts wr)
    {s : σ} {ds : List (List Byte)} {e : Error} {s1 : σ} (h : Reads rd copyBufSize s ds e s1) :
    ∀ (w : PipeEnv σ ω) (written : Int), w.src = s → wrap64 written = written →
      ∃ N w1, (w1.src = s1 ∧ w1.pipe.flatten = w.pipe.flatten ++ ds.flatten ∧
          sinkBytes w1.trace = sinkBytes w.trace ++ ds.flatten ∧
          pipeBytes w1.trace = pipeBytes w.trace ++ ds.flatten) ∧
        ∀ fuel, N ≤ fuel →
          ioCopy (srcRead rd) (multiWriterWrite [destWrite wr, pwWrite]) fuel w written =
            some ((wrap64 (written + ds.flatten.length), stopErr e), w1) := by
  induction h with
  | @last s d e s1 hrd _ =>
    intro w written hw hwr
    have hsrc : srcRead rd w copyBufSize = (⟨d, some e⟩,
        { w with src := s1, trace := w.trace ++ [Event.srcRead ⟨d, some e⟩] }) := by
      simp [srcRead, hw, hrd]
    by_cases hd : d = []
    · subst hd
      refine ⟨1, { w with src := s1, trace := w.trace ++ [Event.srcRead ⟨[], some e⟩] },
        by simp [sinkBytes_append, pipeBytes_append, sinkBytes, pipeBytes], fun fuel hfuel => ?_⟩
      obtain ⟨f, rfl⟩ : ∃ f, fuel = f + 1 := ⟨fuel - 1, by omega⟩
      rw [ioCopy_step_empty _ _ _ _ _ _ _ hsrc]
      simp [hwr]
    · have hwd : wr w.dest d = (⟨d.length, none⟩, (wr w.dest d).2) := Prod.ext (hacc w.dest d) rfl
      refine ⟨1, { src := s1, dest := (wr w.dest d).2, pipe := w.pipe ++ [d], trace :=
          w.trace ++ [Event.srcRead ⟨d, some e⟩] ++
            [Event.destWrite d ⟨d.length, none⟩, Event.pipeWrite d] },
        by simp [sinkBytes_append, pipeBytes_append, sinkBytes, pipeBytes], fun fuel hfuel => ?_⟩
      obtain ⟨f, rfl⟩ : ∃ f, fuel = f + 1 := ⟨fuel - 1, by omega⟩
      rw [ioCopy_step_full _ _ _ _ _ _ _ _ _ hd hsrc (mw_accept wr _ d _ hwd)]
      simp
  | @more s d s1 ds e s2 hrd _ _ ih =>
    intro w written hw hwr
    have hsrc : srcRead rd w copyBufSize = (⟨d, none⟩,
        { w with src := s1, trace := w.trace ++ [Event.srcRead ⟨d, none⟩] }) := by
      simp [srcRead, hw, hrd]
    by_cases hd : d = []
    · subst hd
      obtain ⟨N, w1, ⟨hr, hp, hs, hq⟩, hN⟩ :=
        ih { w with src := s1, trace := w.trace ++ [Event.srcRead ⟨[], none⟩] } written rfl hwr
      refine ⟨N + 1, w1, ⟨hr, by simpa using hp, by simpa [sinkBytes_append, sinkBytes] using hs,
        by simpa [pipeBytes_append, pipeBytes] using hq⟩, fun fuel hfuel => ?_⟩
      obtain ⟨f, rfl⟩ : ∃ f, fuel = f + 1 := ⟨fuel - 1, by omega⟩
      rw [ioCopy_step_empty _ _ _ _ _ _ _ hsrc]
      simpa using hN f (by omega)
    · have hwd : wr w.dest d = (⟨d.length, none⟩, (wr w.dest d).2) := Prod.ext (hacc w.dest d) rfl
      obtain ⟨N, w1, ⟨hr, hp, hs, hq⟩, hN⟩ := ih
        { src := s1, dest := (wr w.dest d).2, pipe := w.pipe ++ [d], trace :=
            w.trace ++ [Event.srcRead ⟨d, none⟩] ++
              [Event.destWrite d ⟨d.length, none⟩, Event.pipeWrite d] }
        (wrap64 (written + d.length)) rfl (wrap64_idem _)
      refine ⟨N + 1, w1, ⟨hr, by simpa using hp, by simpa [sinkBytes_append, sinkBytes] using hs,
        by simpa [pipeBytes_append, pipeBytes] using hq⟩, fun fuel hfuel => ?_⟩
      obtain ⟨f, rfl⟩ : ∃ f, fuel = f + 1 := ⟨fuel - 1, by omega⟩
      rw [ioCopy_step_full _ _ _ _ _ _ _ _ _ hd hsrc (mw_accept wr _ d _ hwd)]
      simp only []
      rw [hN f (by omega), wrap64_wrap64_add]
      simp [add_assoc]

/-! ## The two hashers, end to end -/

theorem dualHash_reads {σ κ : Type} (B3 S256 : HashAlg) (rd : Reader σ)
    (progress : Option (ProgressCallback κ)) (k : κ)
    {s : σ} {ds : List (List Byte)} {e : Error} {s1 : σ} (h : Reads rd copyBufSize s ds e s1) :
    ∃ N w, (w.r = s1 ∧ w.b3 = ds.flatten ∧ w.s256 = ds.flatten ∧ w.reads = ds.length) ∧
      ∀ fuel, N ≤ fuel →
        DualHashWithProgress B3 S256 rd progress fuel s k =
          some (finish B3 S256 (stopErr e) w, w) := by
  cases progress with
  | none =>
    obtain ⟨N, w, ⟨hr, hb, hs, hn⟩, hN⟩ :=
      ioCopy_hash rd (readR rd) (readerOver_readR rd) h (HashEnv.init s k) 0 rfl (by decide)
    refine ⟨N, w, ⟨hr, by simpa [HashEnv.init] using hb, by simpa [HashEnv.init] using hs,
      by simpa [HashEnv.init] using hn⟩, fun fuel hfuel => ?_⟩
    simp [DualHashWithProgress, hN fuel hfuel]
  | some f =>
    obtain ⟨N, w, ⟨hr, hb, hs, hn⟩, hN⟩ := ioCopy_hash rd (progressReader.Read rd (some f))
      (readerOver_progress rd (some f)) h (HashEnv.init s k) 0 rfl (by decide)
    refine ⟨N, w, ⟨hr, by simpa [HashEnv.init] using hb, by simpa [HashEnv.init] using hs,
      by simpa [HashEnv.init] using hn⟩, fun fuel hfuel => ?_⟩
    simp [DualHashWithProgress, hN fuel hfuel]

theorem chunked_reads {σ κ : Type} (B3 S256 : HashAlg) (b : Nat) (rd : Reader σ)
    (progress : Option (ProgressCallback κ)) (k : κ)
    {s : σ} {ds : List (List Byte)} {e : Error} {s1 : σ} (h : Reads rd b s ds e s1) :
    ∃ N w, (w.r = s1 ∧ w.b3 = ds.flatten ∧ w.s256 = ds.flatten ∧ w.reads = ds.length) ∧
      ∀ fuel, N ≤ fuel →
        parallelHashLargeFileWith B3 S256 b rd progress fuel s k =
          some (finish B3 S256 (stopErr e) w, w) := by
  obtain ⟨N, w, ⟨hr, hb, hs, hn⟩, hN⟩ := chunkLoop_hash rd progress b h (HashEnv.init s k) rfl
  refine ⟨N, w, ⟨hr, by simpa [HashEnv.init] using hb, by simpa [HashEnv.init] using hs,
    by simpa [HashEnv.init] using hn⟩, fun fuel hfuel => ?_⟩
  simp [parallelHashLargeFileWith, hN fuel hfuel]

theorem finish_eof {σ κ : Type} (B3 S256 : HashAlg) (w : HashEnv σ κ) :
    finish B3 S256 (stopErr Error.EOF) w =
      ⟨hexEncodeToString (B3.sum w.b3), hexEncodeToString (S256.sum w.s256), none⟩ := rfl

theorem finish_err {σ κ : Type} (B3 S256 : HashAlg) (w : HashEnv σ κ) (e : Error)
    (he : e ≠ Error.EOF) : finish B3 S256 (stopErr e) w = ⟨"", "", some e⟩ := by
  cases e <;> simp_all [finish, stopErr]

/-! ## The read end of the pipe -/

theorem pipeRead_reads (n : Nat) (hn : 0 < n) :
    ∀ (m : Nat) (q : List (List Byte)), q.flatten.length + q.length ≤ m →
      ∃ ds, Reads pipeRead n q ds Error.EOF [] ∧ ds.flatten = q.flatten := by
  intro m
  induction m with
  | zero =>
    intro q hq
    have : q = [] := List.length_eq_zero.mp (by omega)
    subst this
    exact ⟨[[]], Reads.last (by simp [pipeRead]) (by simp), by simp⟩
  | succ m ih =>
    intro q hq
    cases q with
    | nil => exact ⟨[[]], Reads.last (by simp [pipeRead]) (by simp), by simp⟩
    | cons p rest =>
      by_cases hp : p.length ≤ n
      · obtain ⟨ds, hds, hfl⟩ := ih rest (by
          simp only [List.flatten_cons, List.length_append, List.length_cons] at hq
          omega)
        exact ⟨p :: ds, Reads.more (by simp [pipeRead, hp]) hp hds, by simp [hfl]⟩
      · obtain ⟨ds, hds, hfl⟩ := ih (p.drop n :: rest) (by
          simp only [List.flatten_cons, List.length_append, List.length_cons,
            List.length_drop] at hq ⊢
          omega)
        refine ⟨p.take n :: ds, Reads.more (by simp [pipeRead, hp]) (List.length_take_le n p) hds, ?_⟩
        simp [hfl, ← List.append_assoc]

/-! ## `saveAndHash`, end to end -/

theorem saveAndHash_accepts {σ ω : Type} (B3 S256 : HashAlg) (rd : Reader σ) (wr : Writer ω)
    (hacc : Accepts wr) (d0 : ω) {s : σ} {ds : List (List Byte)} {s1 : σ}
    (h : Reads rd copyBufSize s ds Error.EOF s1) :
    ∃ N w, (w.src = s1 ∧ sinkBytes w.trace = ds.flatten ∧ pipeBytes w.trace = ds.flatten) ∧
      ∀ fuel, N ≤ fuel →
        saveAndHash B3 S256 rd wr fuel s d0 =
          some (⟨hexEncodeToString (B3.sum ds.flatten), hexEncodeToString (S256.sum ds.flatten),
            wrap64 ds.flatten.length, none⟩, w) := by
  obtain ⟨N1, w, ⟨hr, hp, hs, hq⟩, hN1⟩ := saveCopy_accepts rd wr hacc h
    { src := s, dest := d0, pipe := [], trace := [] } 0 rfl (by decide)
  obtain ⟨ps, hps, hfl⟩ := pipeRead_reads copyBufSize (by decide) _ w.pipe (le_refl _)
  obtain ⟨N2, v, ⟨_, hb, hs2, _⟩, hN2⟩ :=
    dualHash_reads B3 S256 pipeRead (some progressCallback) () hps
  refine ⟨max N1 N2, w, ⟨hr, by simpa [sinkBytes] using hs, by simpa [pipeBytes] using hq⟩,
    fun fuel hfuel => ?_⟩
  have hpipe : w.pipe.flatten = ds.flatten := by simpa using hp
  simp only [saveAndHash, hN1 fuel (le_trans (le_max_left _ _) hfuel), stopErr,
    hN2 fuel (le_trans (le_max_right _ _) hfuel), finish, hb, hs2, hfl, hpipe]
  simp

theorem saveAndHash_source_fails {σ ω : Type} (B3 S256 : HashAlg) (rd : Reader σ) (wr : Writer ω)
    (hacc : Accepts wr) (d0 : ω) {s : σ} {ds : List (List Byte)} {e : Error} {s1 : σ}
    (h : Reads rd copyBufSize s ds e s1) (he : e ≠ Error.EOF) :
    ∃ N w, (w.src = s1 ∧ sinkBytes w.trace = ds.flatten ∧ pipeBytes w.trace = ds.flatten) ∧
      ∀ fuel, N ≤ fuel →
        saveAndHash B3 S256 rd wr fuel s d0 = some (⟨"", "", 0, some e⟩, w) := by
  obtain ⟨N1, w, ⟨hr, _, hs, hq⟩, hN1⟩ := saveCopy_accepts rd wr hacc h
    { src := s, dest := d0, pipe := [], trace := [] } 0 rfl (by decide)
  refine ⟨N1, w, ⟨hr, by simpa [sinkBytes] using hs, by simpa [pipeBytes] using hq⟩,
    fun fuel hfuel => ?_⟩
  simp only [saveAndHash, hN1 fuel hfuel]
  cases e <;> simp_all [stopErr]

/-- The copy loop of `saveAndHash` on a source that delivers more bytes than the sink will
accept: with enough fuel it returns the sink's error, and the failing write is the last thing
it did. -/
theorem saveCopy_fails {σ ω : Type} (rd : Reader σ) (wr : Writer ω) (budget : ω → Nat)
    (e : Error) (hfail : FailsAfter wr budget e)
    {s : σ} {ds : List (List Byte)} {e0 : Error} {s1 : σ} (h : Reads rd copyBufSize s ds e0 s1) :
    ∀ (w : PipeEnv σ ω) (written : Int), w.src = s → budget w.dest < ds.flatten.length →
      ∃ N w1 written1, (∃ pre p n, w1.trace = pre ++ [Event.destWrite p ⟨n, some e⟩]) ∧
        ∀ fuel, N ≤ fuel →
          ioCopy (srcRead rd) (multiWriterWrite [destWrite wr, pwWrite]) fuel w written =
            some ((written1, some e), w1) := by
  induction h with
  | @last s d e0 s1 hrd _ =>
    intro w written hw hlt
    have hsrc : srcRead rd w copyBufSize = (⟨d, some e0⟩,
        { w with src := s1, trace := w.trace ++ [Event.srcRead ⟨d, some e0⟩] }) := by
      simp [srcRead, hw, hrd]
    have hd : d ≠ [] := by
      rintro rfl
      simp at hlt
    have hbig : budget w.dest < d.length := by simpa using hlt
    have herr := ((hfail w.dest d hd).2 hbig)
    have hwd : wr w.dest d = (⟨(wr w.dest d).1.n, some e⟩, (wr w.dest d).2) := by
      rw [← herr]
    refine ⟨1, { src := s1, dest := (wr w.dest d).2, pipe := w.pipe, trace :=
        (w.trace ++ [Event.srcRead ⟨d, some e0⟩]) ++
          [Event.destWrite d ⟨(wr w.dest d).1.n, some e⟩] },
      wrap64 (written +
        if (wr w.dest d).1.n < 0 ∨ (d.length : Int) < (wr w.dest d).1.n then 0
        else (wr w.dest d).1.n),
      ⟨_, d, (wr w.dest d).1.n, rfl⟩, fun fuel hfuel => ?_⟩
    obtain ⟨f, rfl⟩ : ∃ f, fuel = f + 1 := ⟨fuel - 1, by omega⟩
    exact ioCopy_step_fail _ _ _ _ _ _ _ _ _ _ _ hd hsrc (mw_fail wr _ d _ _ _ hwd)
  | @more s d s1 ds e0 s2 hrd _ _ ih =>
    intro w written hw hlt
    have hsrc : srcRead rd w copyBufSize = (⟨d, none⟩,
        { w with src := s1, trace := w.trace ++ [Event.srcRead ⟨d, none⟩] }) := by
      simp [srcRead, hw, hrd]
    by_cases hd : d = []
    · subst hd
      obtain ⟨N, w1, written1, htr, hN⟩ :=
        ih { w with src := s1, trace := w.trace ++ [Event.srcRead ⟨[], none⟩] } written rfl
          (by simpa using hlt)
      refine ⟨N + 1, w1, written1, htr, fun fuel hfuel => ?_⟩
      obtain ⟨f, rfl⟩ : ∃ f, fuel = f + 1 := ⟨fuel - 1, by omega⟩
      rw [ioCopy_step_empty _ _ _ _ _ _ _ hsrc]
      simpa using hN f (by omega)
    · by_cases hfit : d.length ≤ budget w.dest
      · obtain ⟨hres, hbud⟩ := (hfail w.dest d hd).1 hfit
        have hwd : wr w.dest d = (⟨d.length, none⟩, (wr w.dest d).2) := Prod.ext hres rfl
        obtain ⟨N, w1, written1, htr, hN⟩ := ih
          { src := s1, dest := (wr w.dest d).2, pipe := w.pipe ++ [d], trace :=
              w.trace ++ [Event.srcRead ⟨d, none⟩] ++
                [Event.destWrite d ⟨d.length, none⟩, Event.pipeWrite d] }
          (wrap64 (written + d.length)) rfl (by
            simp only [List.flatten_cons, List.length_append] at hlt
            simp only [hbud]
            omega)
        refine ⟨N + 1, w1, written1, htr, fun fuel hfuel => ?_⟩
        obtain ⟨f, rfl⟩ : ∃ f, fuel = f + 1 := ⟨fuel - 1, by omega⟩
        rw [ioCopy_step_full _ _ _ _ _ _ _ _ _ hd hsrc (mw_accept wr _ d _ hwd)]
        exact hN f (by omega)
      · have herr := ((hfail w.dest d hd).2 (by omega))
        have hwd : wr w.dest d = (⟨(wr w.dest d).1.n, some e⟩, (wr w.dest d).2) := by
          rw [← herr]
        refine ⟨1, { src := s1, dest := (wr w.dest d).2, pipe := w.pipe, trace :=
            (w.trace ++ [Event.srcRead ⟨d, none⟩]) ++
              [Event.destWrite d ⟨(wr w.dest d).1.n, some e⟩] },
          wrap64 (written +
            if (wr w.dest d).1.n < 0 ∨ (d.length : Int) < (wr w.dest d).1.n then 0
            else (wr w.dest d).1.n),
          ⟨_, d, (wr w.dest d).1.n, rfl⟩, fun fuel hfuel => ?_⟩
        obtain ⟨f, rfl⟩ : ∃ f, fuel = f + 1 := ⟨fuel - 1, by omega⟩
        exact ioCopy_step_fail _ _ _ _ _ _ _ _ _ _ _ hd hsrc (mw_fail wr _ d _ _ _ hwd)

theorem mw_short {σ ω : Type} (wr : Writer ω) (w : PipeEnv σ ω) (p : List Byte) (d1 : ω) (n : Int)
    (hn : n ≠ p.length) (h : wr w.dest p = (⟨n, none⟩, d1)) :
    multiWriterWrite [destWrite wr, pwWrite] w p =
      (⟨n, some Error.ErrShortWrite⟩,
        { w with dest := d1, trace := w.trace ++ [Event.destWrite p ⟨n, none⟩] }) := by
  simp [multiWriterWrite, destWrite, h, hn]

/-- A write to the sink that was not accepted in full ends the copy loop of `saveAndHash` with
an error, and the trace shows that write. -/
theorem saveCopy_rejected {σ ω : Type} (src : Reader (PipeEnv σ ω)) (wr : Writer ω)
    (w w1 : PipeEnv σ ω) (written : Int) (d : List Byte) (er : Option Error) (hd : d ≠ [])
    (hsrc : src w copyBufSize = (⟨d, er⟩, w1))
    (hrej : (wr w1.dest d).1 ≠ ⟨d.length, none⟩) :
    ∃ w2 written1 e1, Event.destWrite d (wr w1.dest d).1 ∈ w2.trace ∧
      ∀ fuel, ioCopy src (multiWriterWrite [destWrite wr, pwWrite]) (fuel + 1) w written =
        some ((written1, some e1), w2) := by
  cases hres : (wr w1.dest d).1.err with
  | some e2 =>
    have hwd : wr w1.dest d = (⟨(wr w1.dest d).1.n, some e2⟩, (wr w1.dest d).2) := by
      rw [← hres]
    refine ⟨{ w1 with dest := (wr w1.dest d).2, trace :=
        w1.trace ++ [Event.destWrite d ⟨(wr w1.dest d).1.n, some e2⟩] }, _, e2, ?_,
      fun fuel => ioCopy_step_fail _ _ fuel _ _ _ written _ _ _ _ hd hsrc (mw_fail wr _ d _ _ _ hwd)⟩
    simp only [List.mem_append, List.mem_singleton]
    right
    rw [← hres]
  | none =>
    have hwd : wr w1.dest d = (⟨(wr w1.dest d).1.n, none⟩, (wr w1.dest d).2) := by
      rw [← hres]
    have hn : (wr w1.dest d).1.n ≠ d.length := by
      intro hn
      apply hrej
      rw [← hres, ← hn]
    refine ⟨{ w1 with dest := (wr w1.dest d).2, trace :=
        w1.trace ++ [Event.destWrite d ⟨(wr w1.dest d).1.n, none⟩] }, _, Error.ErrShortWrite, ?_,
      fun fuel => ioCopy_step_fail _ _ fuel _ _ _ written _ _ _ _ hd hsrc
        (mw_short wr _ d _ _ hn hwd)⟩
    simp only [List.mem_append, List.mem_singleton]
    right
    rw [← hres]

/-- The copy loop of `saveAndHash` on a source that fails with `e`, into any sink: with enough
fuel it returns a non-nil error, which is `e` when every write to the sink was accepted in
full. -/
theorem saveCopy_any {σ ω : Type} (rd : Reader σ) (wr : Writer ω)
    {s : σ} {ds : List (List Byte)} {e : Error} {s1 : σ} (h : Reads rd copyBufSize s ds e s1)
    (he : e ≠ Error.EOF) :
    ∀ (w : PipeEnv σ ω) (written : Int), w.src = s →
      ∃ N w1 written1 e1,
        ((∀ p res, Event.destWrite p res ∈ w1.trace → res = ⟨p.length, none⟩) → e1 = e) ∧
        ∀ fuel, N ≤ fuel →
          ioCopy (srcRead rd) (multiWriterWrite [destWrite wr, pwWrite]) fuel w written =
            some ((written1, some e1), w1) := by
  have hstop : stopErr e = some e := by cases e <;> simp_all [stopErr]
  induction h with
  | @last s d e s1 hrd _ =>
    intro w written hw
    have hsrc : srcRead rd w copyBufSize = (⟨d, some e⟩,
        { w with src := s1, trace := w.trace ++ [Event.srcRead ⟨d, some e⟩] }) := by
      simp [srcRead, hw, hrd]
    by_cases hd : d = []
    · subst hd
      refine ⟨1, { w with src := s1, trace := w.trace ++ [Event.srcRead ⟨[], some e⟩] },
        written, e, fun _ => rfl, fun fuel hfuel => ?_⟩
      obtain ⟨f, rfl⟩ : ∃ f, fuel = f + 1 := ⟨fuel - 1, by omega⟩
      rw [ioCopy_step_empty _ _ _ _ _ _ _ hsrc]
      simp [hstop]
    · by_cases hok : (wr w.dest d).1 = ⟨d.length, none⟩
      · have hwd : wr w.dest d = (⟨d.length, none⟩, (wr w.dest d).2) := Prod.ext hok rfl
        refine ⟨1, { src := s1, dest := (wr w.dest d).2, pipe := w.pipe ++ [d], trace :=
            w.trace ++ [Event.srcRead ⟨d, some e⟩] ++
              [Event.destWrite d ⟨d.length, none⟩, Event.pipeWrite d] },
          wrap64 (written + d.length), e, fun _ => rfl, fun fuel hfuel => ?_⟩
        obtain ⟨f, rfl⟩ : ∃ f, fuel = f + 1 := ⟨fuel - 1, by omega⟩
        rw [ioCopy_step_full _ _ _ _ _ _ _ _ _ hd hsrc (mw_accept wr _ d _ hwd)]
        simp [hstop]
      · obtain ⟨w2, written1, e1, hmem, hrun⟩ :=
          saveCopy_rejected (srcRead rd) wr w _ written d _ hd hsrc hok
        refine ⟨1, w2, written1, e1, fun hall => absurd (hall _ _ hmem) hok, fun fuel hfuel => ?_⟩
        obtain ⟨f, rfl⟩ : ∃ f, fuel = f + 1 := ⟨fuel - 1, by omega⟩
        exact hrun f
  | @more s d s1 ds e s2 hrd _ _ ih =>
    intro w written hw
    have hsrc : srcRead rd w copyBufSize = (⟨d, none⟩,
        { w with src := s1, trace := w.trace ++ [Event.srcRead ⟨d, none⟩] }) := by
      simp [srcRead, hw, hrd]
    by_cases hd : d = []
    · subst hd
      obtain ⟨N, w1, written1, e1, himp, hN⟩ := ih he hstop
        { w with src := s1, trace := w.trace ++ [Event.srcRead ⟨[], none⟩] } written rfl
      refine ⟨N + 1, w1, written1, e1, himp, fun fuel hfuel => ?_⟩
      obtain ⟨f, rfl⟩ : ∃ f, fuel = f + 1 := ⟨fuel - 1, by omega⟩
      rw [ioCopy_step_empty _ _ _ _ _ _ _ hsrc]
      simpa using hN f (by omega)
    · by_cases hok : (wr w.dest d).1 = ⟨d.length, none⟩
      · have hwd : wr w.dest d = (⟨d.length, none⟩, (wr w.dest d).2) := Prod.ext hok rfl
        obtain ⟨N, w1, written1, e1, himp, hN⟩ := ih he hstop
          { src := s1, dest := (wr w.dest d).2, pipe := w.pipe ++ [d], trace :=
              w.trace ++ [Event.srcRead ⟨d, none⟩] ++
                [Event.destWrite d ⟨d.length, none⟩, Event.pipeWrite d] }
          (wrap64 (written + d.length)) rfl
        refine ⟨N + 1, w1, written1, e1, himp, fun fuel hfuel => ?_⟩
        obtain ⟨f, rfl⟩ : ∃ f, fuel = f + 1 := ⟨fuel - 1, by omega⟩
        rw [ioCopy_step_full _ _ _ _ _ _ _ _ _ hd hsrc (mw_accept wr _ d _ hwd)]
        exact hN f (by omega)
      · obtain ⟨w2, written1, e1, hmem, hrun⟩ :=
          saveCopy_rejected (srcRead rd) wr w _ written d _ hd hsrc hok
        refine ⟨1, w2, written1, e1, fun hall => absurd (hall _ _ hmem) hok, fun fuel hfuel => ?_⟩
        obtain ⟨f, rfl⟩ : ∃ f, fuel = f + 1 := ⟨fuel - 1, by omega⟩
        exact hrun f

/-! ## Shape of the results -/

theorem hexEncodeToString_length (l : List Byte) : (hexEncodeToString l).length = 2 * l.length := by
  unfold hexEncodeToString
  show (List.flatMap l _).length = 2 * l.length
  induction l with
  | nil => rfl
  | cons a t ih =>
    simp only [List.flatMap_cons, List.length_append, List.length_cons, List.length_nil, ih]
    omega

theorem hexEncodeToString_digest_ne (A : HashAlg) (m : List Byte) :
    hexEncodeToString (A.sum m) ≠ "" := by
  intro h
  have hl := hexEncodeToString_length (A.sum m)
  rw [h, A.size_eq] at hl
  exact absurd hl (by decide)

theorem finish_shape {σ κ : Type} (B3 S256 : HashAlg) (err : Option Error) (w : HashEnv σ κ) :
    (finish B3 S256 err w).err = err ∧
      (err = none → (finish B3 S256 err w).blake3Hash ≠ "" ∧ (finish B3 S256 err w).sha256Hash ≠ "") ∧
      (err ≠ none → finish B3 S256 err w = ⟨"", "", err⟩) := by
  cases err with
  | none =>
    exact ⟨rfl, fun _ => ⟨hexEncodeToString_digest_ne B3 _, hexEncodeToString_digest_ne S256 _⟩,
      fun h => absurd rfl h⟩
  | some e => exact ⟨rfl, ⟨fun h => Option.noConfusion h, fun _ => rfl⟩⟩

theorem dualHashWithProgress_shape {σ κ : Type} (B3 S256 : HashAlg) (rd : Reader σ)
    (progress : Option (ProgressCallback κ)) (fuel : Nat) (s : σ) (k : κ) (res : HashResult)
    (w : HashEnv σ κ) (h : DualHashWithProgress B3 S256 rd progress fuel s k = some (res, w)) :
    ∃ err, res = finish B3 S256 err w := by
  unfold DualHashWithProgress at h
  cases progress with
  | none =>
    simp only [] at h
    split at h
    · cases h
    · simp only [Option.some.injEq, Prod.mk.injEq] at h
      exact ⟨_, by rw [← h.1, h.2]⟩
  | some f =>
    simp only [] at h
    split at h
    · cases h
    · simp only [Option.some.injEq, Prod.mk.injEq] at h
      exact ⟨_, by rw [← h.1, h.2]⟩

/-- Whatever `saveAndHash` returns has either a nil error and two non-empty digests, or a
non-nil error, two empty digests and size 0. -/
theorem saveAndHash_shape {σ ω : Type} (B3 S256 : HashAlg) (srcRd : Reader σ) (destWr : Writer ω)
    (fuel : Nat) (s : σ) (d : ω) (r : SaveResult) (w : PipeEnv σ ω)
    (h : saveAndHash B3 S256 srcRd destWr fuel s d = some (r, w)) :
    (r.err = none ∧ r.blake3Hash ≠ "" ∧ r.sha256Hash ≠ "") ∨
      (∃ e, r = ⟨"", "", 0, some e⟩) := by
  unfold saveAndHash at h
  simp only [] at h
  split at h
  · cases h
  · split at h
    · simp only [Option.some.injEq, Prod.mk.injEq] at h
      exact Or.inr ⟨_, h.1.symm⟩
    · split at h
      · cases h
      · rename_i result v hdual
        obtain ⟨err, herr⟩ := dualHashWithProgress_shape _ _ _ _ _ _ _ _ _ hdual
        obtain ⟨h1, h2, _⟩ := finish_shape B3 S256 err v
        split at h
        · simp only [Option.some.injEq, Prod.mk.injEq] at h
          exact Or.inr ⟨_, h.1.symm⟩
        · rename_i hnone
          simp only [Option.some.injEq, Prod.mk.injEq] at h
          rw [herr, h1] at hnone
          rw [← h.1, herr]
          exact Or.inl ⟨rfl, h2 hnone⟩

/-! ## Facts about the concrete readers and sinks -/

theorem sliceRead_delivers : ∀ (b : Nat), 0 < b → ∀ (m : Nat) (S : List Byte), S.length ≤ m →
    Delivers sliceRead b S S := by
  intro b hb m
  induction m with
  | zero =>
    intro S hS
    have : S = [] := List.length_eq_zero.mp (by omega)
    subst this
    exact ⟨[[]], [], Reads.last rfl (by simp), rfl⟩
  | succ m ih =>
    intro S hS
    cases S with
    | nil => exact ⟨[[]], [], Reads.last rfl (by simp), rfl⟩
    | cons a t =>
      obtain ⟨ds, s1, hds, hfl⟩ := ih ((a :: t).drop b) (by
        simp only [List.length_drop, List.length_cons] at hS ⊢
        omega)
      exact ⟨(a :: t).take b :: ds, s1, Reads.more rfl (List.length_take_le _ _) hds, by
        rw [List.flatten_cons, hfl, List.take_append_drop]⟩

theorem bufferWrite_accepts : Accepts bufferWrite := fun _ _ => rfl

theorem fullWrite_failsAfter (e : Error) : FailsAfter (fullWrite e) (fun room => room) e := by
  intro d p _
  constructor
  · intro h
    simp [fullWrite, h]
  · intro h
    simp [fullWrite, Nat.not_le.mpr h]

/-! ## What a copy leaves behind -/

/-- Whatever holds before `io.Copy` and is kept by every read and every write holds after
it. -/
theorem ioCopy_invariant {W : Type} (src : Reader W) (dst : Writer W) (P : W → Prop)
    (hsrc : ∀ w n, P w → P (src w n).2) (hdst : ∀ w p, P w → P (dst w p).2) :
    ∀ (fuel : Nat) (w : W) (written : Int) (res : Int × Option Error) (w1 : W),
      ioCopy src dst fuel w written = some (res, w1) → P w → P w1 := by
  intro fuel
  induction fuel with
  | zero =>
    intro w written res w1 h
    simp [ioCopy] at h
  | succ fuel ih =>
    intro w written res w1 h hP
    have h1 := hsrc w copyBufSize hP
    have h2 := hdst (src w copyBufSize).2 (src w copyBufSize).1.data h1
    rw [ioCopy] at h
    simp only [] at h
    repeat' split at h
    all_goals first
      | (simp only [Option.some.injEq, Prod.mk.injEq] at h; obtain ⟨-, rfl⟩ := h
         first
           | exact h2
           | exact h1)
      | exact ih _ _ _ _ h h2
      | exact ih _ _ _ _ h h1

theorem sinkWrites_append (a b : List Event) :
    sinkWrites (a ++ b) = sinkWrites a ++ sinkWrites b := by
  induction a with
  | nil => rfl
  | cons ev t ih => cases ev <;> simp [sinkWrites, ih]

theorem writeAll_append {ω : Type} (wr : Writer ω) (d : ω) (ps : List (List Byte))
    (p : List Byte) : writeAll wr d (ps ++ [p]) = (wr (writeAll wr d ps) p).2 := by
  simp [writeAll, List.foldl_append]

/-- The write of `io.MultiWriter(dest, pw)`: the sink goes through `dest.Write(p)`, and the
trace gains that write. -/
theorem mw_sink {σ ω : Type} (wr : Writer ω) (w : PipeEnv σ ω) (p : List Byte) :
    (multiWriterWrite [destWrite wr, pwWrite] w p).2.dest = (wr w.dest p).2 ∧
      sinkWrites (multiWriterWrite [destWrite wr, pwWrite] w p).2.trace =
        sinkWrites w.trace ++ [p] ∧
      sinkBytes (multiWriterWrite [destWrite wr, pwWrite] w p).2.trace =
        sinkBytes w.trace ++ p.take (wr w.dest p).1.n.toNat := by
  cases herr : (wr w.dest p).1.err with
  | some e =>
    simp [multiWriterWrite, destWrite, pwWrite, herr, sinkWrites_append, sinkBytes_append,
      sinkWrites, sinkBytes]
  | none =>
    by_cases hn : (wr w.dest p).1.n = p.length
    · simp [multiWriterWrite, destWrite, pwWrite, herr, hn, sinkWrites_append,
        sinkBytes_append, sinkWrites, sinkBytes]
    · simp [multiWriterWrite, destWrite, pwWrite, herr, hn, sinkWrites_append,
        sinkBytes_append, sinkWrites, sinkBytes]

/-- After the copy of `saveAndHash`, whatever the source and the sink do, the sink is in the
state in which the writes of the trace, made in their order, leave it. -/
theorem saveCopy_sink {σ ω : Type} (rd : Reader σ) (wr : Writer ω) (d0 : ω) (fuel : Nat)
    (w : PipeEnv σ ω) (written : Int) (res : Int × Option Error) (w1 : PipeEnv σ ω)
    (h : ioCopy (srcRead rd) (multiWriterWrite [destWrite wr, pwWrite]) fuel w written =
      some (res, w1))
    (hw : w.dest = writeAll wr d0 (sinkWrites w.trace)) :
    w1.dest = writeAll wr d0 (sinkWrites w1.trace) := by
  refine ioCopy_invariant (srcRead rd) (multiWriterWrite [destWrite wr, pwWrite])
    (fun v => v.dest = writeAll wr d0 (sinkWrites v.trace)) ?_ ?_ fuel w written res w1 h hw
  · intro v n hv
    simp [srcRead, sinkWrites_append, sinkWrites, hv]
  · intro v p hv
    obtain ⟨h1, h2, -⟩ := mw_sink wr v p
    simp only [h1, h2, writeAll_append, hv]

/-- After the copy of `saveAndHash` into a sink that accepts all writes, the bytes that the
trace shows as written are the slices written, one after the other. -/
theorem saveCopy_sinkBytes {σ ω : Type} (rd : Reader σ) (wr : Writer ω) (hacc : Accepts wr)
    (fuel : Nat) (w : PipeEnv σ ω) (written : Int) (res : Int × Option Error)
    (w1 : PipeEnv σ ω)
    (h : ioCopy (srcRead rd) (multiWriterWrite [destWrite wr, pwWrite]) fuel w written =
      some (res, w1))
    (hw : sinkBytes w.trace = (sinkWrites w.trace).flatten) :
    sinkBytes w1.trace = (sinkWrites w1.trace).flatten := by
  refine ioCopy_invariant (srcRead rd) (multiWriterWrite [destWrite wr, pwWrite])
    (fun v => sinkBytes v.trace = (sinkWrites v.trace).flatten) ?_ ?_ fuel w written res w1 h hw
  · intro v n hv
    simp [srcRead, sinkWrites_append, sinkBytes_append, sinkWrites, sinkBytes, hv]
  · intro v p hv
    obtain ⟨-, h2, h3⟩ := mw_sink wr v p
    simp only [h2, h3, hv, hacc v.dest p, List.flatten_append, List.flatten_cons,
      List.flatten_nil, List.append_nil, Int.toNat_ofNat, List.take_length]

/-- The trace and the sink that `saveAndHash` returns are those of its copy. -/
theorem saveAndHash_env {σ ω : Type} (B3 S256 : HashAlg) (rd : Reader σ) (wr : Writer ω)
    (fuel : Nat) (s : σ) (d : ω) (r : SaveResult) (w : PipeEnv σ ω)
    (h : saveAndHash B3 S256 rd wr fuel s d = some (r, w)) :
    ∃ written copyErr,
      ioCopy (srcRead rd) (multiWriterWrite [destWrite wr, pwWrite]) fuel
        { src := s, dest := d, pipe := [], trace := [] } 0 = some ((written, copyErr), w) ∧
      (r.err = none → copyErr = none ∧ r.size = written) := by
  unfold saveAndHash at h
  simp only [] at h
  cases hc : ioCopy (srcRead rd) (multiWriterWrite [destWrite wr, pwWrite]) fuel
      { src := s, dest := d, pipe := [], trace := [] } 0 with
  | none => simp [hc] at h
  | some x =>
    obtain ⟨⟨written, copyErr⟩, w0⟩ := x
    rw [hc] at h
    simp only [] at h
    cases copyErr with
    | some e =>
      simp only [Option.some.injEq, Prod.mk.injEq] at h
      obtain ⟨hr, hw⟩ := h
      subst hw
      exact ⟨written, some e, rfl, fun hn => by rw [← hr] at hn; cases hn⟩
    | none =>
      simp only [] at h
      cases hd : DualHashWithProgress B3 S256 pipeRead (some progressCallback) fuel w0.pipe ()
        with
      | none => simp [hd] at h
      | some y =>
        obtain ⟨result, v⟩ := y
        rw [hd] at h
        simp only [] at h
        cases he : result.err with
        | some e =>
          rw [he] at h
          simp only [Option.some.injEq, Prod.mk.injEq] at h
          obtain ⟨hr, hw⟩ := h
          subst hw
          exact ⟨written, none, rfl, fun hn => by rw [← hr] at hn; cases hn⟩
        | none =>
          rw [he] at h
          simp only [Option.some.injEq, Prod.mk.injEq] at h
          obtain ⟨hr, hw⟩ := h
          subst hw
          exact ⟨written, none, rfl, fun _ => ⟨rfl, by rw [← hr]⟩⟩

theorem writeAll_bufferWrite (d : List Byte) (ps : List (List Byte)) :
    writeAll bufferWrite d ps = d ++ ps.flatten := by
  induction ps generalizing d with
  | nil => simp [writeAll]
  | cons p t ih =>
    have := ih (d ++ p)
    simpa [writeAll, bufferWrite, List.append_assoc] using this

/-- The copy loop of `saveAndHash` on a source whose reads return `ds` and then end-of-stream,
into any sink: if it returns without error, the count is the number of bytes read. -/
theorem saveCopy_count {σ ω : Type} (rd : Reader σ) (wr : Writer ω)
    {s : σ} {ds : List (List Byte)} {e : Error} {s1 : σ} (h : Reads rd copyBufSize s ds e s1) :
    ∀ (w : PipeEnv σ ω) (written : Int), w.src = s → wrap64 written = written →
      ∀ (fuel : Nat) (written1 : Int) (w1 : PipeEnv σ ω),
        ioCopy (srcRead rd) (multiWriterWrite [destWrite wr, pwWrite]) fuel w written =
          some ((written1, none), w1) →
        written1 = wrap64 (written + ds.flatten.length) := by
  induction h with
  | @last s d e s1 hrd _ =>
    intro w written hw hwr fuel written1 w1 hrun
    have hsrc : srcRead rd w copyBufSize = (⟨d, some e⟩,
        { w with src := s1, trace := w.trace ++ [Event.srcRead ⟨d, some e⟩] }) := by
      simp [srcRead, hw, hrd]
    cases fuel with
    | zero => simp [ioCopy] at hrun
    | succ f =>
      by_cases hd : d = []
      · subst hd
        rw [ioCopy_step_empty _ _ _ _ _ _ _ hsrc] at hrun
        simp only [Option.some.injEq, Prod.mk.injEq] at hrun
        rw [← hrun.1.1]
        simp [hwr]
      · by_cases hok : (wr w.dest d).1 = ⟨d.length, none⟩
        · have hwd : wr w.dest d = (⟨d.length, none⟩, (wr w.dest d).2) := Prod.ext hok rfl
          rw [ioCopy_step_full _ _ _ _ _ _ _ _ _ hd hsrc (mw_accept wr _ d _ hwd)] at hrun
          simp only [Option.some.injEq, Prod.mk.injEq] at hrun
          rw [← hrun.1.1]
          simp
        · obtain ⟨w2, written2, e1, -, hrej⟩ :=
            saveCopy_rejected (srcRead rd) wr w _ written d _ hd hsrc hok
          rw [hrej f] at hrun
          simp at hrun
  | @more s d s1 ds e s2 hrd _ _ ih =>
    intro w written hw hwr fuel written1 w1 hrun
    have hsrc : srcRead rd w copyBufSize = (⟨d, none⟩,
        { w with src := s1, trace := w.trace ++ [Event.srcRead ⟨d, none⟩] }) := by
      simp [srcRead, hw, hrd]
    cases fuel with
    | zero => simp [ioCopy] at hrun
    | succ f =>
      by_cases hd : d = []
      · subst hd
        rw [ioCopy_step_empty _ _ _ _ _ _ _ hsrc] at hrun
        have := ih _ written rfl hwr f written1 w1 hrun
        simpa using this
      · by_cases hok : (wr w.dest d).1 = ⟨d.length, none⟩
        · have hwd : wr w.dest d = (⟨d.length, none⟩, (wr w.dest d).2) := Prod.ext hok rfl
          rw [ioCopy_step_full _ _ _ _ _ _ _ _ _ hd hsrc (mw_accept wr _ d _ hwd)] at hrun
          have := ih _ (wrap64 (written + d.length)) rfl (wrap64_idem _) f written1 w1 hrun
          rw [this, wrap64_wrap64_add]
          simp [add_assoc]
        · obtain ⟨w2, written2, e1, -, hrej⟩ :=
            saveCopy_rejected (srcRead rd) wr w _ written d _ hd hsrc hok
          rw [hrej f] at hrun
          simp at hrun

/-! ## The claims -/

/-- C1. Determinism across strategies: for every byte sequence `S`, every reader that delivers
`S` and then end-of-stream (to the 32 KiB reads of the sequential path and to the 8 MiB reads
of the chunked path), every `fileSize` hint and every progress callback or none,
`ParallelDualHash` returns the same `(blake3Hash, sha256Hash, nil)` as `DualHash` over the
same bytes, and `parallelHashLargeFile` returns the same as `DualHashWithProgress`. -/
theorem parallelDualHash_eq_dualHash {σ τ κ : Type} (B3 S256 : HashAlg) (rd : Reader σ)
    (rd0 : Reader τ) (s : σ) (s0 : τ) (S : List Byte) (fileSize : Int)
    (progress : Option (ProgressCallback κ)) (k : κ)
    (hseq : Delivers rd copyBufSize s S) (hchunk : Delivers rd chunkSize s S)
    (href : Delivers rd0 copyBufSize s0 S) :
    ∃ N, ∀ fuel, N ≤ fuel →
      (ParallelDualHash B3 S256 rd fileSize progress fuel s k).map Prod.fst =
        (DualHash B3 S256 rd0 fuel s0).map Prod.fst ∧
      (DualHash B3 S256 rd0 fuel s0).map Prod.fst =
        some ⟨hexEncodeToString (B3.sum S), hexEncodeToString (S256.sum S), none⟩ ∧
      (parallelHashLargeFile B3 S256 rd fileSize progress fuel s k).map Prod.fst =
        (DualHashWithProgress B3 S256 rd progress fuel s k).map Prod.fst := by
  obtain ⟨ds1, t1, h1, rfl⟩ := hseq
  obtain ⟨ds2, t2, h2, e2⟩ := hchunk
  obtain ⟨ds3, t3, h3, e3⟩ := href
  obtain ⟨N1, w1, ⟨_, b1, c1, _⟩, hN1⟩ := dualHash_reads B3 S256 rd progress k h1
  obtain ⟨N2, w2, ⟨_, b2, c2, _⟩, hN2⟩ := chunked_reads B3 S256 chunkSize rd progress k h2
  obtain ⟨N3, w3, ⟨_, b3, c3, _⟩, hN3⟩ := dualHash_reads B3 S256 rd0 none () h3
  refine ⟨max N1 (max N2 N3), fun fuel hfuel => ?_⟩
  have f1 : N1 ≤ fuel := le_trans (le_max_left _ _) hfuel
  have f2 : N2 ≤ fuel := le_trans (le_trans (le_max_left _ _) (le_max_right _ _)) hfuel
  have f3 : N3 ≤ fuel := le_trans (le_trans (le_max_right _ _) (le_max_right _ _)) hfuel
  have r1 := hN1 fuel f1
  have r2 := hN2 fuel f2
  have r3 := hN3 fuel f3
  rw [finish_eof, b1, c1] at r1
  rw [finish_eof, b2, c2, e2] at r2
  rw [finish_eof, b3, c3, e3] at r3
  refine ⟨?_, by simp [DualHash, r3], by simp [parallelHashLargeFile, r1, r2]⟩
  unfold ParallelDualHash
  split
  · simp [DualHash, r1, r3]
  · simp [DualHash, parallelHashLargeFile, r2, r3]

/-- C2. Reference correctness of the sequential hasher: for every byte sequence `S` and every
reader that delivers `S` as any sequence of slices followed by end-of-stream, `DualHash` and
`DualHashWithProgress` with any callback return `(hex(BLAKE3-256(S)), hex(SHA-256(S)), nil)`,
and what each of the two hashers has absorbed when it is finalized is exactly `S`. -/
theorem dualHashWithProgress_correct {σ κ : Type} (B3 S256 : HashAlg) (rd : Reader σ) (s : σ)
    (S : List Byte) (progress : Option (ProgressCallback κ)) (k : κ)
    (h : Delivers rd copyBufSize s S) :
    ∃ N w v, (w.b3 = S ∧ w.s256 = S ∧ v.b3 = S ∧ v.s256 = S) ∧ ∀ fuel, N ≤ fuel →
      DualHashWithProgress B3 S256 rd progress fuel s k =
        some (⟨hexEncodeToString (B3.sum S), hexEncodeToString (S256.sum S), none⟩, w) ∧
      DualHash B3 S256 rd fuel s =
        some (⟨hexEncodeToString (B3.sum S), hexEncodeToString (S256.sum S), none⟩, v) := by
  obtain ⟨ds, t, hds, rfl⟩ := h
  obtain ⟨N1, w, ⟨_, b1, c1, _⟩, hN1⟩ := dualHash_reads B3 S256 rd progress k hds
  obtain ⟨N2, v, ⟨_, b2, c2, _⟩, hN2⟩ := dualHash_reads B3 S256 rd none () hds
  refine ⟨max N1 N2, w, v, ⟨b1, c1, b2, c2⟩, fun fuel hfuel => ?_⟩
  have r1 := hN1 fuel (le_trans (le_max_left _ _) hfuel)
  have r2 := hN2 fuel (le_trans (le_max_right _ _) hfuel)
  rw [finish_eof, b1, c1] at r1
  rw [finish_eof, b2, c2] at r2
  exact ⟨r1, r2⟩

/-- C3. Independence of chunking: for every byte sequence `S`, any two readers that deliver
`S` (with whatever slice boundaries, short reads, empty reads, data together with
end-of-stream) yield the same digest strings from `DualHashWithProgress`, whatever the
callbacks; the loop of `parallelHashLargeFile` yields that same pair for every size of its
chunk buffer; a repeated call is the case of twice the same reader. -/
theorem digests_independent_of_chunking {σ τ υ κ μ ν : Type} (B3 S256 : HashAlg)
    (rd1 : Reader σ) (rd2 : Reader τ) (rd3 : Reader υ) (s1 : σ) (s2 : τ) (s3 : υ)
    (S : List Byte) (p1 : Option (ProgressCallback κ)) (p2 : Option (ProgressCallback μ))
    (p3 : Option (ProgressCallback ν)) (k1 : κ) (k2 : μ) (k3 : ν) (b : Nat)
    (h1 : Delivers rd1 copyBufSize s1 S) (h2 : Delivers rd2 copyBufSize s2 S)
    (h3 : Delivers rd3 b s3 S) :
    ∃ N, ∀ fuel, N ≤ fuel →
      (DualHashWithProgress B3 S256 rd1 p1 fuel s1 k1).map Prod.fst =
        (DualHashWithProgress B3 S256 rd2 p2 fuel s2 k2).map Prod.fst ∧
      (parallelHashLargeFileWith B3 S256 b rd3 p3 fuel s3 k3).map Prod.fst =
        (DualHashWithProgress B3 S256 rd1 p1 fuel s1 k1).map Prod.fst ∧
      (DualHashWithProgress B3 S256 rd1 p1 fuel s1 k1).map Prod.fst =
        some ⟨hexEncodeToString (B3.sum S), hexEncodeToString (S256.sum S), none⟩ := by
  obtain ⟨ds1, t1, g1, rfl⟩ := h1
  obtain ⟨ds2, t2, g2, e2⟩ := h2
  obtain ⟨ds3, t3, g3, e3⟩ := h3
  obtain ⟨N1, w1, ⟨_, b1, c1, _⟩, hN1⟩ := dualHash_reads B3 S256 rd1 p1 k1 g1
  obtain ⟨N2, w2, ⟨_, b2, c2, _⟩, hN2⟩ := dualHash_reads B3 S256 rd2 p2 k2 g2
  obtain ⟨N3, w3, ⟨_, b3, c3, _⟩, hN3⟩ := chunked_reads B3 S256 b rd3 p3 k3 g3
  refine ⟨max N1 (max N2 N3), fun fuel hfuel => ?_⟩
  have r1 := hN1 fuel (le_trans (le_max_left _ _) hfuel)
  have r2 := hN2 fuel (le_trans (le_trans (le_max_left _ _) (le_max_right _ _)) hfuel)
  have r3 := hN3 fuel (le_trans (le_trans (le_max_right _ _) (le_max_right _ _)) hfuel)
  rw [finish_eof, b1, c1] at r1
  rw [finish_eof, b2, c2, e2] at r2
  rw [finish_eof, b3, c3, e3] at r3
  simp [r1, r2, r3]

/-- C4. Fan-out digest correctness: for every byte sequence `S`, every source that delivers `S`
and every sink that accepts all writes, `saveAndHash` returns with a nil error the digest
strings that `DualHash` returns for `S`, and the bytes written to the pipe that feeds the
hashing goroutine are exactly `S`, in source order. -/
theorem saveAndHash_digests {σ ω τ : Type} (B3 S256 : HashAlg) (src : Reader σ) (dest : Writer ω)
    (rd0 : Reader τ) (s : σ) (d : ω) (s0 : τ) (S : List Byte)
    (hsrc : Delivers src copyBufSize s S) (hacc : Accepts dest)
    (href : Delivers rd0 copyBufSize s0 S) :
    ∃ N r w, (r.err = none ∧ pipeBytes w.trace = S) ∧ ∀ fuel, N ≤ fuel →
      saveAndHash B3 S256 src dest fuel s d = some (r, w) ∧
      (DualHash B3 S256 rd0 fuel s0).map Prod.fst = some ⟨r.blake3Hash, r.sha256Hash, none⟩ := by
  obtain ⟨ds, t, hds, rfl⟩ := hsrc
  obtain ⟨ds0, t0, hds0, e0⟩ := href
  obtain ⟨N1, w, ⟨_, _, hq⟩, hN1⟩ := saveAndHash_accepts B3 S256 src dest hacc d hds
  obtain ⟨N2, v, ⟨_, b2, c2, _⟩, hN2⟩ := dualHash_reads B3 S256 rd0 none () hds0
  refine ⟨max N1 N2, _, w, ⟨rfl, hq⟩, fun fuel hfuel => ⟨hN1 fuel (le_trans (le_max_left _ _) hfuel), ?_⟩⟩
  have r2 := hN2 fuel (le_trans (le_max_right _ _) hfuel)
  rw [finish_eof, b2, c2, e0] at r2
  simp [DualHash, r2]

/-- C5. Sink exactness: for every byte sequence `S`, every source that delivers `S` and every
sink that accepts all writes, `saveAndHash` returns successfully, and the sink it leaves
behind (`w.dest`) is the sink after the calls `Write(p)` for slices `p` that, one after the
other, are exactly `S`: those calls, in that order, and no other. The trace shows the same
slices, each written in full. -/
theorem saveAndHash_sink_exact {σ ω : Type} (B3 S256 : HashAlg) (src : Reader σ) (dest : Writer ω)
    (s : σ) (d : ω) (S : List Byte) (hsrc : Delivers src copyBufSize s S) (hacc : Accepts dest) :
    ∃ N r w ps, (r.err = none ∧ ps.flatten = S ∧ w.dest = writeAll dest d ps ∧
        sinkWrites w.trace = ps ∧ sinkBytes w.trace = S) ∧
      ∀ fuel, N ≤ fuel → saveAndHash B3 S256 src dest fuel s d = some (r, w) := by
  obtain ⟨ds, t, hds, rfl⟩ := hsrc
  obtain ⟨N, w, ⟨_, hs, _⟩, hN⟩ := saveAndHash_accepts B3 S256 src dest hacc d hds
  obtain ⟨written, copyErr, hcopy, -⟩ := saveAndHash_env B3 S256 src dest N s d _ w
    (hN N (Nat.le_refl _))
  have hdest := saveCopy_sink src dest d N _ 0 _ w hcopy rfl
  have hbytes := saveCopy_sinkBytes src dest hacc N _ 0 _ w hcopy rfl
  exact ⟨N, _, w, sinkWrites w.trace, ⟨rfl, by rw [← hbytes, hs], hdest, rfl, hs⟩, hN⟩

/-- C6. Byte-count accuracy: for every byte sequence `S`, the empty one included, whose length
`len(S)` is a value of the `int64` result (below 2^63), every source that delivers `S` and
every sink, whenever `saveAndHash` returns a nil error it returns `size` equal to `len(S)`;
and into a sink that accepts all writes it does return a nil error, with that size. -/
theorem saveAndHash_size {σ ω : Type} (B3 S256 : HashAlg) (src : Reader σ) (dest : Writer ω)
    (s : σ) (d : ω) (S : List Byte) (hsrc : Delivers src copyBufSize s S)
    (hlen : (S.length : Int) < 2 ^ 63) :
    (∀ fuel r w, saveAndHash B3 S256 src dest fuel s d = some (r, w) → r.err = none →
      r.size = (S.length : Int)) ∧
    (Accepts dest → ∃ N r w, (r.err = none ∧ r.size = (S.length : Int)) ∧ ∀ fuel, N ≤ fuel →
      saveAndHash B3 S256 src dest fuel s d = some (r, w)) := by
  obtain ⟨ds, t, hds, rfl⟩ := hsrc
  have hsize : wrap64 (ds.flatten.length : Int) = (ds.flatten.length : Int) :=
    wrap64_of_range _ (by omega) hlen
  constructor
  · intro fuel r w hrun herr
    obtain ⟨written, copyErr, hcopy, hok⟩ := saveAndHash_env B3 S256 src dest fuel s d r w hrun
    obtain ⟨hnone, hsz⟩ := hok herr
    subst hnone
    have := saveCopy_count src dest hds _ 0 rfl (by decide) fuel written w hcopy
    rw [hsz, this]
    simpa using hsize
  · intro hacc
    obtain ⟨N, w, _, hN⟩ := saveAndHash_accepts B3 S256 src dest hacc d hds
    exact ⟨N, ⟨hexEncodeToString (B3.sum ds.flatten), hexEncodeToString (S256.sum ds.flatten),
      wrap64 ds.flatten.length, none⟩, w, ⟨rfl, hsize⟩, hN⟩

/-- C7. Fail-fast on sink error: for every byte sequence `S`, every source that delivers `S`
and every sink whose write fails with error `e` after accepting `k < len(S)` bytes,
`saveAndHash` returns `("", "", 0, e)`, and the failing write is the last thing it did to
source, sink or pipe: no source read and no pipe write follows it. -/
theorem saveAndHash_sink_error {σ ω : Type} (B3 S256 : HashAlg) (src : Reader σ) (dest : Writer ω)
    (budget : ω → Nat) (e : Error) (s : σ) (d : ω) (S : List Byte)
    (hsrc : Delivers src copyBufSize s S) (hfail : FailsAfter dest budget e)
    (hk : budget d < S.length) :
    ∃ N w, (∃ pre p n, w.trace = pre ++ [Event.destWrite p ⟨n, some e⟩]) ∧ ∀ fuel, N ≤ fuel →
      saveAndHash B3 S256 src dest fuel s d = some (⟨"", "", 0, some e⟩, w) := by
  obtain ⟨ds, t, hds, rfl⟩ := hsrc
  obtain ⟨N, w, written1, htr, hN⟩ := saveCopy_fails src dest budget e hfail hds
    { src := s, dest := d, pipe := [], trace := [] } 0 rfl hk
  refine ⟨N, w, htr, fun fuel hfuel => ?_⟩
  simp [saveAndHash, hN fuel hfuel]

/-- C8. Sequential read-error propagation: for every reader whose reads deliver some slices
and then fail with a non-EOF error `e` (with or without data in the failing read),
`DualHashWithProgress`, with or without a callback, returns `("", "", e)`. -/
theorem dualHashWithProgress_read_error {σ κ : Type} (B3 S256 : HashAlg) (rd : Reader σ) (s s1 : σ)
    (ds : List (List Byte)) (e : Error) (progress : Option (ProgressCallback κ)) (k : κ)
    (h : Reads rd copyBufSize s ds e s1) (he : e ≠ Error.EOF) :
    ∃ N w, ∀ fuel, N ≤ fuel →
      DualHashWithProgress B3 S256 rd progress fuel s k = some (⟨"", "", some e⟩, w) := by
  obtain ⟨N, w, _, hN⟩ := dualHash_reads B3 S256 rd progress k h
  refine ⟨N, w, fun fuel hfuel => ?_⟩
  rw [hN fuel hfuel, finish_err B3 S256 w e he]

/-- C9. Chunked read-error propagation: for every reader whose chunk reads deliver some slices
and then fail with a non-EOF error `e` (with or without data in the failing read),
`parallelHashLargeFile` returns `("", "", e)`; it has then called `Read` once per slice, the
failing call being the last, and leaves the reader in the state after that call. -/
theorem parallelHashLargeFile_read_error {σ κ : Type} (B3 S256 : HashAlg) (rd : Reader σ)
    (s s1 : σ) (ds : List (List Byte)) (e : Error) (fileSize : Int)
    (progress : Option (ProgressCallback κ)) (k : κ)
    (h : Reads rd chunkSize s ds e s1) (he : e ≠ Error.EOF) :
    ∃ N w, (w.r = s1 ∧ w.reads = ds.length) ∧ ∀ fuel, N ≤ fuel →
      parallelHashLargeFile B3 S256 rd fileSize progress fuel s k =
        some (⟨"", "", some e⟩, w) := by
  obtain ⟨N, w, ⟨hr, _, _, hn⟩, hN⟩ := chunked_reads B3 S256 chunkSize rd progress k h
  refine ⟨N, w, ⟨hr, hn⟩, fun fuel hfuel => ?_⟩
  rw [parallelHashLargeFile, hN fuel hfuel, finish_err B3 S256 w e he]

/-- C10, as amended. For every source and sink, whatever `saveAndHash` returns has non-empty
digests if and only if its error is nil; and when the reads of the source deliver some slices
and then fail with a non-EOF error `e`, it returns `("", "", 0, e1)` with a non-nil `e1`, which
is `e` itself whenever every write to the sink was accepted in full. -/
theorem saveAndHash_no_partial_result {σ ω : Type} (B3 S256 : HashAlg) (src : Reader σ)
    (dest : Writer ω) (s : σ) (d : ω) :
    (∀ fuel r w, saveAndHash B3 S256 src dest fuel s d = some (r, w) →
      ((r.blake3Hash ≠ "" ∧ r.sha256Hash ≠ "") ↔ r.err = none)) ∧
    (∀ ds e s1, Reads src copyBufSize s ds e s1 → e ≠ Error.EOF →
      ∃ N w e1,
        ((∀ p res, Event.destWrite p res ∈ w.trace → res = ⟨p.length, none⟩) → e1 = e) ∧
        ∀ fuel, N ≤ fuel →
          saveAndHash B3 S256 src dest fuel s d = some (⟨"", "", 0, some e1⟩, w)) := by
  constructor
  · intro fuel r w h
    rcases saveAndHash_shape B3 S256 src dest fuel s d r w h with ⟨h1, h2, h3⟩ | ⟨e, rfl⟩
    · exact ⟨fun _ => h1, fun _ => ⟨h2, h3⟩⟩
    · exact ⟨fun hne => absurd rfl hne.1, fun hn => Option.noConfusion hn⟩
  · intro ds e s1 h he
    obtain ⟨N, w, written1, e1, himp, hN⟩ := saveCopy_any src dest h he
      { src := s, dest := d, pipe := [], trace := [] } 0 rfl
    refine ⟨N, w, e1, himp, fun fuel hfuel => ?_⟩
    simp [saveAndHash, hN fuel hfuel]

/-! ## The claims at concrete inputs -/

/-- C1 on the bytes 1, 2, 3 held in memory, with the hint at the threshold and a callback that
records its arguments. -/
theorem parallelDualHash_eq_dualHash_witness :
    Delivers sliceRead copyBufSize [1, 2, 3] [1, 2, 3] ∧
    Delivers sliceRead chunkSize [1, 2, 3] [1, 2, 3] ∧
    ∃ N, ∀ fuel, N ≤ fuel →
      (ParallelDualHash toyHash toyHash sliceRead parallelThreshold
          (some fun (l : List Int) v => l ++ [v]) fuel [1, 2, 3] []).map Prod.fst =
        (DualHash toyHash toyHash sliceRead fuel [1, 2, 3]).map Prod.fst ∧
      (DualHash toyHash toyHash sliceRead fuel [1, 2, 3]).map Prod.fst =
        some ⟨hexEncodeToString (toyHash.sum [1, 2, 3]),
          hexEncodeToString (toyHash.sum [1, 2, 3]), none⟩ ∧
      (parallelHashLargeFile toyHash toyHash sliceRead parallelThreshold
          (some fun (l : List Int) v => l ++ [v]) fuel [1, 2, 3] []).map Prod.fst =
        (DualHashWithProgress toyHash toyHash sliceRead
          (some fun (l : List Int) v => l ++ [v]) fuel [1, 2, 3] []).map Prod.fst :=
  ⟨sliceRead_delivers copyBufSize (by decide) 3 [1, 2, 3] (by decide),
    sliceRead_delivers chunkSize (by decide) 3 [1, 2, 3] (by decide),
    parallelDualHash_eq_dualHash toyHash toyHash sliceRead sliceRead [1, 2, 3] [1, 2, 3] [1, 2, 3]
      parallelThreshold (some fun (l : List Int) v => l ++ [v]) []
      (sliceRead_delivers copyBufSize (by decide) 3 [1, 2, 3] (by decide))
      (sliceRead_delivers chunkSize (by decide) 3 [1, 2, 3] (by decide))
      (sliceRead_delivers copyBufSize (by decide) 3 [1, 2, 3] (by decide))⟩

/-- C2 on the bytes 1, 2, 3 held in memory. -/
theorem dualHashWithProgress_correct_witness :
    Delivers sliceRead copyBufSize [1, 2, 3] [1, 2, 3] ∧
    ∃ N w v, (w.b3 = [1, 2, 3] ∧ w.s256 = [1, 2, 3] ∧ v.b3 = [1, 2, 3] ∧ v.s256 = [1, 2, 3]) ∧
      ∀ fuel, N ≤ fuel →
        DualHashWithProgress toyHash toyHash sliceRead (some fun (l : List Int) v => l ++ [v])
            fuel [1, 2, 3] [] =
          some (⟨hexEncodeToString (toyHash.sum [1, 2, 3]),
            hexEncodeToString (toyHash.sum [1, 2, 3]), none⟩, w) ∧
        DualHash toyHash toyHash sliceRead fuel [1, 2, 3] =
          some (⟨hexEncodeToString (toyHash.sum [1, 2, 3]),
            hexEncodeToString (toyHash.sum [1, 2, 3]), none⟩, v) :=
  ⟨sliceRead_delivers copyBufSize (by decide) 3 [1, 2, 3] (by decide),
    dualHashWithProgress_correct toyHash toyHash sliceRead [1, 2, 3] [1, 2, 3]
      (some fun (l : List Int) v => l ++ [v]) []
      (sliceRead_delivers copyBufSize (by decide) 3 [1, 2, 3] (by decide))⟩

/-- C3 on the bytes 1, 2, 3: read whole from memory, read from a pipe as the slices 1, then
nothing, then 2 3, and read by the chunk loop one byte at a time. -/
theorem digests_independent_of_chunking_witness :
    Delivers sliceRead copyBufSize [1, 2, 3] [1, 2, 3] ∧
    Delivers pipeRead copyBufSize [[1], [], [2, 3]] [1, 2, 3] ∧
    Delivers sliceRead 1 [1, 2, 3] [1, 2, 3] ∧
    ∃ N, ∀ fuel, N ≤ fuel →
      (DualHashWithProgress toyHash toyHash sliceRead (none : Option (ProgressCallback Unit))
          fuel [1, 2, 3] ()).map Prod.fst =
        (DualHashWithProgress toyHash toyHash pipeRead (some progressCallback)
          fuel [[1], [], [2, 3]] ()).map Prod.fst ∧
      (parallelHashLargeFileWith toyHash toyHash 1 sliceRead (some progressCallback)
          fuel [1, 2, 3] ()).map Prod.fst =
        (DualHashWithProgress toyHash toyHash sliceRead (none : Option (ProgressCallback Unit))
          fuel [1, 2, 3] ()).map Prod.fst ∧
      (DualHashWithProgress toyHash toyHash sliceRead (none : Option (ProgressCallback Unit))
          fuel [1, 2, 3] ()).map Prod.fst =
        some ⟨hexEncodeToString (toyHash.sum [1, 2, 3]),
          hexEncodeToString (toyHash.sum [1, 2, 3]), none⟩ :=
  ⟨sliceRead_delivers copyBufSize (by decide) 3 [1, 2, 3] (by decide),
    ⟨[[1], [], [2, 3], []], [],
      Reads.more rfl (by decide) (Reads.more rfl (by decide) (Reads.more rfl (by decide)
        (Reads.last rfl (by decide)))), rfl⟩,
    sliceRead_delivers 1 (by decide) 3 [1, 2, 3] (by decide),
    digests_independent_of_chunking toyHash toyHash sliceRead pipeRead sliceRead
      [1, 2, 3] [[1], [], [2, 3]] [1, 2, 3] [1, 2, 3] none (some progressCallback)
      (some progressCallback) () () () 1
      (sliceRead_delivers copyBufSize (by decide) 3 [1, 2, 3] (by decide))
      ⟨[[1], [], [2, 3], []], [],
        Reads.more rfl (by decide) (Reads.more rfl (by decide) (Reads.more rfl (by decide)
          (Reads.last rfl (by decide)))), rfl⟩
      (sliceRead_delivers 1 (by decide) 3 [1, 2, 3] (by decide))⟩

/-- C4 on the bytes 1, 2, 3 and a sink that keeps what it is given. -/
theorem saveAndHash_digests_witness :
    Delivers sliceRead copyBufSize [1, 2, 3] [1, 2, 3] ∧ Accepts bufferWrite ∧
    ∃ N r w, (r.err = none ∧ pipeBytes w.trace = [1, 2, 3]) ∧ ∀ fuel, N ≤ fuel →
      saveAndHash toyHash toyHash sliceRead bufferWrite fuel [1, 2, 3] [] = some (r, w) ∧
      (DualHash toyHash toyHash sliceRead fuel [1, 2, 3]).map Prod.fst =
        some ⟨r.blake3Hash, r.sha256Hash, none⟩ :=
  ⟨sliceRead_delivers copyBufSize (by decide) 3 [1, 2, 3] (by decide), bufferWrite_accepts,
    saveAndHash_digests toyHash toyHash sliceRead bufferWrite sliceRead [1, 2, 3] [] [1, 2, 3]
      [1, 2, 3] (sliceRead_delivers copyBufSize (by decide) 3 [1, 2, 3] (by decide))
      bufferWrite_accepts (sliceRead_delivers copyBufSize (by decide) 3 [1, 2, 3] (by decide))⟩

/-- C5 on the bytes 1, 2, 3 handed out by the pipe reader in the slices `1, 2` and `3`, and a
sink that keeps what it is given: the sink ends up holding 1, 2, 3. -/
theorem saveAndHash_sink_exact_witness :
    Delivers pipeRead copyBufSize [[1, 2], [3]] [1, 2, 3] ∧ Accepts bufferWrite ∧
    ∃ N r w, (r.err = none ∧ w.dest = [1, 2, 3] ∧ sinkWrites w.trace = [[1, 2], [3]] ∧
        sinkBytes w.trace = [1, 2, 3]) ∧
      ∀ fuel, N ≤ fuel →
        saveAndHash toyHash toyHash pipeRead bufferWrite fuel [[1, 2], [3]] [] = some (r, w) := by
  have hd : Delivers pipeRead copyBufSize [[1, 2], [3]] [1, 2, 3] :=
    ⟨[[1, 2], [3], []], [],
      Reads.more rfl (by decide) (Reads.more rfl (by decide) (Reads.last rfl (by decide))), rfl⟩
  obtain ⟨N, r, w, ps, ⟨h1, h2, h3, h4, h5⟩, hN⟩ :=
    saveAndHash_sink_exact toyHash toyHash pipeRead bufferWrite [[1, 2], [3]] [] [1, 2, 3] hd
      bufferWrite_accepts
  have hrun := hN (N + 3) (Nat.le_add_right _ _)
  have hev : saveAndHash toyHash toyHash pipeRead bufferWrite (N + 3) [[1, 2], [3]] [] =
      some (⟨hexEncodeToString (toyHash.sum [1, 2, 3]), hexEncodeToString (toyHash.sum [1, 2, 3]),
        3, none⟩,
        ⟨[], [1, 2, 3], [[1, 2], [3]],
          [Event.srcRead ⟨[1, 2], none⟩, Event.destWrite [1, 2] ⟨2, none⟩, Event.pipeWrite [1, 2],
            Event.srcRead ⟨[3], none⟩, Event.destWrite [3] ⟨1, none⟩, Event.pipeWrite [3],
            Event.srcRead ⟨[], some Error.EOF⟩]⟩) := rfl
  rw [hev] at hrun
  simp only [Option.some.injEq, Prod.mk.injEq] at hrun
  obtain ⟨-, hw⟩ := hrun
  refine ⟨hd, bufferWrite_accepts, N, r, w, ⟨h1, ?_, ?_, h5⟩, hN⟩
  · rw [← hw]
  · rw [← hw]
    rfl

/-- C6 on the bytes 1, 2, 3: into a sink with room for five bytes, which does not accept all
writes, the run with fuel 2 returns a nil error and size 3; into a sink that keeps what it is
given, size 3 is returned from some fuel on. -/
theorem saveAndHash_size_witness :
    Delivers sliceRead copyBufSize [1, 2, 3] [1, 2, 3] ∧
    (([1, 2, 3] : List Byte).length : Int) < 2 ^ 63 ∧
    saveAndHash toyHash toyHash sliceRead (fullWrite (Error.other 28)) 2 [1, 2, 3] 5 =
      some (⟨hexEncodeToString (toyHash.sum [1, 2, 3]), hexEncodeToString (toyHash.sum [1, 2, 3]),
        3, none⟩,
        ⟨[], 2, [[1, 2, 3]],
          [Event.srcRead ⟨[1, 2, 3], none⟩, Event.destWrite [1, 2, 3] ⟨3, none⟩,
            Event.pipeWrite [1, 2, 3], Event.srcRead ⟨[], some Error.EOF⟩]⟩) ∧
    (3 : Int) = (([1, 2, 3] : List Byte).length : Int) ∧
    Accepts bufferWrite ∧
    ∃ N r w, (r.err = none ∧ r.size = (([1, 2, 3] : List Byte).length : Int)) ∧
      ∀ fuel, N ≤ fuel →
        saveAndHash toyHash toyHash sliceRead bufferWrite fuel [1, 2, 3] [] = some (r, w) :=
  ⟨sliceRead_delivers copyBufSize (by decide) 3 [1, 2, 3] (by decide), by decide, rfl,
    (saveAndHash_size toyHash toyHash sliceRead (fullWrite (Error.other 28)) [1, 2, 3] 5
      [1, 2, 3] (sliceRead_delivers copyBufSize (by decide) 3 [1, 2, 3] (by decide))
      (by decide)).1 2 _ _ rfl rfl,
    bufferWrite_accepts,
    (saveAndHash_size toyHash toyHash sliceRead bufferWrite [1, 2, 3] [] [1, 2, 3]
      (sliceRead_delivers copyBufSize (by decide) 3 [1, 2, 3] (by decide)) (by decide)).2
      bufferWrite_accepts⟩

/-- C7 on the bytes 1, 2, 3 and a sink with room for two bytes. -/
theorem saveAndHash_sink_error_witness :
    Delivers sliceRead copyBufSize [1, 2, 3] [1, 2, 3] ∧
    FailsAfter (fullWrite (Error.other 28)) (fun room => room) (Error.other 28) ∧
    2 < ([1, 2, 3] : List Byte).length ∧
    ∃ N w, (∃ pre p n, w.trace = pre ++ [Event.destWrite p ⟨n, some (Error.other 28)⟩]) ∧
      ∀ fuel, N ≤ fuel →
        saveAndHash toyHash toyHash sliceRead (fullWrite (Error.other 28)) fuel [1, 2, 3] 2 =
          some (⟨"", "", 0, some (Error.other 28)⟩, w) :=
  ⟨sliceRead_delivers copyBufSize (by decide) 3 [1, 2, 3] (by decide),
    fullWrite_failsAfter (Error.other 28), by decide,
    saveAndHash_sink_error toyHash toyHash sliceRead (fullWrite (Error.other 28))
      (fun room => room) (Error.other 28) [1, 2, 3] 2 [1, 2, 3]
      (sliceRead_delivers copyBufSize (by decide) 3 [1, 2, 3] (by decide))
      (fullWrite_failsAfter (Error.other 28)) (by decide)⟩

/-- C8 on a reader whose first read returns the byte 7 together with its error. -/
theorem dualHashWithProgress_read_error_witness :
    Reads (brokenRead [7] (Error.other 5)) copyBufSize 0 [[7]] (Error.other 5) 1 ∧
    Error.other 5 ≠ Error.EOF ∧
    ∃ N w, ∀ fuel, N ≤ fuel →
      DualHashWithProgress toyHash toyHash (brokenRead [7] (Error.other 5))
          (some progressCallback) fuel 0 () =
        some (⟨"", "", some (Error.other 5)⟩, w) :=
  ⟨Reads.last rfl (by decide), by decide,
    dualHashWithProgress_read_error toyHash toyHash (brokenRead [7] (Error.other 5)) 0 1 [[7]]
      (Error.other 5) (some progressCallback) () (Reads.last rfl (by decide)) (by decide)⟩

/-- C9 on a reader whose first read returns the byte 7 together with its error. -/
theorem parallelHashLargeFile_read_error_witness :
    Reads (brokenRead [7] (Error.other 5)) chunkSize 0 [[7]] (Error.other 5) 1 ∧
    Error.other 5 ≠ Error.EOF ∧
    ∃ N w, (w.r = 1 ∧ w.reads = [[(7 : Byte)]].length) ∧ ∀ fuel, N ≤ fuel →
      parallelHashLargeFile toyHash toyHash (brokenRead [7] (Error.other 5)) parallelThreshold
          (some progressCallback) fuel 0 () =
        some (⟨"", "", some (Error.other 5)⟩, w) :=
  ⟨Reads.last rfl (by decide), by decide,
    parallelHashLargeFile_read_error toyHash toyHash (brokenRead [7] (Error.other 5)) 0 1 [[7]]
      (Error.other 5) parallelThreshold (some progressCallback) ()
      (Reads.last rfl (by decide)) (by decide)⟩

/-- C10, as stated, fails: the source returns the byte 7 together with its error `other 1` on
the first read, the sink fails with `other 2` on that byte, and `saveAndHash` returns the
error of the sink, not the error with which the source read failed. -/
theorem saveAndHash_source_error_masked :
    Reads (brokenRead [7] (Error.other 1)) copyBufSize 0 [[7]] (Error.other 1) 1 ∧
    (∀ fuel, (saveAndHash toyHash toyHash (brokenRead [7] (Error.other 1))
        (deadWrite (Error.other 2)) (fuel + 1) 0 ()).map Prod.fst =
      some ⟨"", "", 0, some (Error.other 2)⟩) ∧
    ¬ ∃ fuel, (saveAndHash toyHash toyHash (brokenRead [7] (Error.other 1))
        (deadWrite (Error.other 2)) fuel 0 ()).map Prod.fst =
      some ⟨"", "", 0, some (Error.other 1)⟩ := by
  have hrun : ∀ fuel, (saveAndHash toyHash toyHash (brokenRead [7] (Error.other 1))
      (deadWrite (Error.other 2)) (fuel + 1) 0 ()).map Prod.fst =
      some ⟨"", "", 0, some (Error.other 2)⟩ := fun fuel => rfl
  refine ⟨Reads.last rfl (by decide), hrun, ?_⟩
  rintro ⟨fuel, h⟩
  cases fuel with
  | zero => exact absurd h (by decide)
  | succ f =>
    rw [hrun f] at h
    exact absurd h (by decide)

/-- C10 as amended, on a successful run over the bytes 1, 2, 3 and on a source whose first
read returns the byte 7 together with its error, into a sink that accepts everything. -/
theorem saveAndHash_no_partial_result_witness :
    saveAndHash toyHash toyHash sliceRead bufferWrite 2 [1, 2, 3] [] =
      some (⟨"0600000000000000000000000000000000000000000000000000000000000000",
        "0600000000000000000000000000000000000000000000000000000000000000", 3, none⟩,
        ⟨[], [1, 2, 3], [[1, 2, 3]],
          [Event.srcRead ⟨[1, 2, 3], none⟩, Event.destWrite [1, 2, 3] ⟨3, none⟩,
            Event.pipeWrite [1, 2, 3], Event.srcRead ⟨[], some Error.EOF⟩]⟩) ∧
    ((("0600000000000000000000000000000000000000000000000000000000000000" : String) ≠ "" ∧
        ("0600000000000000000000000000000000000000000000000000000000000000" : String) ≠ "") ↔
      (none : Option Error) = none) ∧
    Reads (brokenRead [7] (Error.other 1)) copyBufSize 0 [[7]] (Error.other 1) 1 ∧
    Error.other 1 ≠ Error.EOF ∧
    ∃ N w e1,
      ((∀ p res, Event.destWrite p res ∈ w.trace → res = ⟨p.length, none⟩) →
        e1 = Error.other 1) ∧
      ∀ fuel, N ≤ fuel →
        saveAndHash toyHash toyHash (brokenRead [7] (Error.other 1)) bufferWrite fuel 0 [] =
          some (⟨"", "", 0, some e1⟩, w) :=
  ⟨rfl,
    (saveAndHash_no_partial_result toyHash toyHash sliceRead bufferWrite [1, 2, 3] []).1 2 _ _ rfl,
    Reads.last rfl (by decide), by decide,
    (saveAndHash_no_partial_result toyHash toyHash (brokenRead [7] (Error.other 1)) bufferWrite
      0 []).2 [[7]] (Error.other 1) 1 (Reads.last rfl (by decide)) (by decide)⟩

/-! ## Digest encoding, empty input, strategy selection -/

theorem hextable_getD_mem (i : Nat) (h : i < 16) : hextable.getD i '0' ∈ hextable := by
  interval_cases i <;> decide

theorem hexEncodeToString_chars (l : List Byte) :
    ∀ c ∈ (hexEncodeToString l).toList, c ∈ "0123456789abcdef".toList := by
  intro c hc
  have hc2 : c ∈ l.flatMap fun v =>
      [hextable.getD (v.toNat / 16) '0', hextable.getD (v.toNat % 16) '0'] := hc
  rw [List.mem_flatMap] at hc2
  obtain ⟨v, _, hv⟩ := hc2
  have hlt : v.toNat < 256 := v.toNat_lt
  simp only [List.mem_cons, List.mem_singleton, List.not_mem_nil, or_false] at hv
  rcases hv with rfl | rfl
  · exact hextable_getD_mem _ (by omega)
  · exact hextable_getD_mem _ (by omega)

theorem isHex64_digest (A : HashAlg) (m : List Byte) : IsHex64 (hexEncodeToString (A.sum m)) :=
  ⟨by rw [hexEncodeToString_length, A.size_eq], hexEncodeToString_chars _⟩

theorem finish_isHex64 {σ κ : Type} (B3 S256 : HashAlg) (err : Option Error) (w : HashEnv σ κ)
    (h : (finish B3 S256 err w).err = none) :
    IsHex64 (finish B3 S256 err w).blake3Hash ∧ IsHex64 (finish B3 S256 err w).sha256Hash := by
  cases err with
  | none => exact ⟨isHex64_digest B3 _, isHex64_digest S256 _⟩
  | some e => exact Option.noConfusion h

theorem parallelHashLargeFileWith_shape {σ κ : Type} (B3 S256 : HashAlg) (b : Nat) (rd : Reader σ)
    (progress : Option (ProgressCallback κ)) (fuel : Nat) (s : σ) (k : κ) (res : HashResult)
    (w : HashEnv σ κ)
    (h : parallelHashLargeFileWith B3 S256 b rd progress fuel s k = some (res, w)) :
    ∃ err, res = finish B3 S256 err w := by
  unfold parallelHashLargeFileWith at h
  split at h
  · cases h
  · simp only [Option.some.injEq, Prod.mk.injEq] at h
    exact ⟨_, by rw [← h.1, h.2]⟩

theorem parallelDualHash_shape {σ κ : Type} (B3 S256 : HashAlg) (rd : Reader σ) (fileSize : Int)
    (progress : Option (ProgressCallback κ)) (fuel : Nat) (s : σ) (k : κ) (res : HashResult)
    (w : HashEnv σ κ) (h : ParallelDualHash B3 S256 rd fileSize progress fuel s k = some (res, w)) :
    ∃ err, res = finish B3 S256 err w := by
  unfold ParallelDualHash at h
  split at h
  · exact dualHashWithProgress_shape _ _ _ _ _ _ _ _ _ h
  · exact parallelHashLargeFileWith_shape _ _ _ _ _ _ _ _ _ _ h

/-- C11. Digest encoding: whenever `DualHash`, `DualHashWithProgress` or `ParallelDualHash`
returns a nil error, both returned strings have exactly 64 characters, each one of `0`..`9`,
`a`..`f`. -/
theorem digest_encoding {σ κ : Type} (B3 S256 : HashAlg) (rd : Reader σ) (fileSize : Int)
    (progress : Option (ProgressCallback κ)) (fuel : Nat) (s : σ) (k : κ) :
    (∀ r w, DualHash B3 S256 rd fuel s = some (r, w) → r.err = none →
      IsHex64 r.blake3Hash ∧ IsHex64 r.sha256Hash) ∧
    (∀ r w, DualHashWithProgress B3 S256 rd progress fuel s k = some (r, w) → r.err = none →
      IsHex64 r.blake3Hash ∧ IsHex64 r.sha256Hash) ∧
    (∀ r w, ParallelDualHash B3 S256 rd fileSize progress fuel s k = some (r, w) →
      r.err = none → IsHex64 r.blake3Hash ∧ IsHex64 r.sha256Hash) := by
  refine ⟨fun r w h hr => ?_, fun r w h hr => ?_, fun r w h hr => ?_⟩
  · obtain ⟨err, rfl⟩ := dualHashWithProgress_shape _ _ _ _ _ _ _ _ _ h
    exact finish_isHex64 B3 S256 err w hr
  · obtain ⟨err, rfl⟩ := dualHashWithProgress_shape _ _ _ _ _ _ _ _ _ h
    exact finish_isHex64 B3 S256 err w hr
  · obtain ⟨err, rfl⟩ := parallelDualHash_shape _ _ _ _ _ _ _ _ _ _ h
    exact finish_isHex64 B3 S256 err w hr

theorem blake3_empty : hexEncodeToString (blake3.sum []) =
    "af1349b9f5f9a1a6a0404dea36dcc9499bcb25c9adc112b7cc9a93cae41f3262" := by
  decide!

theorem sha256_empty : hexEncodeToString (sha256.sum []) =
    "e3b0c44298fc1c149afbf4c8996fb92427ae41e4649b934ca495991b7852b855" := by
  decide!

/-- C12. Empty input: for a reader that delivers zero bytes and then end-of-stream, `DualHash`
with BLAKE3 and SHA-256 returns the known empty-input digests of the two algorithms with a nil
error, and `saveAndHash` over such a source, into a sink that accepts all writes, returns
those digests with size 0. -/
theorem empty_input_digests {σ τ ω : Type} (rd : Reader σ) (s : σ) (src : Reader τ) (t : τ)
    (dest : Writer ω) (d : ω) (h : Delivers rd copyBufSize s [])
    (hsrc : Delivers src copyBufSize t []) (hacc : Accepts dest) :
    ∃ N w v, ∀ fuel, N ≤ fuel →
      DualHash blake3 sha256 rd fuel s =
        some (⟨"af1349b9f5f9a1a6a0404dea36dcc9499bcb25c9adc112b7cc9a93cae41f3262",
          "e3b0c44298fc1c149afbf4c8996fb92427ae41e4649b934ca495991b7852b855", none⟩, w) ∧
      saveAndHash blake3 sha256 src dest fuel t d =
        some (⟨"af1349b9f5f9a1a6a0404dea36dcc9499bcb25c9adc112b7cc9a93cae41f3262",
          "e3b0c44298fc1c149afbf4c8996fb92427ae41e4649b934ca495991b7852b855", 0, none⟩, v) := by
  obtain ⟨ds, s1, hds, hfl⟩ := h
  obtain ⟨ps, t1, hps, hpl⟩ := hsrc
  obtain ⟨N1, w, ⟨_, b1, c1, _⟩, hN1⟩ := dualHash_reads blake3 sha256 rd none () hds
  obtain ⟨N2, v, _, hN2⟩ := saveAndHash_accepts blake3 sha256 src dest hacc d hps
  refine ⟨max N1 N2, w, v, fun fuel hfuel => ⟨?_, ?_⟩⟩
  · have r1 := hN1 fuel (le_trans (le_max_left _ _) hfuel)
    rw [finish_eof, b1, c1, hfl, blake3_empty, sha256_empty] at r1
    exact r1
  · have r2 := hN2 fuel (le_trans (le_max_right _ _) hfuel)
    rw [hpl, blake3_empty, sha256_empty] at r2
    exact r2

/-- C13. Strategy selection: `ParallelDualHash(r, fileSize, p)` is `DualHashWithProgress(r, p)`
when `fileSize < 104857600`, zero and negative hints included, and is
`parallelHashLargeFile(r, fileSize, p)`, the loop with a buffer of 8388608 bytes, when
`fileSize >= 104857600`; the value 104857600 itself selects the chunked strategy. -/
theorem parallelDualHash_strategy {σ κ : Type} (B3 S256 : HashAlg) (rd : Reader σ)
    (fileSize : Int) (progress : Option (ProgressCallback κ)) (fuel : Nat) (s : σ) (k : κ) :
    (fileSize < 104857600 →
      ParallelDualHash B3 S256 rd fileSize progress fuel s k =
        DualHashWithProgress B3 S256 rd progress fuel s k) ∧
    (104857600 ≤ fileSize →
      ParallelDualHash B3 S256 rd fileSize progress fuel s k =
        parallelHashLargeFile B3 S256 rd fileSize progress fuel s k ∧
      parallelHashLargeFile B3 S256 rd fileSize progress fuel s k =
        parallelHashLargeFileWith B3 S256 8388608 rd progress fuel s k) ∧
    ParallelDualHash B3 S256 rd 104857600 progress fuel s k =
      parallelHashLargeFileWith B3 S256 8388608 rd progress fuel s k := by
  refine ⟨fun h => ?_, fun h => ⟨?_, rfl⟩, ?_⟩
  · simp [ParallelDualHash, parallelThreshold, h]
  · have : ¬ fileSize < 104857600 := by omega
    simp [ParallelDualHash, parallelThreshold, this]
  · simp [ParallelDualHash, parallelThreshold, parallelHashLargeFile, chunkSize]

/-! ## The progress callback -/

theorem seqSamples_values (bp : Int) (fed3 fed256 : Nat) (ds : List (List Byte)) :
    (seqSamples bp fed3 fed256 ds).map Sample.bytesProcessed = progressValues bp ds := by
  induction ds generalizing bp fed3 fed256 with
  | nil => rfl
  | cons d ds ih =>
    by_cases hd : 0 < d.length
    · simp [seqSamples, progressValues, hd, ih]
    · simp [seqSamples, progressValues, hd, ih]

theorem chunkSamples_values (bp : Int) (fed3 fed256 : Nat) (ds : List (List Byte)) :
    (chunkSamples bp fed3 fed256 ds).map Sample.bytesProcessed = progressValues bp ds := by
  induction ds generalizing bp fed3 fed256 with
  | nil => rfl
  | cons d ds ih =>
    by_cases hd : 0 < d.length
    · simp [chunkSamples, progressValues, hd, ih]
    · simp [chunkSamples, progressValues, hd, ih]

theorem ioCopy_step_progress {σ κ : Type} (rd : Reader σ) (f : ProgressCallback κ) (fuel : Nat)
    (w : HashEnv σ κ) (written : Int) (d : List Byte) (er : Option Error) (s1 : σ)
    (h : rd w.r copyBufSize = (⟨d, er⟩, s1)) :
    ioCopy (progressReader.Read rd (some f)) (multiWriterWrite [b3Write, s256Write])
        (fuel + 1) w written =
      match er with
      | none => ioCopy (progressReader.Read rd (some f)) (multiWriterWrite [b3Write, s256Write])
          fuel (afterSeq f w d s1) (if 0 < d.length then wrap64 (written + d.length) else written)
      | some e => some ((if 0 < d.length then wrap64 (written + d.length) else written,
          stopErr e), afterSeq f w d s1) := by
  by_cases hd : 0 < d.length
  · have hne : d ≠ [] := List.length_pos.mp hd
    have hsrc : progressReader.Read rd (some f) w copyBufSize = (⟨d, er⟩,
        { r := s1, b3 := w.b3, s256 := w.s256,
          bytesProcessed := wrap64 (w.bytesProcessed + d.length),
          cb := f w.cb (wrap64 (w.bytesProcessed + d.length)), reads := w.reads + 1,
          calls := w.calls ++
            [⟨wrap64 (w.bytesProcessed + d.length), w.b3.length, w.s256.length⟩] }) := by
      simp [progressReader.Read, readR, h, hd, invoke]
    rw [ioCopy_step_full _ _ _ _ _ _ _ _ _ hne hsrc (multiWriter_hashers _ _)]
    cases er <;> simp [afterSeq, hd]
  · have hnil : d = [] := List.length_eq_zero.mp (by omega)
    subst hnil
    have hsrc : progressReader.Read rd (some f) w copyBufSize = (⟨[], er⟩,
        { w with r := s1, reads := w.reads + 1 }) := by
      simp [progressReader.Read, readR, h]
    rw [ioCopy_step_empty _ _ _ _ _ _ _ hsrc]
    cases er <;> simp [afterSeq]

theorem afterSeq_fields {σ κ : Type} (f : ProgressCallback κ) (w : HashEnv σ κ) (d : List Byte)
    (s1 : σ) (ds : List (List Byte)) :
    (afterSeq f w d s1).r = s1 ∧ (afterSeq f w d s1).b3 = w.b3 ++ d ∧
      (afterSeq f w d s1).s256 = w.s256 ++ d ∧
      (afterSeq f w d s1).calls ++
          seqSamples (afterSeq f w d s1).bytesProcessed (afterSeq f w d s1).b3.length
            (afterSeq f w d s1).s256.length ds =
        w.calls ++ seqSamples w.bytesProcessed w.b3.length w.s256.length (d :: ds) := by
  by_cases hd : 0 < d.length
  · simp [afterSeq, seqSamples, hd]
  · have hnil : d = [] := List.length_eq_zero.mp (by omega)
    subst hnil
    simp [afterSeq, seqSamples]

/-- The copy loop of `DualHashWithProgress` with a callback, on a reader whose reads return
`ds` and then stop with `e`: the callback is invoked as `seqSamples` says. -/
theorem ioCopy_progress {σ κ : Type} (rd : Reader σ) (f : ProgressCallback κ)
    {s : σ} {ds : List (List Byte)} {e : Error} {s1 : σ} (h : Reads rd copyBufSize s ds e s1) :
    ∀ (w : HashEnv σ κ) (written : Int), w.r = s →
      ∃ N w1 written1, (w1.b3 = w.b3 ++ ds.flatten ∧ w1.s256 = w.s256 ++ ds.flatten ∧
          w1.calls = w.calls ++ seqSamples w.bytesProcessed w.b3.length w.s256.length ds) ∧
        ∀ fuel, N ≤ fuel →
          ioCopy (progressReader.Read rd (some f)) (multiWriterWrite [b3Write, s256Write])
            fuel w written = some ((written1, stopErr e), w1) := by
  induction h with
  | @last s d e s1 hrd _ =>
    intro w written hw
    rw [← hw] at hrd
    obtain ⟨_, h2, h3, h4⟩ := afterSeq_fields f w d s1 []
    refine ⟨1, afterSeq f w d s1, if 0 < d.length then wrap64 (written + d.length) else written,
      ⟨by simp [h2], by simp [h3], ?_⟩, fun fuel hfuel => ?_⟩
    · simpa [seqSamples] using h4
    · obtain ⟨g, rfl⟩ : ∃ g, fuel = g + 1 := ⟨fuel - 1, by omega⟩
      rw [ioCopy_step_progress rd f g w written d (some e) s1 hrd]
  | @more s d s1 ds e s2 hrd _ _ ih =>
    intro w written hw
    rw [← hw] at hrd
    obtain ⟨h1, h2, h3, h4⟩ := afterSeq_fields f w d s1 ds
    obtain ⟨N, w1, written1, ⟨hb, hs, hc⟩, hN⟩ := ih (afterSeq f w d s1)
      (if 0 < d.length then wrap64 (written + d.length) else written) h1
    refine ⟨N + 1, w1, written1, ⟨by simpa [h2] using hb, by simpa [h3] using hs, ?_⟩,
      fun fuel hfuel => ?_⟩
    · rw [hc, h4]
    · obtain ⟨g, rfl⟩ : ∃ g, fuel = g + 1 := ⟨fuel - 1, by omega⟩
      rw [ioCopy_step_progress rd f g w written d none s1 hrd]
      exact hN g (by omega)

theorem afterChunk_calls {σ κ : Type} (f : ProgressCallback κ) (w : HashEnv σ κ) (d : List Byte)
    (s1 : σ) (ds : List (List Byte)) :
    (afterChunk (some f) w d s1).calls ++
        chunkSamples (afterChunk (some f) w d s1).bytesProcessed
          (afterChunk (some f) w d s1).b3.length (afterChunk (some f) w d s1).s256.length ds =
      w.calls ++ chunkSamples w.bytesProcessed w.b3.length w.s256.length (d :: ds) := by
  by_cases hd : 0 < d.length
  · simp [afterChunk, chunkSamples, hd, invoke]
  · have hnil : d = [] := List.length_eq_zero.mp (by omega)
    subst hnil
    simp [afterChunk, chunkSamples]

/-- The loop of `parallelHashLargeFile` with a callback, on a reader whose reads return `ds`
and then stop with `e`: the callback is invoked as `chunkSamples` says. -/
theorem chunkLoop_progress {σ κ : Type} (rd : Reader σ) (f : ProgressCallback κ) (b : Nat)
    {s : σ} {ds : List (List Byte)} {e : Error} {s1 : σ} (h : Reads rd b s ds e s1) :
    ∀ (w : HashEnv σ κ), w.r = s →
      ∃ N w1, (w1.b3 = w.b3 ++ ds.flatten ∧ w1.s256 = w.s256 ++ ds.flatten ∧
          w1.calls = w.calls ++ chunkSamples w.bytesProcessed w.b3.length w.s256.length ds) ∧
        ∀ fuel, N ≤ fuel → chunkLoop rd (some f) b fuel w = some (stopErr e, w1) := by
  induction h with
  | @last s d e s1 hrd _ =>
    intro w hw
    rw [← hw] at hrd
    obtain ⟨_, h2, h3, _⟩ := afterChunk_fields (some f) w d s1
    have h4 := afterChunk_calls f w d s1 []
    refine ⟨1, afterChunk (some f) w d s1, ⟨by simp [h2], by simp [h3], ?_⟩,
      fun fuel hfuel => ?_⟩
    · simpa [chunkSamples] using h4
    · obtain ⟨g, rfl⟩ : ∃ g, fuel = g + 1 := ⟨fuel - 1, by omega⟩
      rw [chunkLoop_step rd (some f) b g w d (some e) s1 hrd]
  | @more s d s1 ds e s2 hrd _ _ ih =>
    intro w hw
    rw [← hw] at hrd
    obtain ⟨h1, h2, h3, _⟩ := afterChunk_fields (some f) w d s1
    have h4 := afterChunk_calls f w d s1 ds
    obtain ⟨N, w1, ⟨hb, hs, hc⟩, hN⟩ := ih (afterChunk (some f) w d s1) h1
    refine ⟨N + 1, w1, ⟨by simpa [h2] using hb, by simpa [h3] using hs, ?_⟩,
      fun fuel hfuel => ?_⟩
    · rw [hc, h4]
    · obtain ⟨g, rfl⟩ : ∃ g, fuel = g + 1 := ⟨fuel - 1, by omega⟩
      rw [chunkLoop_step rd (some f) b g w d none s1 hrd]
      exact hN g (by omega)

theorem dualHash_progress {σ κ : Type} (B3 S256 : HashAlg) (rd : Reader σ)
    (f : ProgressCallback κ) (k : κ)
    {s : σ} {ds : List (List Byte)} {e : Error} {s1 : σ} (h : Reads rd copyBufSize s ds e s1) :
    ∃ N w, (w.b3 = ds.flatten ∧ w.s256 = ds.flatten ∧ w.calls = seqSamples 0 0 0 ds) ∧
      ∀ fuel, N ≤ fuel →
        DualHashWithProgress B3 S256 rd (some f) fuel s k =
          some (finish B3 S256 (stopErr e) w, w) := by
  obtain ⟨N, w, written1, ⟨hb, hs, hc⟩, hN⟩ := ioCopy_progress rd f h (HashEnv.init s k) 0 rfl
  refine ⟨N, w, ⟨by simpa [HashEnv.init] using hb, by simpa [HashEnv.init] using hs,
    by simpa [HashEnv.init] using hc⟩, fun fuel hfuel => ?_⟩
  simp [DualHashWithProgress, hN fuel hfuel]

theorem chunked_progress {σ κ : Type} (B3 S256 : HashAlg) (b : Nat) (rd : Reader σ)
    (f : ProgressCallback κ) (k : κ)
    {s : σ} {ds : List (List Byte)} {e : Error} {s1 : σ} (h : Reads rd b s ds e s1) :
    ∃ N w, (w.b3 = ds.flatten ∧ w.s256 = ds.flatten ∧ w.calls = chunkSamples 0 0 0 ds) ∧
      ∀ fuel, N ≤ fuel →
        parallelHashLargeFileWith B3 S256 b rd (some f) fuel s k =
          some (finish B3 S256 (stopErr e) w, w) := by
  obtain ⟨N, w, ⟨hb, hs, hc⟩, hN⟩ := chunkLoop_progress rd f b h (HashEnv.init s k) rfl
  refine ⟨N, w, ⟨by simpa [HashEnv.init] using hb, by simpa [HashEnv.init] using hs,
    by simpa [HashEnv.init] using hc⟩, fun fuel hfuel => ?_⟩
  simp [parallelHashLargeFileWith, hN fuel hfuel]

theorem invokeAll_append {κ : Type} (f : ProgressCallback κ) (k : κ) (vs : List Int) (v : Int) :
    invokeAll f k (vs ++ [v]) = f (invokeAll f k vs) v := by
  simp [invokeAll, List.foldl_append]

/-- After `DualHashWithProgress` with callback `f`, whatever the reader does, the state of the
callback is the one that the invocations on record, made in their order, leave. -/
theorem dualHashWithProgress_cb {σ κ : Type} (B3 S256 : HashAlg) (rd : Reader σ)
    (f : ProgressCallback κ) (fuel : Nat) (s : σ) (k : κ) (r : HashResult) (w : HashEnv σ κ)
    (h : DualHashWithProgress B3 S256 rd (some f) fuel s k = some (r, w)) :
    w.cb = invokeAll f k (w.calls.map Sample.bytesProcessed) := by
  unfold DualHashWithProgress at h
  simp only [] at h
  cases hc : ioCopy (progressReader.Read rd (some f)) (multiWriterWrite [b3Write, s256Write])
      fuel (HashEnv.init s k) 0 with
  | none => simp [hc] at h
  | some x =>
    obtain ⟨res, w0⟩ := x
    rw [hc] at h
    simp only [Option.some.injEq, Prod.mk.injEq] at h
    obtain ⟨-, hw⟩ := h
    subst hw
    refine ioCopy_invariant (progressReader.Read rd (some f))
      (multiWriterWrite [b3Write, s256Write])
      (fun v => v.cb = invokeAll f k (v.calls.map Sample.bytesProcessed)) ?_ ?_ fuel _ 0 res w0
      hc rfl
    · intro v n hv
      by_cases hd : 0 < (rd v.r n).1.data.length
      · simp [progressReader.Read, readR, hd, invoke, invokeAll_append, hv]
      · simp [progressReader.Read, readR, hd, hv]
    · intro v p hv
      rw [multiWriter_hashers]
      exact hv

theorem afterChunk_cb {σ κ : Type} (f : ProgressCallback κ) (k : κ) (w : HashEnv σ κ)
    (d : List Byte) (s1 : σ) (hw : w.cb = invokeAll f k (w.calls.map Sample.bytesProcessed)) :
    (afterChunk (some f) w d s1).cb =
      invokeAll f k ((afterChunk (some f) w d s1).calls.map Sample.bytesProcessed) := by
  by_cases hd : 0 < d.length
  · simp [afterChunk, hd, invoke, invokeAll_append, hw]
  · simp [afterChunk, hd, hw]

theorem chunkLoop_cb {σ κ : Type} (rd : Reader σ) (f : ProgressCallback κ) (k : κ) (b : Nat) :
    ∀ (fuel : Nat) (w : HashEnv σ κ) (err : Option Error) (w1 : HashEnv σ κ),
      chunkLoop rd (some f) b fuel w = some (err, w1) →
      w.cb = invokeAll f k (w.calls.map Sample.bytesProcessed) →
      w1.cb = invokeAll f k (w1.calls.map Sample.bytesProcessed) := by
  intro fuel
  induction fuel with
  | zero =>
    intro w err w1 h
    simp [chunkLoop] at h
  | succ fuel ih =>
    intro w err w1 h hw
    obtain ⟨⟨d, er⟩, s1, hrd⟩ : ∃ res s1, rd w.r b = (res, s1) := ⟨_, _, rfl⟩
    rw [chunkLoop_step rd (some f) b fuel w d er s1 hrd] at h
    have hafter := afterChunk_cb f k w d s1 hw
    cases er with
    | none => exact ih _ _ _ h hafter
    | some e =>
      simp only [Option.some.injEq, Prod.mk.injEq] at h
      rw [← h.2]
      exact hafter

/-- After the body of `parallelHashLargeFile` with callback `f`, whatever the reader does and
whatever the size of the buffer, the state of the callback is the one that the invocations on
record, made in their order, leave. -/
theorem parallelHashLargeFileWith_cb {σ κ : Type} (B3 S256 : HashAlg) (b : Nat) (rd : Reader σ)
    (f : ProgressCallback κ) (fuel : Nat) (s : σ) (k : κ) (r : HashResult) (w : HashEnv σ κ)
    (h : parallelHashLargeFileWith B3 S256 b rd (some f) fuel s k = some (r, w)) :
    w.cb = invokeAll f k (w.calls.map Sample.bytesProcessed) := by
  unfold parallelHashLargeFileWith at h
  cases hc : chunkLoop rd (some f) b fuel (HashEnv.init s k) with
  | none => simp [hc] at h
  | some x =>
    obtain ⟨err, w0⟩ := x
    rw [hc] at h
    simp only [Option.some.injEq, Prod.mk.injEq] at h
    rw [← h.2]
    exact chunkLoop_cb rd f k b fuel _ err w0 hc rfl

theorem parallelHashLargeFile_cb {σ κ : Type} (B3 S256 : HashAlg) (rd : Reader σ)
    (fileSize : Int) (f : ProgressCallback κ) (fuel : Nat) (s : σ) (k : κ) (r : HashResult)
    (w : HashEnv σ κ)
    (h : parallelHashLargeFile B3 S256 rd fileSize (some f) fuel s k = some (r, w)) :
    w.cb = invokeAll f k (w.calls.map Sample.bytesProcessed) :=
  parallelHashLargeFileWith_cb B3 S256 chunkSize rd f fuel s k r w h

/-- The running totals stay between the start of the counter and the total, do not decrease,
and end at the total, as long as the total is an `int64` value. -/
theorem progressValues_props (ds : List (List Byte)) :
    ∀ (bp : Int), 0 ≤ bp → bp + (ds.flatten.length : Int) < 2 ^ 63 →
      (∀ v ∈ progressValues bp ds, bp ≤ v) ∧
      List.Pairwise (fun a b => a ≤ b) (progressValues bp ds) ∧
      (bp :: progressValues bp ds).getLast? = some (bp + (ds.flatten.length : Int)) := by
  induction ds with
  | nil =>
    intro bp _ _
    simp [progressValues]
  | cons d ds ih =>
    intro bp h0 h1
    simp only [List.flatten_cons, List.length_append, Nat.cast_add] at h1
    by_cases hd : 0 < d.length
    · have hv : wrap64 (bp + d.length) = bp + d.length := wrap64_of_range _ (by omega) (by omega)
      obtain ⟨ha, hb, hc⟩ := ih (bp + d.length) (by omega) (by omega)
      simp only [progressValues, hd, if_true, hv]
      refine ⟨?_, ?_, ?_⟩
      · intro v hvm
        rcases List.mem_cons.mp hvm with rfl | hm
        · omega
        · have := ha v hm
          omega
      · exact List.Pairwise.cons ha hb
      · rw [List.getLast?_cons_cons, hc]
        simp only [List.flatten_cons, List.length_append, Nat.cast_add]
        congr 1
        omega
    · have hnil : d = [] := List.length_eq_zero.mp (by omega)
      subst hnil
      simpa [progressValues] using ih bp h0 (by simpa using h1)

theorem progressValues_ne_nil (ds : List (List Byte)) (bp : Int) (h : ds.flatten ≠ []) :
    progressValues bp ds ≠ [] := by
  induction ds generalizing bp with
  | nil => exact absurd rfl h
  | cons d ds ih =>
    by_cases hd : 0 < d.length
    · simp [progressValues, hd]
    · have hnil : d = [] := List.length_eq_zero.mp (by omega)
      subst hnil
      simpa [progressValues] using ih bp (by simpa using h)

/-- What C14 says of a log of callback invocations: at least one, values that do not decrease,
the last value equal to `total`. -/
theorem progressValues_terminal (ds : List (List Byte)) (hne : ds.flatten ≠ [])
    (hlen : (ds.flatten.length : Int) < 2 ^ 63) :
    progressValues 0 ds ≠ [] ∧ List.Pairwise (fun a b => a ≤ b) (progressValues 0 ds) ∧
      (progressValues 0 ds).getLast? = some (ds.flatten.length : Int) := by
  obtain ⟨_, hb, hc⟩ := progressValues_props ds 0 (le_refl _) (by omega)
  have hnn := progressValues_ne_nil ds 0 hne
  refine ⟨hnn, hb, ?_⟩
  cases hpv : progressValues 0 ds with
  | nil => exact absurd hpv hnn
  | cons a t =>
    rw [hpv, List.getLast?_cons_cons] at hc
    simpa using hc

/-- C14. Progress monotonicity and terminal value: for every non-empty byte sequence `S`
(whose length is an `int64` value) hashed with a callback `f`, by `DualHashWithProgress` or by
`parallelHashLargeFile`, over a reader that delivers `S`, the call succeeds and the callback
has been invoked with values `vs`, one after the other and with nothing else (its state `w.cb`
is the one these invocations leave), where `vs` is not empty, does not decrease, and ends
with `len(S)`. -/
theorem progress_monotone_terminal {σ κ : Type} (B3 S256 : HashAlg) (rd : Reader σ) (s : σ)
    (S : List Byte) (fileSize : Int) (f : ProgressCallback κ) (k : κ) (hne : S ≠ [])
    (hlen : (S.length : Int) < 2 ^ 63) :
    (Delivers rd copyBufSize s S →
      ∃ N r w vs, (r.err = none ∧ w.cb = invokeAll f k vs ∧ vs ≠ [] ∧
          List.Pairwise (fun a b => a ≤ b) vs ∧ vs.getLast? = some (S.length : Int) ∧
          w.calls.map Sample.bytesProcessed = vs) ∧
        ∀ fuel, N ≤ fuel → DualHashWithProgress B3 S256 rd (some f) fuel s k = some (r, w)) ∧
    (Delivers rd chunkSize s S →
      ∃ N r w vs, (r.err = none ∧ w.cb = invokeAll f k vs ∧ vs ≠ [] ∧
          List.Pairwise (fun a b => a ≤ b) vs ∧ vs.getLast? = some (S.length : Int) ∧
          w.calls.map Sample.bytesProcessed = vs) ∧
        ∀ fuel, N ≤ fuel →
          parallelHashLargeFile B3 S256 rd fileSize (some f) fuel s k = some (r, w)) := by
  constructor
  · rintro ⟨ds, s1, hds, rfl⟩
    obtain ⟨N, w, ⟨_, _, hc⟩, hN⟩ := dualHash_progress B3 S256 rd f k hds
    obtain ⟨p1, p2, p3⟩ := progressValues_terminal ds hne hlen
    have hv : w.calls.map Sample.bytesProcessed = progressValues 0 ds := by
      rw [hc, seqSamples_values]
    have hcb := dualHashWithProgress_cb B3 S256 rd f N s k _ w (hN N (Nat.le_refl _))
    refine ⟨N, _, w, progressValues 0 ds, ⟨?_, by rw [hcb, hv], p1, p2, p3, hv⟩, hN⟩
    rw [finish_eof]
  · rintro ⟨ds, s1, hds, rfl⟩
    obtain ⟨N, w, ⟨_, _, hc⟩, hN⟩ := chunked_progress B3 S256 chunkSize rd f k hds
    obtain ⟨p1, p2, p3⟩ := progressValues_terminal ds hne hlen
    have hv : w.calls.map Sample.bytesProcessed = progressValues 0 ds := by
      rw [hc, chunkSamples_values]
    have hcb := parallelHashLargeFile_cb B3 S256 rd fileSize f N s k _ w (hN N (Nat.le_refl _))
    refine ⟨N, _, w, progressValues 0 ds, ⟨?_, by rw [hcb, hv], p1, p2, p3, hv⟩, hN⟩
    rw [finish_eof]

/-- C15 fails on the code. `DualHashWithProgress` over the three bytes 1, 2, 3 held in memory,
with a callback that records its arguments, succeeds and invokes the callback once, with the
value 3, at a moment when the BLAKE3 hasher and the SHA-256 hasher have absorbed 0 bytes: the
callback runs inside `progressReader.Read`, before `io.Copy` writes the slice to the
hashers. The loop of `parallelHashLargeFile` on the same input invokes it with 3 when both
hashers have absorbed 3 bytes. -/
theorem dualHashWithProgress_reports_before_feeding :
    (DualHashWithProgress toyHash toyHash sliceRead (some recordProgress) 2 [1, 2, 3] []).map
        (fun x => (x.1.err, x.2.cb, x.2.calls)) =
      some (none, [3], [⟨3, 0, 0⟩]) ∧
    (parallelHashLargeFile toyHash toyHash sliceRead parallelThreshold (some recordProgress) 2
        [1, 2, 3] []).map
        (fun x => (x.1.err, x.2.cb, x.2.calls)) =
      some (none, [3], [⟨3, 3, 3⟩]) := by
  constructor <;> rfl

theorem progressValues_nonEmptySlices (ds : List (List Byte)) (bp : Int) :
    progressValues bp (nonEmptySlices ds) = progressValues bp ds ∧
      (progressValues bp ds).length = (nonEmptySlices ds).length := by
  induction ds generalizing bp with
  | nil => exact ⟨rfl, rfl⟩
  | cons d ds ih =>
    by_cases hd : 0 < d.length
    · simp [nonEmptySlices, progressValues, hd, List.filter_cons]
      exact ⟨(ih _).1, (ih _).2⟩
    · simp [nonEmptySlices, progressValues, hd, List.filter_cons]
      exact ⟨(ih _).1, (ih _).2⟩

/-- The running totals over the consecutive pieces of `n` bytes of `S`: the `i`-th is what
`i` full pieces amount to, capped by the length of `S`. -/
theorem progressValues_pieces (n : Nat) (hn : 0 < n) :
    ∀ (fuel : Nat) (S : List Byte) (bp : Int), S.length ≤ fuel → 0 ≤ bp →
      bp + (S.length : Int) < 2 ^ 63 →
      progressValues bp (pieces n fuel S) =
        (List.range ((S.length + n - 1) / n)).map
          fun i => bp + ((min ((i + 1) * n) S.length : Nat) : Int) := by
  intro fuel
  induction fuel with
  | zero =>
    intro S bp hS _ _
    have : S = [] := List.length_eq_zero.mp (by omega)
    subst this
    have h0 : (n - 1) / n = 0 := Nat.div_eq_of_lt (by omega)
    simp [pieces, progressValues, h0]
  | succ fuel ih =>
    intro S bp hS h0 h1
    cases S with
    | nil =>
      have h0 : (n - 1) / n = 0 := Nat.div_eq_of_lt (by omega)
      simp [pieces, progressValues, h0]
    | cons a t =>
      have htake : ((a :: t).take n).length = min n (t.length + 1) := by simp
      have hdrop : ((a :: t).drop n).length = t.length + 1 - n := by simp
      have hpos : 0 < ((a :: t).take n).length := by
        rw [htake]
        omega
      simp only [List.length_cons] at hS h1 ⊢
      have hv : wrap64 (bp + (((a :: t).take n).length : Int)) =
          bp + ((min n (t.length + 1) : Nat) : Int) := by
        rw [htake]
        exact wrap64_of_range _ (by omega) (by omega)
      have hrec := ih ((a :: t).drop n) (bp + ((min n (t.length + 1) : Nat) : Int))
        (by rw [hdrop]; omega) (by omega) (by rw [hdrop]; omega)
      simp only [pieces, progressValues, hpos, if_true, hv, hrec, hdrop]
      by_cases hle : t.length + 1 ≤ n
      · have hc : (t.length + 1 + n - 1) / n = 1 := by
          apply Nat.div_eq_of_lt_le <;> omega
        have hc0 : (t.length + 1 - n + n - 1) / n = 0 := Nat.div_eq_of_lt (by omega)
        have hr1 : List.range 1 = [0] := rfl
        rw [hc, hc0, hr1]
        simp only [List.range_zero, List.map_nil, List.map_cons, zero_add, one_mul]
      · have hc : (t.length + 1 + n - 1) / n = (t.length + 1 - n + n - 1) / n + 1 := by
          have : t.length + 1 + n - 1 = (t.length + 1 - n + n - 1) + n := by omega
          rw [this, Nat.add_div_right _ hn]
        rw [hc, List.range_succ_eq_map, List.map_cons, List.map_map]
        congr 1
        · simp only [zero_add, one_mul]
        · apply List.map_congr_left
          intro i _
          simp only [Function.comp, Nat.succ_eq_add_one]
          have hmul : (i + 1 + 1) * n = (i + 1) * n + n := by ring
          rw [hmul]
          omega

/-- C16 fails for a reader that returns less than the buffer holds: three bytes delivered one
per read, as a pipe does with three one-byte writes, make the loop of `parallelHashLargeFile`
invoke the callback three times, with 1, 2 and 3, where one chunk of 8 MiB would cover the
whole input. -/
theorem parallelHashLargeFile_progress_per_read :
    Delivers pipeRead chunkSize [[1], [2], [3]] [1, 2, 3] ∧
    (parallelHashLargeFile toyHash toyHash pipeRead parallelThreshold (some recordProgress) 4
        [[1], [2], [3]] []).map (fun x => (x.1.err, x.2.cb)) = some (none, [1, 2, 3]) ∧
    (([1, 2, 3] : List Byte).length + 8388608 - 1) / 8388608 = 1 := by
  refine ⟨⟨[[1], [2], [3], []], [], ?_, rfl⟩, rfl, by decide⟩
  exact Reads.more rfl (by decide) (Reads.more rfl (by decide) (Reads.more rfl (by decide)
    (Reads.last rfl (by decide))))

/-- C16, as amended. In the body of `parallelHashLargeFile` with a callback `f` and a buffer
of `b` bytes (`parallelHashLargeFile` itself is the case `b = 8388608`), over a reader whose
reads return the slices `ds` and then end-of-stream (the length of the input being an `int64`
value), the callback is invoked exactly once per read that returned data, with the running
total of the bytes read so far, and not otherwise (its state `w.cb` is the one these
invocations leave); when the reads that return data return the consecutive pieces of `b`
bytes of the input, that is `ceil(L / b)` invocations, invocation `i + 1` carrying
`min((i + 1) * b, L)`. -/
theorem chunked_progress_cadence {σ κ : Type} (B3 S256 : HashAlg) (b : Nat) (rd : Reader σ)
    (s s1 : σ) (ds : List (List Byte)) (fileSize : Int) (f : ProgressCallback κ) (k : κ)
    (hb : 0 < b) (h : Reads rd b s ds Error.EOF s1)
    (hlen : (ds.flatten.length : Int) < 2 ^ 63) :
    ∃ N r w, (r.err = none ∧ w.cb = invokeAll f k (progressValues 0 ds) ∧
        (progressValues 0 ds).length = (nonEmptySlices ds).length ∧
        w.calls.map Sample.bytesProcessed = progressValues 0 ds ∧
        (nonEmptySlices ds = pieces b ds.flatten.length ds.flatten →
          progressValues 0 ds =
            (List.range ((ds.flatten.length + b - 1) / b)).map
              fun i => ((min ((i + 1) * b) ds.flatten.length : Nat) : Int))) ∧
      ∀ fuel, N ≤ fuel →
        parallelHashLargeFileWith B3 S256 b rd (some f) fuel s k = some (r, w) ∧
        (b = 8388608 →
          parallelHashLargeFile B3 S256 rd fileSize (some f) fuel s k = some (r, w)) := by
  obtain ⟨N, w, ⟨_, _, hc⟩, hN⟩ := chunked_progress B3 S256 b rd f k h
  have hv : w.calls.map Sample.bytesProcessed = progressValues 0 ds := by
    rw [hc, chunkSamples_values]
  have hcb := parallelHashLargeFileWith_cb B3 S256 b rd f N s k _ w (hN N (Nat.le_refl _))
  refine ⟨N, _, w, ⟨?_, by rw [hcb, hv], ?_, hv, fun hfull => ?_⟩, fun fuel hfuel =>
    ⟨hN fuel hfuel, fun hb8 => ?_⟩⟩
  · rw [finish_eof]
  · rw [← (progressValues_nonEmptySlices ds 0).2]
  · rw [← (progressValues_nonEmptySlices ds 0).1, hfull,
      progressValues_pieces b hb _ _ 0 (le_refl _) (le_refl _) (by omega)]
    simp
  · subst hb8
    exact hN fuel hfuel

/-! ## The rate limiter -/

theorem countIn_append_singleton (a b t : Int) (hist : List Int) :
    countIn a b (hist ++ [t]) = countIn a b hist + if a ≤ t ∧ t ≤ b then 1 else 0 := by
  unfold countIn
  rw [List.filter_append, List.length_append]
  by_cases h : a ≤ t ∧ t ≤ b
  · simp [List.filter_cons, h]
  · simp [List.filter_cons, h]

theorem countIn_eq_zero (a b : Int) (hist : List Int) (h : ∀ t ∈ hist, t < a) :
    countIn a b hist = 0 := by
  unfold countIn
  rw [List.length_eq_zero, List.filter_eq_nil_iff]
  intro t ht
  have := h t ht
  simp only [decide_eq_true_eq, not_and, not_le]
  intro h1
  omega

/-- For a bound that is a non-negative duration below the maximum, `now.Sub(t)` exceeds the
bound exactly when the difference of the times does. -/
theorem subDuration_gt_iff (t u w : Int) (hw0 : 0 ≤ w) (hw1 : w < 2 ^ 63 - 1) :
    subDuration t u > w ↔ t - u > w := by
  simp only [subDuration, max_def, min_def]
  split_ifs <;> omega

/-- A call that starts a new count (a new bucket, or a bucket whose window has passed) keeps
the invariant: every earlier allowed call is more than a window back. -/
theorem limiterInv_fresh (ip : String) (limit window : Int) (rl rl1 : RateLimiter)
    (hist : List Int) (tcur now : Int) (hlimit : 1 ≤ limit) (hint : limit < 2 ^ 63)
    (hinv : LimiterInv ip limit window rl hist tcur) (hnow : tcur ≤ now)
    (hold : ∀ h ∈ hist, window < now - h)
    (hl : rl1.limit = rl.limit) (hw : rl1.window = rl.window)
    (hb : rl1.buckets ip = some { tokens := wrap64 (rl.limit - 1), lastSeen := now }) :
    LimiterInv ip limit window rl1 (hist ++ [now]) now := by
  obtain ⟨h1, h2, hA, hB, _⟩ := hinv
  have hwrap : wrap64 (rl.limit - 1) = rl.limit - 1 :=
    wrap64_of_range _ (by rw [h1]; omega) (by rw [h1]; omega)
  rw [hwrap] at hb
  have hone : ∀ a b : Int, b - a ≤ window → now ≤ b → countIn a b (hist ++ [now]) ≤ 1 := by
    intro a b hab hb2
    rw [countIn_append_singleton, countIn_eq_zero a b hist (fun t ht => by
      have := hold t ht
      omega)]
    split <;> omega
  have hA1 : ∀ h ∈ hist ++ [now], h ≤ now := by
    intro h hm
    rcases List.mem_append.mp hm with hm | hm
    · have := hA h hm
      omega
    · simp only [List.mem_singleton] at hm
      omega
  refine ⟨by rw [hl, h1], by rw [hw, h2], hA1, ?_, ?_⟩
  · intro a b hab
    by_cases hb2 : now ≤ b
    · have := hone a b hab hb2
      omega
    · rw [countIn_append_singleton]
      have := hB a b hab
      have hno : ¬ (a ≤ now ∧ now ≤ b) := fun h => hb2 h.2
      simp only [hno, if_false, add_zero]
      exact this
  · rw [hb]
    simp only []
    refine ⟨by rw [h1]; omega, le_refl _, hA1, ?_⟩
    intro a b hab hb2
    have := hone a b hab hb2
    rw [h1]
    omega

theorem limiterInv_allow (ip : String) (limit window : Int) (rl : RateLimiter)
    (hist : List Int) (tcur : Int) (i : String) (now : Int) (hlimit : 1 ≤ limit)
    (hint : limit < 2 ^ 63) (hw0 : 0 < window) (hw1 : window < 2 ^ 62)
    (hinv : LimiterInv ip limit window rl hist tcur) (hnow : tcur ≤ now) :
    LimiterInv ip limit window (rl.Allow i now).2
      (if i = ip ∧ (rl.Allow i now).1 = true then hist ++ [now] else hist) now := by
  by_cases hi : i = ip
  · subst hi
    cases hbk : rl.buckets i with
    | none =>
      have hold : ∀ h ∈ hist, window < now - h := by
        intro h hm
        have := hinv.2.2.2.2
        rw [hbk] at this
        have := this h hm
        omega
      have hres : (rl.Allow i now).1 = true := by simp [RateLimiter.Allow, hbk]
      simp only [hres, and_self, if_true]
      exact limiterInv_fresh i limit window rl _ hist tcur now hlimit hint hinv hnow hold
        (by simp [RateLimiter.Allow, hbk]) (by simp [RateLimiter.Allow, hbk])
        (by simp [RateLimiter.Allow, hbk])
    | some bk =>
      obtain ⟨h1, h2, hA, hB, hC⟩ := hinv
      rw [hbk] at hC
      obtain ⟨c1, c2, c3, c4⟩ := hC
      have hsub : subDuration now bk.lastSeen > rl.window ↔ now - bk.lastSeen > rl.window :=
        subDuration_gt_iff _ _ _ (by rw [h2]; omega) (by rw [h2]; omega)
      have htl : bk.tokens ≤ limit := by
        have := c4 bk.lastSeen bk.lastSeen (by omega) (le_refl _)
        omega
      by_cases hreset : subDuration now bk.lastSeen > rl.window
      · have hold : ∀ h ∈ hist, window < now - h := by
          intro h hm
          have := c3 h hm
          have hr := hsub.mp hreset
          rw [h2] at hr
          omega
        have hres : (rl.Allow i now).1 = true := by simp [RateLimiter.Allow, hbk, hreset]
        simp only [hres, and_self, if_true]
        exact limiterInv_fresh i limit window rl _ hist tcur now hlimit hint
          ⟨h1, h2, hA, hB, by rw [hbk]; exact ⟨c1, c2, c3, c4⟩⟩ hnow hold
          (by simp [RateLimiter.Allow, hbk, hreset]) (by simp [RateLimiter.Allow, hbk, hreset])
          (by simp [RateLimiter.Allow, hbk, hreset])
      · by_cases htok : bk.tokens > 0
        · have hres : (rl.Allow i now).1 = true := by
            simp [RateLimiter.Allow, hbk, hreset, htok]
          have hwrap : wrap64 (bk.tokens - 1) = bk.tokens - 1 :=
            wrap64_of_range _ (by omega) (by omega)
          have hbk1 : (rl.Allow i now).2.buckets i =
              some { tokens := bk.tokens - 1, lastSeen := now } := by
            simp [RateLimiter.Allow, hbk, hreset, htok, hwrap]
          have hA1 : ∀ h ∈ hist ++ [now], h ≤ now := by
            intro h hm
            rcases List.mem_append.mp hm with hm | hm
            · have := hA h hm
              omega
            · simp only [List.mem_singleton] at hm
              omega
          have hl1 : (rl.Allow i now).2.limit = rl.limit := by
            simp [RateLimiter.Allow, hbk, hreset, htok]
          have hw1 : (rl.Allow i now).2.window = rl.window := by
            simp [RateLimiter.Allow, hbk, hreset, htok]
          simp only [hres, and_self, if_true]
          refine ⟨by rw [hl1, h1], by rw [hw1, h2], hA1, ?_, ?_⟩
          · intro a b hab
            rw [countIn_append_singleton]
            by_cases hb2 : now ≤ b
            · have := c4 a b hab (by omega)
              split <;> omega
            · have := hB a b hab
              have hno : ¬ (a ≤ now ∧ now ≤ b) := fun h => hb2 h.2
              simp only [hno, if_false, add_zero]
              exact this
          · rw [hbk1]
            refine ⟨by simp only []; omega, le_refl _, hA1, ?_⟩
            intro a b hab hb2
            simp only [] at hb2 ⊢
            rw [countIn_append_singleton]
            have := c4 a b hab (by omega)
            split <;> omega
        · have hres : (rl.Allow i now).1 = false := by
            simp [RateLimiter.Allow, hbk, hreset, htok]
          have hrl : (rl.Allow i now).2 = rl := by
            simp [RateLimiter.Allow, hbk, hreset, htok]
          simp only [hres, hrl]
          refine ⟨h1, h2, fun h hm => by have := hA h hm; omega, hB, ?_⟩
          rw [hbk]
          exact ⟨c1, by omega, c3, c4⟩
  · have hne : ¬ (i = ip ∧ (rl.Allow i now).1 = true) := fun h => hi h.1
    have hsame : (rl.Allow i now).2.buckets ip = rl.buckets ip ∧
        (rl.Allow i now).2.limit = rl.limit ∧ (rl.Allow i now).2.window = rl.window := by
      have hip : ¬ ip = i := fun h => hi h.symm
      unfold RateLimiter.Allow
      cases rl.buckets i with
      | none => simp [hip]
      | some bk =>
        by_cases hreset : subDuration now bk.lastSeen > rl.window
        · simp [hreset, hip]
        · by_cases htok : bk.tokens > 0
          · simp [hreset, htok, hip]
          · simp [hreset, htok]
    obtain ⟨h1, h2, hA, hB, hC⟩ := hinv
    simp only [hne, if_false]
    refine ⟨by rw [hsame.2.1, h1], by rw [hsame.2.2, h2],
      fun h hm => by have := hA h hm; omega, hB, ?_⟩
    rw [hsame.1]
    cases hbk : rl.buckets ip with
    | none =>
      rw [hbk] at hC
      intro h hm
      have := hC h hm
      omega
    | some bk =>
      rw [hbk] at hC
      exact ⟨hC.1, by have := hC.2.1; omega, hC.2.2.1, hC.2.2.2⟩

theorem limiterInv_tick (ip : String) (limit window : Int) (rl : RateLimiter)
    (hist : List Int) (tcur now : Int) (hw0 : 0 < window) (hw1 : window < 2 ^ 62)
    (hinv : LimiterInv ip limit window rl hist tcur) (hnow : tcur ≤ now) :
    LimiterInv ip limit window (rl.cleanup now) hist now := by
  obtain ⟨h1, h2, hA, hB, hC⟩ := hinv
  refine ⟨h1, h2, fun h hm => by have := hA h hm; omega, hB, ?_⟩
  cases hbk : rl.buckets ip with
  | none =>
    rw [hbk] at hC
    have : (rl.cleanup now).buckets ip = none := by simp [RateLimiter.cleanup, hbk]
    rw [this]
    intro h hm
    have := hC h hm
    omega
  | some bk =>
    rw [hbk] at hC
    obtain ⟨c1, c2, c3, c4⟩ := hC
    have hwrap : wrap64 (rl.window * 2) = rl.window * 2 :=
      wrap64_of_range _ (by rw [h2]; omega) (by rw [h2]; omega)
    have hsub : subDuration now bk.lastSeen > rl.window * 2 ↔
        now - bk.lastSeen > rl.window * 2 :=
      subDuration_gt_iff _ _ _ (by rw [h2]; omega) (by rw [h2]; omega)
    rw [← hwrap] at hsub
    by_cases hstale : subDuration now bk.lastSeen > wrap64 (rl.window * 2)
    · have : (rl.cleanup now).buckets ip = none := by simp [RateLimiter.cleanup, hbk, hstale]
      rw [this]
      intro h hm
      have := c3 h hm
      have := hA h hm
      have hr := hsub.mp hstale
      rw [hwrap, h2] at hr
      omega
    · have : (rl.cleanup now).buckets ip = some bk := by
        simp [RateLimiter.cleanup, hbk, hstale]
      rw [this]
      exact ⟨c1, by omega, c3, c4⟩

/-- From any limiter that satisfies the invariant, whatever events follow at non-decreasing
times, the allowed calls of `ip`, earlier and later ones together, number at most `limit` in
any interval no longer than the window. -/
theorem limiter_bound (ip : String) (limit window : Int) (hlimit : 1 ≤ limit)
    (hint : limit < 2 ^ 63) (hw0 : 0 < window) (hw1 : window < 2 ^ 62) :
    ∀ (evs : List LimiterEvent) (rl : RateLimiter) (hist : List Int) (tcur : Int),
      LimiterInv ip limit window rl hist tcur → TimesFrom tcur evs →
      ∀ a b : Int, b - a ≤ window →
        (countIn a b (hist ++ allowedTimes ip rl evs) : Int) ≤ limit := by
  intro evs
  induction evs with
  | nil =>
    intro rl hist tcur hinv _ a b hab
    simpa [allowedTimes] using hinv.2.2.2.1 a b hab
  | cons ev evs ih =>
    intro rl hist tcur hinv htimes a b hab
    obtain ⟨ht, hrest⟩ := htimes
    cases ev with
    | allow i now =>
      have hstep := limiterInv_allow ip limit window rl hist tcur i now hlimit hint hw0 hw1
        hinv ht
      have := ih _ _ now hstep hrest a b hab
      by_cases hc : i = ip ∧ (rl.Allow i now).1 = true
      · rw [if_pos hc, List.append_assoc, List.singleton_append] at this
        rw [allowedTimes, if_pos hc]
        exact this
      · rw [if_neg hc] at this
        rw [allowedTimes, if_neg hc]
        exact this
    | tick now =>
      have hstep := limiterInv_tick ip limit window rl hist tcur now hw0 hw1 hinv ht
      simpa [allowedTimes] using ih _ _ now hstep hrest a b hab

/-- C18 fails at limit 0: the first call of `Allow` for an IP creates its bucket and returns
true whatever the limit is, so with limit 0 one call is allowed at time 0, one more than the
limit; `SetRateLimit(0)` installs no limiter. -/
theorem rateLimiter_limit_zero_allows :
    (NewRateLimiter 0 hour).isSome = true ∧
    (NewRateLimiter 0 hour).map (fun rl => (rl.Allow "10.0.0.1" 0).1) = some true ∧
    (NewRateLimiter 0 hour).map (fun rl => countIn 0 0 (allowedTimes "10.0.0.1" rl
      [LimiterEvent.allow "10.0.0.1" 0])) = some 1 ∧
    ((SetRateLimit none 0).map Option.isNone) = some true := by
  refine ⟨rfl, rfl, by decide, rfl⟩

/-- `NewRateLimiter` panics for a window that is not positive. -/
theorem newRateLimiter_panics (limit window : Int) (h : window ≤ 0) :
    NewRateLimiter limit window = none := by
  simp [NewRateLimiter, h]

/-- From a window of 2^62 nanoseconds on, `rl.window*2` wraps to a negative duration and every
pass of `cleanup` removes every bucket: with limit 1, a call at time 0, a pass at time 1 and a
call at time 2 give two allowed calls within 2 nanoseconds. -/
theorem rateLimiter_window_wraps :
    (NewRateLimiter 1 (2 ^ 62)).map (fun rl => allowedTimes "10.0.0.1" rl
      [LimiterEvent.allow "10.0.0.1" 0, LimiterEvent.tick 1, LimiterEvent.allow "10.0.0.1" 2]) =
      some [0, 2] ∧
    wrap64 (2 ^ 62 * 2) = -(2 ^ 63) := by
  refine ⟨by decide, by decide⟩

/-- C18, as amended. For every limit of at least 1 (the only limits for which `SetRateLimit`
installs a limiter) that is an `int`, every window that is positive (`NewRateLimiter` panics
otherwise) and below 2^62 nanoseconds (beyond which `rl.window*2` wraps in `cleanup`), every
IP and every sequence of `Allow` calls, for this and other IPs, and cleanup passes at
non-decreasing times, `NewRateLimiter` returns a limiter, and the number of calls for the IP
that return true within any time interval of length at most `window` is at most `limit`. -/
theorem rateLimiter_bound (limit window : Int) (ip : String) (evs : List LimiterEvent)
    (t0 a b : Int) (hlimit : 1 ≤ limit) (hint : limit < 2 ^ 63) (hw0 : 0 < window)
    (hw1 : window < 2 ^ 62) (htimes : TimesFrom t0 evs) (hab : b - a ≤ window) :
    ∃ rl, NewRateLimiter limit window = some rl ∧
      (countIn a b (allowedTimes ip rl evs) : Int) ≤ limit := by
  have hnew : NewRateLimiter limit window =
      some { buckets := fun _ => none, limit := limit, window := window } := by
    simp [NewRateLimiter, hw0]
  refine ⟨_, hnew, ?_⟩
  have hinit : LimiterInv ip limit window
      { buckets := fun _ => none, limit := limit, window := window } [] t0 := by
    refine ⟨rfl, rfl, fun h hm => absurd hm (List.not_mem_nil h), fun a b _ => ?_, ?_⟩
    · simp only [countIn, List.filter_nil, List.length_nil, Nat.cast_zero]
      omega
    · exact fun h hm => absurd hm (List.not_mem_nil h)
  have hmain := limiter_bound ip limit window hlimit hint hw0 hw1 evs _ [] t0 hinit htimes a b
    hab
  rw [List.nil_append] at hmain
  exact hmain

/-- C19 fails on the code. For a professor whose assigned courses are `Math101`,
`CanUploadToCourse` returns true for the course `X`, which does not occur in `Math101`:
`contains` compares the lengths of the two strings and never looks for the course name, so
any non-empty course name shorter than the assigned-courses string passes. -/
theorem canUploadToCourse_unassigned_course :
    User.CanUploadToCourse ⟨7, "prof@example.edu", RoleProfessor, "Math101", false⟩ "X" = true ∧
    ¬ Occurs "X" "Math101" ∧
    contains "Math101" "X" = true := by
  refine ⟨by decide, by unfold Occurs; decide, by decide⟩

/-! ## JWT -/

theorem splitChars_of_not_mem (sep : Char) (a : List Char) (h : sep ∉ a) :
    splitChars sep a = [a] := by
  induction a with
  | nil => rfl
  | cons c cs ih =>
    have hc : c ≠ sep := fun hc => h (by simp [hc])
    have hcs : sep ∉ cs := fun hm => h (List.mem_cons_of_mem _ hm)
    simp [splitChars, hc, ih hcs]

theorem splitChars_append (sep : Char) (a rest : List Char) (h : sep ∉ a) :
    splitChars sep (a ++ sep :: rest) = a :: splitChars sep rest := by
  induction a with
  | nil => simp [splitChars]
  | cons c cs ih =>
    have hc : c ≠ sep := fun hc => h (by simp [hc])
    have hcs : sep ∉ cs := fun hm => h (List.mem_cons_of_mem _ hm)
    simp [splitChars, hc, ih hcs]

theorem stringsSplit_three (a b c : String) (ha : '.' ∉ a.data) (hb : '.' ∉ b.data)
    (hc : '.' ∉ c.data) : stringsSplit (a ++ "." ++ b ++ "." ++ c) '.' = [a, b, c] := by
  have hd : (a ++ "." ++ b ++ "." ++ c).data = a.data ++ '.' :: (b.data ++ '.' :: c.data) := by
    simp [String.data_append]
  unfold stringsSplit
  rw [hd, splitChars_append _ _ _ ha, splitChars_append _ _ _ hb, splitChars_of_not_mem _ _ hc]
  rfl

theorem unixSeconds_mono (a b : Int) (h : a ≤ b) : unixSeconds a ≤ unixSeconds b :=
  Int.ediv_le_ediv (by decide) h

/-- What `decoderune` gives on a first byte that is not ASCII: a rune that is not ASCII, taken
from bytes none of which is ASCII. -/
theorem decoderune_props (b : Byte) (rest : List Byte) (hb : ¬ b.toNat < 0x80) :
    0x80 ≤ (decoderune (b :: rest)).1 ∧ 1 ≤ (decoderune (b :: rest)).2 ∧
      ∀ x ∈ (b :: rest).take (decoderune (b :: rest)).2, 0x80 ≤ x.toNat := by
  have hb2 : 0x80 ≤ b.toNat := Nat.le_of_not_lt hb
  suffices h : ∀ p, decoderune (b :: rest) = p →
      (0x80 ≤ p.1 ∧ 1 ≤ p.2 ∧ ∀ x ∈ (b :: rest).take p.2, 0x80 ≤ x.toNat) from h _ rfl
  have herr : ∀ p : Nat × Nat, (runeError, 1) = p →
      (0x80 ≤ p.1 ∧ 1 ≤ p.2 ∧ ∀ x ∈ (b :: rest).take p.2, 0x80 ≤ x.toNat) := by
    intro p hp
    subst hp
    refine ⟨by decide, Nat.le_refl _, ?_⟩
    intro x hx
    simp at hx
    rw [hx]
    exact hb2
  intro p hp
  unfold decoderune at hp
  simp only [] at hp
  split_ifs at hp with h2 h3 h4
  · match rest, hp with
    | [], hp => exact herr p hp
    | s1 :: t, hp =>
      simp only [] at hp
      split_ifs at hp with hc hr
      · subst hp
        refine ⟨by simp only []; omega, by simp only []; omega, ?_⟩
        intro x hx
        simp [isCont] at hc hx
        rcases hx with hx | hx <;> rw [hx] <;> omega
      · exact herr p hp
      · exact herr p hp
  · match rest, hp with
    | [], hp => exact herr p hp
    | [_], hp => exact herr p hp
    | s1 :: s2 :: t, hp =>
      simp only [] at hp
      split_ifs at hp with hc hr
      · subst hp
        refine ⟨by simp only []; omega, by simp only []; omega, ?_⟩
        intro x hx
        simp [isCont] at hc hx
        rcases hx with hx | hx | hx <;> rw [hx] <;> omega
      · exact herr p hp
      · exact herr p hp
  · match rest, hp with
    | [], hp => exact herr p hp
    | [_], hp => exact herr p hp
    | [_, _], hp => exact herr p hp
    | s1 :: s2 :: s3 :: t, hp =>
      simp only [] at hp
      split_ifs at hp with hc hr
      · subst hp
        refine ⟨by simp only []; omega, by simp only []; omega, ?_⟩
        intro x hx
        simp [isCont] at hc hx
        rcases hx with hx | hx | hx | hx <;> rw [hx] <;> omega
      · exact herr p hp
      · exact herr p hp
  · exact herr p hp

/-- A string that `utf8.ValidString` accepts comes back from `encoding/json` as it was. -/
theorem jsonCoerceLoop_of_valid : ∀ (fuel : Nat) (s : List Byte), s.length ≤ fuel →
    validLoop fuel s = true → jsonCoerceLoop fuel s = s := by
  intro fuel
  induction fuel using Nat.strong_induction_on with
  | _ fuel ih =>
    intro s hlen hval
    match fuel, s, hlen, hval with
    | 0, [], _, _ => rfl
    | fuel + 1, [], _, _ => rfl
    | fuel + 1, b :: rest, hlen, hval =>
      have hrest : rest.length ≤ fuel := by simpa using hlen
      by_cases hb : b.toNat < 0x80
      · simp only [validLoop, hb, if_true] at hval
        simp only [jsonCoerceLoop, hb, if_true]
        rw [ih fuel (Nat.lt_succ_self _) rest hrest hval]
      · obtain ⟨-, h2, -⟩ := decoderune_props b rest hb
        by_cases hinv : (decoderune (b :: rest)).1 = runeError ∧ (decoderune (b :: rest)).2 = 1
        · simp [validLoop, hb, hinv] at hval
        · have hdrop : ((b :: rest).drop (decoderune (b :: rest)).2).length ≤ fuel := by
            rw [List.length_drop]
            simp only [List.length_cons]
            omega
          simp only [validLoop, hb, if_false, hinv] at hval
          simp only [jsonCoerceLoop, hb, if_false, hinv]
          rw [ih fuel (Nat.lt_succ_self _) _ hdrop hval, List.take_append_drop]

theorem jsonCoerce_of_valid (s : List Byte) (h : utf8ValidString s = true) : jsonCoerce s = s :=
  jsonCoerceLoop_of_valid s.length s (Nat.le_refl _) h

/-- What `ValidateToken`, called no later than the expiry time, returns for the token that
`GenerateToken` returned: the claims that went into the token, with `Email` and `Role`
coerced to valid UTF-8. -/
theorem validate_generated (L : JWTLib) (j : JWTManager) (now later userID : Int)
    (email role : List Byte) (isAdmin : Bool)
    (hbefore : later ≤ (j.GenerateToken L now userID email role isAdmin).2) :
    j.ValidateToken L later (j.GenerateToken L now userID email role isAdmin).1 =
      Except.ok ⟨userID, jsonCoerce email, jsonCoerce role, isAdmin,
        unixSeconds (now + j.accessExpiration), unixSeconds now⟩ := by
  have hexp : ¬ unixSeconds later > unixSeconds (now + j.accessExpiration) :=
    not_lt.mpr (unixSeconds_mono _ _ hbefore)
  simp only [JWTManager.GenerateToken, JWTManager.ValidateToken]
  rw [stringsSplit_three _ _ (JWTManager.sign L j _) (L.base64_alphabet _)
    (L.base64_alphabet _) (L.base64_alphabet _)]
  simp [L.base64_roundtrip, L.json_roundtrip, hexp, coerceClaims]

/-- C20 fails for strings that are not valid UTF-8: whatever base64 and JSON library with the
documented behaviour is used, the token that `GenerateToken` returns for the email made of
the single byte `FF` is accepted by `ValidateToken`, and the claims it returns have the email
`EF BF BD` (U+FFFD), not `FF`: `json.Marshal` replaces invalid bytes with the replacement
rune. -/
theorem jwt_round_trip_invalid_utf8 :
    (∀ L : JWTLib, ∃ claims,
      JWTManager.ValidateToken L ⟨[1, 2, 3], 24 * hour, 168 * hour⟩ 5
        (JWTManager.GenerateToken L ⟨[1, 2, 3], 24 * hour, 168 * hour⟩ 0 7 [0xFF]
          (goString "student") false).1 = Except.ok claims ∧
      claims.Email = [0xEF, 0xBF, 0xBD]) ∧
    ([0xEF, 0xBF, 0xBD] : List Byte) ≠ [0xFF] ∧ utf8ValidString [0xFF] = false := by
  refine ⟨fun L => ⟨_, validate_generated L ⟨[1, 2, 3], 24 * hour, 168 * hour⟩ 0 5 7 [0xFF]
    (goString "student") false (show (5 : Int) ≤ 0 + 24 * hour by decide), by decide⟩,
    by decide, by decide⟩

/-- C20, as amended. JWT round trip: for every manager, every `userID` and `isAdmin`, and every
`email` and `role` that are valid UTF-8, `ValidateToken`, called no later than the expiry time
that `GenerateToken` returned, accepts the token that `GenerateToken` returned and gives
claims with the same `UserID`, `Email`, `Role` and `IsAdmin` and with `ExpiresAt` equal to the
expiry time in Unix seconds. -/
theorem jwt_round_trip (L : JWTLib) (j : JWTManager) (now later userID : Int)
    (email role : List Byte) (isAdmin : Bool) (hemail : utf8ValidString email = true)
    (hrole : utf8ValidString role = true)
    (hbefore : later ≤ (j.GenerateToken L now userID email role isAdmin).2) :
    ∃ claims,
      j.ValidateToken L later (j.GenerateToken L now userID email role isAdmin).1 =
        Except.ok claims ∧
      claims.UserID = userID ∧ claims.Email = email ∧ claims.Role = role ∧
      claims.IsAdmin = isAdmin ∧
      claims.ExpiresAt = unixSeconds (j.GenerateToken L now userID email role isAdmin).2 :=
  ⟨_, validate_generated L j now later userID email role isAdmin hbefore, rfl,
    jsonCoerce_of_valid email hemail, jsonCoerce_of_valid role hrole, rfl, rfl⟩

/-! ## A stand-in for the encoding libraries

An instance of `JWTLib` made of simple codes, for evaluating the JWT definitions: a byte is
written in unary, and claims are written as the digits, in base 256, of a number that encodes
them. -/

theorem unaryDecode_replicate (n acc : Nat) (rest : List Char) :
    unaryDecode acc (List.replicate n 'a' ++ 'b' :: rest) =
      (unaryDecode 0 rest).map fun vs => UInt8.ofNat (acc + n) :: vs := by
  induction n generalizing acc with
  | zero => simp [unaryDecode]
  | succ n ih =>
    have h := ih (acc + 1)
    have hadd : acc + 1 + n = acc + (n + 1) := by omega
    rw [hadd] at h
    simpa [List.replicate_succ, unaryDecode] using h

theorem unaryDecode_encode (b : List Byte) : unaryDecode 0 (unaryEncode b).data = some b := by
  induction b with
  | nil => rfl
  | cons v t ih =>
    have hv : UInt8.ofNat v.toNat = v := by
      apply UInt8.ext
      exact UInt8.toNat_ofNat_of_lt v.toNat_lt
    have ht : unaryDecode 0 (t.flatMap fun v => List.replicate v.toNat 'a' ++ ['b']) = some t := ih
    show unaryDecode 0 ((v :: t).flatMap fun v => List.replicate v.toNat 'a' ++ ['b']) = _
    rw [List.flatMap_cons, List.append_assoc, List.singleton_append, unaryDecode_replicate, ht]
    simp [hv]

theorem unaryEncode_no_dot (b : List Byte) : '.' ∉ (unaryEncode b).data := by
  intro h
  have h2 : '.' ∈ b.flatMap fun v => List.replicate v.toNat 'a' ++ ['b'] := h
  rw [List.mem_flatMap] at h2
  obtain ⟨v, _, hv⟩ := h2
  rcases List.mem_append.mp hv with hm | hm
  · exact absurd (List.eq_of_mem_replicate hm) (by decide)
  · exact absurd (List.mem_singleton.mp hm) (by decide)

theorem toyUnmarshal_marshal (c : JWTClaims) :
    toyUnmarshal (toyMarshal c) = some (coerceClaims c) := by
  unfold toyUnmarshal toyMarshal
  generalize coerceClaims c = c1
  have hdig : ((Nat.digits 256 (Encodable.encode (claimsTuple c1))).map UInt8.ofNat).map
      UInt8.toNat = Nat.digits 256 (Encodable.encode (claimsTuple c1)) := by
    rw [List.map_map]
    conv_rhs => rw [← List.map_id (Nat.digits 256 (Encodable.encode (claimsTuple c1)))]
    apply List.map_congr_left
    intro d hd
    have hlt : d < 256 := Nat.digits_lt_base (by decide) hd
    show (UInt8.ofNat d).toNat = d
    simp [UInt8.toNat, UInt8.ofNat, Fin.ofNat, Nat.mod_eq_of_lt hlt]
  rw [hdig, Nat.ofDigits_digits, Encodable.encodek]
  simp only [Option.map_some']
  congr 1
  cases c1 with
  | mk uid email role adm exp iat =>
    simp only [claimsTuple, tupleClaims, List.map_map]
    have hbytes : ∀ l : List Byte, l.map (UInt8.ofNat ∘ UInt8.toNat) = l := by
      intro l
      conv_rhs => rw [← List.map_id l]
      apply List.map_congr_left
      intro v _
      apply UInt8.ext
      exact UInt8.toNat_ofNat_of_lt v.toNat_lt
    simp [hbytes]

/-! ## The goroutine of `saveAndHash` -/

theorem tasksInv_step {σ ω : Type} (B3 S256 : HashAlg) (src : Reader σ) (dest : Writer ω) (s : σ)
    (d : ω) (st st1 : Tasks) (hinv : TasksInv src dest s d st)
    (hstep : TaskStep B3 S256 src dest s d st st1) : TasksInv src dest s d st1 := by
  cases hstep with
  | copyReturns written copyErr slices hm hout =>
    simp only [TasksInv, hm] at hinv
    simp only [TasksInv]
    exact ⟨hinv.1, hinv.2, hout⟩
  | close written copyErr slices hm =>
    simp only [TasksInv, hm] at hinv
    simp only [TasksInv]
    refine ⟨?_, slices, hinv.2.2⟩
    rw [hinv.1]
    exact fun h => HasherPc.noConfusion h
  | copyFailed written e hm =>
    simp only [TasksInv, hm] at hinv
    simp only [TasksInv]
    exact ⟨hinv.1, written, hinv.2⟩
  | copyOk written hm =>
    simp only [TasksInv, hm] at hinv
    simp only [TasksInv]
    exact hinv
  | hashReturns slices fuel result v hh hc hrun =>
    have hne : HasherPc.sending result ≠ HasherPc.finished := fun h => HasherPc.noConfusion h
    unfold TasksInv at hinv ⊢
    cases hm : st.main with
    | copying =>
      rw [hm] at hinv
      rw [hinv.2] at hc
      cases hc
    | closing written copyErr sl =>
      rw [hm] at hinv
      rw [hinv.2.1] at hc
      cases hc
    | checking written copyErr =>
      rw [hm] at hinv
      simp only [hm]
      exact ⟨hne, hinv.2⟩
    | receiving written =>
      rw [hm] at hinv
      simp only [hm]
      exact ⟨hne, hinv.2⟩
    | returnedCopyErr e =>
      rw [hm] at hinv
      simp only [hm]
      exact ⟨hne, hinv.2⟩
    | returnedHashErr e =>
      rw [hm] at hinv
      simp only [hm]
      exact hinv
    | returnedOk a b c =>
      rw [hm] at hinv
      simp only [hm]
      exact hinv
  | handOver written result hm hh =>
    simp only [TasksInv, hm] at hinv
    unfold TasksInv
    cases result.err with
    | none => exact ⟨written, hinv.2⟩
    | some e => exact ⟨written, hinv.2⟩

theorem tasksInv_reachable {σ ω : Type} (B3 S256 : HashAlg) (src : Reader σ) (dest : Writer ω)
    (s : σ) (d : ω) (st : Tasks) (h : Reachable B3 S256 src dest s d st) :
    TasksInv src dest s d st := by
  induction h with
  | refl => exact ⟨rfl, rfl⟩
  | tail _ hstep ih => exact tasksInv_step B3 S256 src dest s d _ _ ih hstep

/-- When the copy cannot end without an error, the goroutine never finishes: it can only
finish by handing its result over, and the body never gets to the receive. -/
theorem hasher_never_finishes {σ ω : Type} (B3 S256 : HashAlg) (src : Reader σ) (dest : Writer ω)
    (s : σ) (d : ω) (hfail : ∀ written slices, ¬ CopyOutcome src dest s d written none slices)
    (st : Tasks) (h : Reachable B3 S256 src dest s d st) : st.hasher ≠ HasherPc.finished := by
  have hinv := tasksInv_reachable B3 S256 src dest s d st h
  intro hfin
  unfold TasksInv at hinv
  cases hm : st.main with
  | copying =>
    rw [hm] at hinv
    rw [hinv.1] at hfin
    cases hfin
  | closing written copyErr sl =>
    rw [hm] at hinv
    rw [hinv.1] at hfin
    cases hfin
  | checking written copyErr =>
    rw [hm] at hinv
    exact hinv.1 hfin
  | receiving written =>
    rw [hm] at hinv
    exact hinv.1 hfin
  | returnedCopyErr e =>
    rw [hm] at hinv
    exact hinv.1 hfin
  | returnedHashErr e =>
    rw [hm] at hinv
    obtain ⟨written, slices, hout⟩ := hinv
    exact hfail written slices hout
  | returnedOk a b c =>
    rw [hm] at hinv
    obtain ⟨written, slices, hout⟩ := hinv
    exact hfail written slices hout

/-- C17 fails on the code. With a source over the bytes 1, 2, 3 and a sink that fails once it
has taken two bytes, `saveAndHash` does return the error of the sink, but in no reachable state
has the hashing goroutine finished; and there is a reachable state in which `saveAndHash` has
returned and the goroutine stands at `hashResult <- ...` with its result, from which no task
can move: nothing will ever receive from the unbuffered channel, so the goroutine stays
blocked in its send. -/
theorem saveAndHash_goroutine_never_finishes :
    (∀ st, Reachable toyHash toyHash sliceRead (fullWrite (Error.other 28)) [1, 2, 3] 2 st →
      st.hasher ≠ HasherPc.finished) ∧
    ∃ st result,
      Reachable toyHash toyHash sliceRead (fullWrite (Error.other 28)) [1, 2, 3] 2 st ∧
      st.main = MainPc.returnedCopyErr (Error.other 28) ∧
      st.hasher = HasherPc.sending result ∧
      ∀ st1, ¬ TaskStep toyHash toyHash sliceRead (fullWrite (Error.other 28)) [1, 2, 3] 2
        st st1 := by
  constructor
  · apply hasher_never_finishes
    rintro written slices ⟨fuel, w, hrun, _⟩
    cases fuel with
    | zero => cases hrun
    | succ f =>
      have hval : ioCopy (srcRead sliceRead)
          (multiWriterWrite [destWrite (fullWrite (Error.other 28)), pwWrite]) (f + 1)
          ({ src := [1, 2, 3], dest := 2, pipe := [], trace := [] } : PipeEnv (List Byte) Nat) 0 =
          some ((2, some (Error.other 28)),
            { src := [], dest := 0, pipe := [], trace :=
                [Event.srcRead ⟨[1, 2, 3], none⟩,
                  Event.destWrite [1, 2, 3] ⟨2, some (Error.other 28)⟩] }) := rfl
      rw [hval] at hrun
      simp only [Option.some.injEq, Prod.mk.injEq] at hrun
      exact absurd hrun.1.2 (by decide)
  · refine ⟨⟨MainPc.returnedCopyErr (Error.other 28),
      HasherPc.sending ⟨hexEncodeToString (toyHash.sum []), hexEncodeToString (toyHash.sum []),
        none⟩, some []⟩, _, ?_, rfl, rfl, ?_⟩
    · refine Relation.ReflTransGen.tail (Relation.ReflTransGen.tail (Relation.ReflTransGen.tail
        (Relation.ReflTransGen.tail Relation.ReflTransGen.refl
          (TaskStep.copyReturns _ 2 (some (Error.other 28)) [] rfl ⟨1, _, rfl, rfl⟩))
        (TaskStep.close _ 2 (some (Error.other 28)) [] rfl))
        (TaskStep.copyFailed _ 2 (Error.other 28) rfl))
        (TaskStep.hashReturns _ [] 1 _ _ rfl rfl rfl)
    · intro st1 hstep
      cases hstep <;> simp_all

/-- When the body of `saveAndHash` in the two-task model has returned the copy error, the
function `saveAndHash` returns that result. -/
theorem returnedCopyErr_saveAndHash {σ ω : Type} (B3 S256 : HashAlg) (src : Reader σ)
    (dest : Writer ω) (s : σ) (d : ω) (st : Tasks) (e : Error)
    (h : Reachable B3 S256 src dest s d st) (hm : st.main = MainPc.returnedCopyErr e) :
    ∃ fuel w, saveAndHash B3 S256 src dest fuel s d = some (⟨"", "", 0, some e⟩, w) := by
  have hinv := tasksInv_reachable B3 S256 src dest s d st h
  simp only [TasksInv, hm] at hinv
  obtain ⟨_, written, slices, fuel, w, hrun, _⟩ := hinv
  exact ⟨fuel, w, by simp [saveAndHash, hrun]⟩

/-! ## The later claims at concrete inputs -/

/-- C11 on the bytes 1, 2, 3 held in memory. -/
theorem digest_encoding_witness :
    ∃ r w, DualHashWithProgress toyHash toyHash sliceRead (some recordProgress) 2 [1, 2, 3] [] =
        some (r, w) ∧ r.err = none ∧ IsHex64 r.blake3Hash ∧ IsHex64 r.sha256Hash :=
  ⟨_, _, rfl, rfl,
    (digest_encoding toyHash toyHash sliceRead 0 (some recordProgress) 2 [1, 2, 3] []).2.1
      _ _ rfl rfl⟩

/-- C12 on the empty byte sequence held in memory and a sink that keeps what it is given. -/
theorem empty_input_digests_witness :
    Delivers sliceRead copyBufSize [] [] ∧ Accepts bufferWrite ∧
    ∃ N w v, ∀ fuel, N ≤ fuel →
      DualHash blake3 sha256 sliceRead fuel [] =
        some (⟨"af1349b9f5f9a1a6a0404dea36dcc9499bcb25c9adc112b7cc9a93cae41f3262",
          "e3b0c44298fc1c149afbf4c8996fb92427ae41e4649b934ca495991b7852b855", none⟩, w) ∧
      saveAndHash blake3 sha256 sliceRead bufferWrite fuel [] [] =
        some (⟨"af1349b9f5f9a1a6a0404dea36dcc9499bcb25c9adc112b7cc9a93cae41f3262",
          "e3b0c44298fc1c149afbf4c8996fb92427ae41e4649b934ca495991b7852b855", 0, none⟩, v) :=
  ⟨sliceRead_delivers copyBufSize (by decide) 0 [] (by decide), bufferWrite_accepts,
    empty_input_digests sliceRead [] sliceRead [] bufferWrite []
      (sliceRead_delivers copyBufSize (by decide) 0 [] (by decide))
      (sliceRead_delivers copyBufSize (by decide) 0 [] (by decide)) bufferWrite_accepts⟩

/-- C13 at the hints 0 and 200000000. -/
theorem parallelDualHash_strategy_witness :
    ParallelDualHash toyHash toyHash sliceRead 0 (some recordProgress) 2 [1, 2, 3] [] =
      DualHashWithProgress toyHash toyHash sliceRead (some recordProgress) 2 [1, 2, 3] [] ∧
    (ParallelDualHash toyHash toyHash sliceRead 200000000 (some recordProgress) 2 [1, 2, 3] [] =
        parallelHashLargeFile toyHash toyHash sliceRead 200000000 (some recordProgress) 2
          [1, 2, 3] [] ∧
      parallelHashLargeFile toyHash toyHash sliceRead 200000000 (some recordProgress) 2
          [1, 2, 3] [] =
        parallelHashLargeFileWith toyHash toyHash 8388608 sliceRead (some recordProgress) 2
          [1, 2, 3] []) :=
  ⟨(parallelDualHash_strategy toyHash toyHash sliceRead 0 (some recordProgress) 2
      [1, 2, 3] []).1 (by decide),
    (parallelDualHash_strategy toyHash toyHash sliceRead 200000000 (some recordProgress) 2
      [1, 2, 3] []).2.1 (by decide)⟩

/-- C14 on the bytes 1, 2, 3 handed out one per read, with a callback that records the
values it is given: after either call the callback holds 1, 2, 3. -/
theorem progress_monotone_terminal_witness :
    ([1, 2, 3] : List Byte) ≠ [] ∧ ((([1, 2, 3] : List Byte).length : Int) < 2 ^ 63) ∧
    Delivers pipeRead copyBufSize [[1], [2], [3]] [1, 2, 3] ∧
    Delivers pipeRead chunkSize [[1], [2], [3]] [1, 2, 3] ∧
    (∃ N r w vs, (r.err = none ∧ w.cb = [1, 2, 3] ∧ vs = [1, 2, 3] ∧
        List.Pairwise (fun a b => a ≤ b) vs ∧
        vs.getLast? = some (([1, 2, 3] : List Byte).length : Int) ∧
        w.calls.map Sample.bytesProcessed = vs) ∧
      ∀ fuel, N ≤ fuel →
        DualHashWithProgress toyHash toyHash pipeRead (some recordProgress) fuel
          [[1], [2], [3]] [] = some (r, w)) ∧
    (∃ N r w vs, (r.err = none ∧ w.cb = [1, 2, 3] ∧ vs = [1, 2, 3] ∧
        List.Pairwise (fun a b => a ≤ b) vs ∧
        vs.getLast? = some (([1, 2, 3] : List Byte).length : Int) ∧
        w.calls.map Sample.bytesProcessed = vs) ∧
      ∀ fuel, N ≤ fuel →
        parallelHashLargeFile toyHash toyHash pipeRead parallelThreshold (some recordProgress)
          fuel [[1], [2], [3]] [] = some (r, w)) := by
  have hc : Delivers pipeRead copyBufSize [[1], [2], [3]] [1, 2, 3] :=
    ⟨[[1], [2], [3], []], [], Reads.more rfl (by decide) (Reads.more rfl (by decide)
      (Reads.more rfl (by decide) (Reads.last rfl (by decide)))), rfl⟩
  have hk : Delivers pipeRead chunkSize [[1], [2], [3]] [1, 2, 3] :=
    ⟨[[1], [2], [3], []], [], Reads.more rfl (by decide) (Reads.more rfl (by decide)
      (Reads.more rfl (by decide) (Reads.last rfl (by decide)))), rfl⟩
  obtain ⟨N1, r1, w1, vs1, ⟨a1, a2, a3, a4, a5, a6⟩, hN1⟩ :=
    (progress_monotone_terminal toyHash toyHash pipeRead [[1], [2], [3]] [1, 2, 3]
      parallelThreshold recordProgress [] (by decide) (by decide)).1 hc
  obtain ⟨N2, r2, w2, vs2, ⟨b1, b2, b3, b4, b5, b6⟩, hN2⟩ :=
    (progress_monotone_terminal toyHash toyHash pipeRead [[1], [2], [3]] [1, 2, 3]
      parallelThreshold recordProgress [] (by decide) (by decide)).2 hk
  have e1 : (DualHashWithProgress toyHash toyHash pipeRead (some recordProgress) (N1 + 4)
      [[1], [2], [3]] []).map (fun x => (x.2.cb, x.2.calls.map Sample.bytesProcessed)) =
      some ([1, 2, 3], [1, 2, 3]) := rfl
  have e2 : (parallelHashLargeFile toyHash toyHash pipeRead parallelThreshold
      (some recordProgress) (N2 + 4) [[1], [2], [3]] []).map
      (fun x => (x.2.cb, x.2.calls.map Sample.bytesProcessed)) =
      some ([1, 2, 3], [1, 2, 3]) := rfl
  rw [hN1 (N1 + 4) (Nat.le_add_right _ _)] at e1
  rw [hN2 (N2 + 4) (Nat.le_add_right _ _)] at e2
  simp only [Option.map_some', Option.some.injEq, Prod.mk.injEq] at e1 e2
  exact ⟨by decide, by decide, hc, hk,
    ⟨N1, r1, w1, vs1, ⟨a1, e1.1, by rw [← a6, e1.2], a4, a5, a6⟩, hN1⟩,
    ⟨N2, r2, w2, vs2, ⟨b1, e2.1, by rw [← b6, e2.2], b4, b5, b6⟩, hN2⟩⟩

/-- C16 as amended. With the buffer of 8 MiB and the bytes 1, 2, 3 handed out one per read,
the callback of `parallelHashLargeFile` (which records the values it is given) ends up holding
1, 2, 3, one value per read. With a buffer of 2 bytes and the bytes 1, 2, 3, 4, 5 held in
memory, which the reads return in the pieces `1, 2`, `3, 4` and `5`, it ends up holding
2, 4, 5: `ceil(5 / 2) = 3` values, `min(2, 5)`, `min(4, 5)`, `min(6, 5)`. -/
theorem chunked_progress_cadence_witness :
    (0 < 8388608) ∧
    Reads pipeRead 8388608 [[1], [2], [3]] [[1], [2], [3], []] Error.EOF [] ∧
    ((([[1], [2], [3], []] : List (List Byte)).flatten.length : Int) < 2 ^ 63) ∧
    (∃ N r w, (r.err = none ∧ w.cb = [1, 2, 3] ∧
        w.calls.map Sample.bytesProcessed = [1, 2, 3]) ∧
      ∀ fuel, N ≤ fuel →
        parallelHashLargeFile toyHash toyHash pipeRead parallelThreshold (some recordProgress)
          fuel [[1], [2], [3]] [] = some (r, w)) ∧
    (0 < 2) ∧
    Reads sliceRead 2 [1, 2, 3, 4, 5] [[1, 2], [3, 4], [5], []] Error.EOF [] ∧
    ((([[1, 2], [3, 4], [5], []] : List (List Byte)).flatten.length : Int) < 2 ^ 63) ∧
    nonEmptySlices [[1, 2], [3, 4], [5], []] =
      pieces 2 ([[1, 2], [3, 4], [5], []] : List (List Byte)).flatten.length
        ([[1, 2], [3, 4], [5], []] : List (List Byte)).flatten ∧
    (∃ N r w, (r.err = none ∧ w.cb = [2, 4, 5] ∧
        (progressValues 0 [[1, 2], [3, 4], [5], []]).length = 3 ∧
        progressValues 0 [[1, 2], [3, 4], [5], []] =
          (List.range ((([[1, 2], [3, 4], [5], []] : List (List Byte)).flatten.length + 2 - 1) /
              2)).map
            fun i => ((min ((i + 1) * 2)
              ([[1, 2], [3, 4], [5], []] : List (List Byte)).flatten.length : Nat) : Int)) ∧
      ∀ fuel, N ≤ fuel →
        parallelHashLargeFileWith toyHash toyHash 2 sliceRead (some recordProgress) fuel
          [1, 2, 3, 4, 5] [] = some (r, w)) := by
  have hp : Reads pipeRead 8388608 [[1], [2], [3]] [[1], [2], [3], []] Error.EOF [] :=
    Reads.more rfl (by decide) (Reads.more rfl (by decide) (Reads.more rfl (by decide)
      (Reads.last rfl (by decide))))
  have hs : Reads sliceRead 2 [1, 2, 3, 4, 5] [[1, 2], [3, 4], [5], []] Error.EOF [] :=
    Reads.more rfl (by decide) (Reads.more rfl (by decide) (Reads.more rfl (by decide)
      (Reads.last rfl (by decide))))
  obtain ⟨N1, r1, w1, ⟨a1, a2, -, a4, -⟩, hN1⟩ :=
    chunked_progress_cadence toyHash toyHash 8388608 pipeRead [[1], [2], [3]] []
      [[1], [2], [3], []] parallelThreshold recordProgress [] (by decide) hp (by decide)
  obtain ⟨N2, r2, w2, ⟨b1, b2, b3, -, b5⟩, hN2⟩ :=
    chunked_progress_cadence toyHash toyHash 2 sliceRead [1, 2, 3, 4, 5] []
      [[1, 2], [3, 4], [5], []] parallelThreshold recordProgress [] (by decide) hs (by decide)
  have e1 : (parallelHashLargeFile toyHash toyHash pipeRead parallelThreshold
      (some recordProgress) (N1 + 4) [[1], [2], [3]] []).map
      (fun x => (x.2.cb, x.2.calls.map Sample.bytesProcessed)) =
      some ([1, 2, 3], [1, 2, 3]) := rfl
  have e2 : (parallelHashLargeFileWith toyHash toyHash 2 sliceRead (some recordProgress)
      (N2 + 4) [1, 2, 3, 4, 5] []).map (fun x => x.2.cb) = some [2, 4, 5] := rfl
  rw [((hN1 (N1 + 4) (Nat.le_add_right _ _)).2 rfl)] at e1
  rw [(hN2 (N2 + 4) (Nat.le_add_right _ _)).1] at e2
  simp only [Option.map_some', Option.some.injEq, Prod.mk.injEq] at e1 e2
  exact ⟨by decide, hp, by decide,
    ⟨N1, r1, w1, ⟨a1, e1.1, e1.2⟩, fun fuel hfuel => (hN1 fuel hfuel).2 rfl⟩,
    by decide, hs, by decide, by decide,
    ⟨N2, r2, w2, ⟨b1, e2, by rw [b3]; rfl, b5 (by decide)⟩, fun fuel hfuel =>
      (hN2 fuel hfuel).1⟩⟩

/-- C18 as amended, with limit 2 and a window of one hour: three calls for one IP within a
second, a call for another IP, a cleanup pass, and a call after more than an hour. -/
theorem rateLimiter_bound_witness :
    (1 : Int) ≤ 2 ∧ (2 : Int) < 2 ^ 63 ∧ 0 < hour ∧ hour < 2 ^ 62 ∧
    TimesFrom 0 [LimiterEvent.allow "10.0.0.1" 0, LimiterEvent.allow "10.0.0.1" 5,
      LimiterEvent.allow "10.0.0.2" 7, LimiterEvent.allow "10.0.0.1" 9,
      LimiterEvent.tick 3600000000000, LimiterEvent.allow "10.0.0.1" 3600000000010] ∧
    (3600000000010 : Int) - 10 ≤ hour ∧
    ∃ rl, NewRateLimiter 2 hour = some rl ∧
      (countIn 10 3600000000010 (allowedTimes "10.0.0.1" rl
        [LimiterEvent.allow "10.0.0.1" 0, LimiterEvent.allow "10.0.0.1" 5,
          LimiterEvent.allow "10.0.0.2" 7, LimiterEvent.allow "10.0.0.1" 9,
          LimiterEvent.tick 3600000000000, LimiterEvent.allow "10.0.0.1" 3600000000010]) :
        Int) ≤ 2 :=
  ⟨by decide, by decide, by decide, by decide,
    ⟨by decide, by decide, by decide, by decide, by decide, by decide, trivial⟩, by decide,
    rateLimiter_bound 2 hour "10.0.0.1" _ 0 10 3600000000010 (by decide) (by decide)
      (by decide) (by decide)
      ⟨by decide, by decide, by decide, by decide, by decide, by decide, trivial⟩ (by decide)⟩

/-- C20 as amended, with the unary stand-ins for the encoding libraries: a token issued at
time 0 for one day to user 7 is validated five nanoseconds later. -/
theorem jwt_round_trip_witness :
    utf8ValidString (goString "ana@example.edu") = true ∧
    utf8ValidString (goString "student") = true ∧
    ∃ L : JWTLib, L.base64Encode = unaryEncode ∧ L.jsonMarshal = toyMarshal ∧
      L.jsonUnmarshal = toyUnmarshal ∧
      (5 : Int) ≤ (JWTManager.GenerateToken L ⟨[1, 2, 3], 24 * hour, 168 * hour⟩ 0 7
        (goString "ana@example.edu") (goString "student") false).2 ∧
      ∃ claims,
        JWTManager.ValidateToken L ⟨[1, 2, 3], 24 * hour, 168 * hour⟩ 5
          (JWTManager.GenerateToken L ⟨[1, 2, 3], 24 * hour, 168 * hour⟩ 0 7
            (goString "ana@example.edu") (goString "student") false).1 = Except.ok claims ∧
        claims.UserID = 7 ∧ claims.Email = goString "ana@example.edu" ∧
        claims.Role = goString "student" ∧ claims.IsAdmin = false ∧
        claims.ExpiresAt = unixSeconds (JWTManager.GenerateToken L
          ⟨[1, 2, 3], 24 * hour, 168 * hour⟩ 0 7 (goString "ana@example.edu")
          (goString "student") false).2 :=
  ⟨by decide, by decide,
    ⟨unaryEncode, fun s => unaryDecode 0 s.data, toyMarshal, toyUnmarshal, unaryDecode_encode,
      unaryEncode_no_dot, toyUnmarshal_marshal⟩, rfl, rfl, rfl, by decide,
    jwt_round_trip _ ⟨[1, 2, 3], 24 * hour, 168 * hour⟩ 0 5 7 (goString "ana@example.edu")
      (goString "student") false (by decide) (by decide) (by decide)⟩

/-! ## Rejection of tokens -/

/-- C21. JWT rejection: for every token, `ValidateToken` returns `ErrInvalidToken` unless the
token splits on `.` into exactly three parts, the third part is the signature of
`part1 + "." + part2` under the manager's secret (`sign`: unpadded base64url of the
HMAC-SHA256), and the second part decodes to claims; for a token that passes those checks it
returns `ErrTokenExpired` if and only if the current Unix time is strictly greater than
`ExpiresAt`, and otherwise it returns the claims. -/
theorem validateToken_rejection (L : JWTLib) (j : JWTManager) (now : Int) (token : String) :
    ((¬ ∃ header payload signature claims,
          stringsSplit token '.' = [header, payload, signature] ∧
          signature = L.base64Encode (hmacSHA256 j.secret (header ++ "." ++ payload).toUTF8.toList) ∧
          (L.base64Decode payload).bind L.jsonUnmarshal = some claims) →
      j.ValidateToken L now token = Except.error AuthError.ErrInvalidToken) ∧
    ∀ header payload signature claims,
      stringsSplit token '.' = [header, payload, signature] →
      signature = L.base64Encode (hmacSHA256 j.secret (header ++ "." ++ payload).toUTF8.toList) →
      (L.base64Decode payload).bind L.jsonUnmarshal = some claims →
      (j.ValidateToken L now token = Except.error AuthError.ErrTokenExpired ↔
        unixSeconds now > claims.ExpiresAt) ∧
      (¬ unixSeconds now > claims.ExpiresAt → j.ValidateToken L now token = Except.ok claims) := by
  constructor
  · intro hno
    unfold JWTManager.ValidateToken
    split
    · rename_i header payload signature hsplit
      by_cases hsig : signature = JWTManager.sign L j (header ++ "." ++ payload)
      · simp only [ne_eq, hsig, not_true_eq_false, if_false]
        cases hdec : L.base64Decode payload with
        | none => rfl
        | some claimsJSON =>
          cases hjson : L.jsonUnmarshal claimsJSON with
          | none => simp [hjson]
          | some claims =>
            exact absurd ⟨header, payload, signature, claims, hsplit, hsig, by simp [hdec, hjson]⟩
              hno
      · simp [hsig]
    · rfl
  · intro header payload signature claims hsplit hsig hdec
    have hsig2 : signature = JWTManager.sign L j (header ++ "." ++ payload) := hsig
    cases hd : L.base64Decode payload with
    | none => simp [hd] at hdec
    | some claimsJSON =>
      have hjson : L.jsonUnmarshal claimsJSON = some claims := by simpa [hd] using hdec
      by_cases hexp : unixSeconds now > claims.ExpiresAt
      · have hres : j.ValidateToken L now token = Except.error AuthError.ErrTokenExpired := by
          simp [JWTManager.ValidateToken, hsplit, hsig2, hd, hjson, hexp]
        exact ⟨⟨fun _ => hexp, fun _ => hres⟩, fun hn => absurd hexp hn⟩
      · have hres : j.ValidateToken L now token = Except.ok claims := by
          simp [JWTManager.ValidateToken, hsplit, hsig2, hd, hjson, hexp]
        have hne : j.ValidateToken L now token ≠ Except.error AuthError.ErrTokenExpired := by
          rw [hres]
          exact fun h => Except.noConfusion h
        exact ⟨⟨fun h => absurd h hne, fun h => absurd h hexp⟩, fun _ => hres⟩

/-! ## The password policy -/

/-- An ASCII rune comes out of `range` exactly when the string has that byte. -/
theorem mem_rangeRunes (r : Nat) (hr : r < 0x80) (fuel : Nat) (s : List Byte)
    (h : s.length ≤ fuel) : r ∈ rangeRunes fuel s ↔ ∃ b ∈ s, b.toNat = r := by
  induction fuel using Nat.strong_induction_on generalizing s with
  | _ fuel ih =>
    match fuel, s, h with
    | 0, [], _ => simp [rangeRunes]
    | fuel + 1, [], _ => simp [rangeRunes]
    | fuel + 1, b :: rest, h =>
      have hrest : rest.length ≤ fuel := by simpa using h
      by_cases hb : b.toNat < 0x80
      · simp only [rangeRunes, hb, if_true, List.mem_cons, exists_eq_or_imp]
        rw [ih fuel (Nat.lt_succ_self _) rest hrest]
        constructor
        · rintro (h1 | h1)
          · exact Or.inl h1.symm
          · exact Or.inr h1
        · rintro (h1 | h1)
          · exact Or.inl h1.symm
          · exact Or.inr h1
      · obtain ⟨h1, h2, h3⟩ := decoderune_props b rest hb
        have hdrop : ((b :: rest).drop (decoderune (b :: rest)).2).length ≤ fuel := by
          rw [List.length_drop]
          simp only [List.length_cons]
          omega
        have hl : rangeRunes (fuel + 1) (b :: rest) = (decoderune (b :: rest)).1 ::
            rangeRunes fuel ((b :: rest).drop (decoderune (b :: rest)).2) := by
          simp only [rangeRunes, hb, if_false]
        rw [hl, List.mem_cons, ih fuel (Nat.lt_succ_self _) _ hdrop]
        constructor
        · rintro (h4 | ⟨x, hx, hxr⟩)
          · omega
          · exact ⟨x, List.mem_of_mem_drop hx, hxr⟩
        · rintro ⟨x, hx, hxr⟩
          right
          rw [← List.take_append_drop (decoderune (b :: rest)).2 (b :: rest)] at hx
          rcases List.mem_append.mp hx with hx | hx
          · have := h3 x hx
            omega
          · exact ⟨x, hx, hxr⟩

theorem mem_runes (r : Nat) (hr : r < 0x80) (s : List Byte) :
    r ∈ runes s ↔ ∃ b ∈ s, b.toNat = r :=
  mem_rangeRunes r hr s.length s (Nat.le_refl _)

/-- The flags after the loop of `ValidatePassword`. -/
theorem foldl_passwordStep (l : List Nat) (f : PasswordFlags) :
    ((l.foldl passwordStep f).hasUpper = true ↔
        f.hasUpper = true ∨ ∃ c ∈ l, 65 ≤ c ∧ c ≤ 90) ∧
    ((l.foldl passwordStep f).hasLower = true ↔
        f.hasLower = true ∨ ∃ c ∈ l, 97 ≤ c ∧ c ≤ 122) ∧
    ((l.foldl passwordStep f).hasDigit = true ↔
        f.hasDigit = true ∨ ∃ c ∈ l, 48 ≤ c ∧ c ≤ 57) := by
  induction l generalizing f with
  | nil => simp
  | cons c t ih =>
    obtain ⟨i1, i2, i3⟩ := ih (passwordStep f c)
    simp only [List.foldl_cons, List.mem_cons, exists_eq_or_imp]
    rw [i1, i2, i3]
    by_cases p1 : 65 ≤ c ∧ c ≤ 90 <;> by_cases p2 : 97 ≤ c ∧ c ≤ 122 <;>
      by_cases p3 : 48 ≤ c ∧ c ≤ 57 <;>
      first
        | (exfalso; omega)
        | simp [passwordStep, p1, p2, p3]

/-- The loop of `ValidatePassword` sees an ASCII rune in a range exactly when the string has
a byte in that range. -/
theorem runes_ascii_range (s : List Byte) (lo hi : Nat) (hhi : hi < 0x80) :
    (∃ c ∈ runes s, lo ≤ c ∧ c ≤ hi) ↔ ∃ b ∈ s, lo ≤ b.toNat ∧ b.toNat ≤ hi := by
  constructor
  · rintro ⟨c, hc, h1, h2⟩
    obtain ⟨b, hb, hbc⟩ := (mem_runes c (by omega) s).mp hc
    exact ⟨b, hb, by omega, by omega⟩
  · rintro ⟨b, hb, h1, h2⟩
    exact ⟨b.toNat, (mem_runes b.toNat (by omega) s).mpr ⟨b, hb, rfl⟩, h1, h2⟩

/-- C22. Password policy: for every string `p`, `ValidatePassword(p)` returns nil if and
only if `p` is at least 8 bytes long and has at least one byte that is an ASCII uppercase
letter, one that is an ASCII lowercase letter and one that is an ASCII digit; otherwise it
returns `ErrWeakPassword`. -/
theorem validatePassword_policy (p : List Byte) :
    (ValidatePassword p = none ↔
      8 ≤ p.length ∧ (∃ b ∈ p, 65 ≤ b.toNat ∧ b.toNat ≤ 90) ∧
        (∃ b ∈ p, 97 ≤ b.toNat ∧ b.toNat ≤ 122) ∧ (∃ b ∈ p, 48 ≤ b.toNat ∧ b.toNat ≤ 57)) ∧
    (ValidatePassword p = none ∨ ValidatePassword p = some AuthError.ErrWeakPassword) := by
  obtain ⟨h1, h2, h3⟩ := foldl_passwordStep (runes p) ⟨false, false, false⟩
  rw [runes_ascii_range p 65 90 (by decide)] at h1
  rw [runes_ascii_range p 97 122 (by decide)] at h2
  rw [runes_ascii_range p 48 57 (by decide)] at h3
  simp only [Bool.false_eq_true, false_or] at h1 h2 h3
  rw [← h1, ← h2, ← h3]
  unfold ValidatePassword
  by_cases hlen : p.length < 8
  · rw [if_pos hlen]
    refine ⟨⟨fun h => Option.noConfusion h, fun h => ?_⟩, Or.inr rfl⟩
    omega
  · rw [if_neg hlen]
    have hlen2 : 8 ≤ p.length := Nat.le_of_not_lt hlen
    simp only []
    cases hu : ((runes p).foldl passwordStep ⟨false, false, false⟩).hasUpper <;>
      cases hl : ((runes p).foldl passwordStep ⟨false, false, false⟩).hasLower <;>
      cases hd : ((runes p).foldl passwordStep ⟨false, false, false⟩).hasDigit <;>
      simp [hlen2]

/-! ## `sanitizeFilename` -/

theorem hasDotDot_iff (s : List Byte) : hasDotDot s = true ↔ [46, 46] <:+: s := by
  induction s with
  | nil => simp [hasDotDot]
  | cons a t ih =>
    rw [hasDotDot, Bool.or_eq_true, ih, List.infix_cons_iff]
    constructor
    · rintro (h | h)
      · left
        simp only [Bool.and_eq_true, beq_iff_eq] at h
        obtain ⟨ha, ht⟩ := h
        match t, ht with
        | b :: r, ht =>
          simp only [List.head?_cons, Option.some.injEq] at ht
          rw [ha, ht]
          exact ⟨r, rfl⟩
      · exact Or.inr h
    · rintro (h | h)
      · left
        obtain ⟨r, hr⟩ := h
        simp only [List.cons_append, List.nil_append, List.cons.injEq] at hr
        obtain ⟨ha, ht⟩ := hr
        simp [← ha, ← ht]
      · exact Or.inr h

/-- What a name that no dangerous pattern matches is like, as far as separators go. -/
theorem dangerousPatterns_pass (s : List Byte)
    (h : ¬ dangerousPatterns.any (fun pattern => pattern s) = true) :
    ¬ [46, 46] <:+: s ∧ s.head? ≠ some 47 ∧ 92 ∉ s := by
  simp only [dangerousPatterns, List.any_cons, List.any_nil, Bool.or_false, Bool.or_eq_true,
    not_or] at h
  obtain ⟨h1, h2, h3, -⟩ := h
  refine ⟨fun hd => h1 ((hasDotDot_iff s).mpr hd), ?_, ?_⟩
  · simpa using h2
  · simpa using h3

/-- A name with two dots in a row, a leading slash or a backslash matches a dangerous
pattern. -/
theorem dangerousPatterns_match (s : List Byte)
    (h : [46, 46] <:+: s ∨ s.head? = some 47 ∨ 92 ∈ s) :
    dangerousPatterns.any (fun pattern => pattern s) = true := by
  simp only [dangerousPatterns, List.any_cons, List.any_nil, Bool.or_false, Bool.or_eq_true]
  rcases h with h | h | h
  · exact Or.inl ((hasDotDot_iff s).mpr h)
  · exact Or.inr (Or.inl (by simp [h]))
  · exact Or.inr (Or.inr (Or.inl (by simpa using h)))

/-- The base name of a non-empty path that does not begin with a slash: a non-empty part of
the path without a slash. -/
theorem filepathBase_element (path : List Byte) (hne : path ≠ []) (hhead : path.head? ≠ some 47) :
    filepathBase path ≠ [] ∧ 47 ∉ filepathBase path ∧ ∀ b ∈ filepathBase path, b ∈ path := by
  obtain ⟨c, t, rfl⟩ := List.exists_cons_of_ne_nil hne
  have hc : c ≠ 47 := fun h => hhead (by simp [h])
  have hdrop : ((c :: t).reverse.dropWhile fun b => b == 47) ≠ [] := by
    intro h0
    rw [List.dropWhile_eq_nil_iff] at h0
    have := h0 c (by simp)
    simp [hc] at this
  obtain ⟨d, r, hdr⟩ := List.exists_cons_of_ne_nil hdrop
  have hd : d ≠ 47 := by
    have := List.head_dropWhile_not (fun b : Byte => b == 47) (c :: t).reverse hdrop
    simp only [hdr, List.head_cons] at this
    simpa using this
  have hlast : (((c :: t).reverse.dropWhile fun b => b == 47).reverse.reverse.takeWhile
      fun b => b != 47).reverse ≠ [] := by
    rw [List.reverse_reverse, hdr]
    have hd2 : (d != 47) = true := by simpa using hd
    simp [List.takeWhile_cons, hd2]
  unfold filepathBase
  simp only [hne, if_false, hlast]
  refine ⟨hlast, ?_, ?_⟩
  · intro hm
    have := List.mem_takeWhile_imp (List.mem_reverse.mp hm)
    simp at this
  · intro b hb
    have h1 := (List.takeWhile_sublist _).subset (List.mem_reverse.mp hb)
    rw [List.reverse_reverse] at h1
    exact List.mem_reverse.mp ((List.dropWhile_sublist _).subset h1)

theorem extLoop_suffix (l seen : List Byte) : extLoop l seen <:+ l.reverse ++ seen := by
  induction l generalizing seen with
  | nil => exact List.nil_suffix
  | cons c before ih =>
    unfold extLoop
    split_ifs with h1 h2
    · exact List.nil_suffix
    · exact ⟨before.reverse, by simp⟩
    · have := ih (c :: seen)
      simpa using this

/-- The extension is the end of the path. -/
theorem filepathExt_suffix (path : List Byte) : filepathExt path <:+ path := by
  have := extLoop_suffix path.reverse []
  simpa [filepathExt] using this

theorem stringsTrimSuffix_length (s suffix : List Byte) (h : suffix <:+ s) :
    (stringsTrimSuffix s suffix).length = s.length - suffix.length := by
  have hs : suffix.isSuffixOf s = true := by simpa using h
  have hle := h.length_le
  simp only [stringsTrimSuffix, hs, if_true, List.length_take]
  omega

theorem stringsTrimSuffix_subset (s suffix : List Byte) :
    ∀ b ∈ stringsTrimSuffix s suffix, b ∈ s := by
  intro b hb
  unfold stringsTrimSuffix at hb
  split_ifs at hb
  · exact List.mem_of_mem_take hb
  · exact hb

/-- The slice `nameWithoutExt[:maxNameLen]` of `sanitizeFilename` is in range. -/
theorem truncate_in_range (filename : List Byte) (h : filename.length > 255) :
    ((255 : Int) - ((filepathExt filename).length : Int)).toNat ≤
      (stringsTrimSuffix filename (filepathExt filename)).length := by
  rw [stringsTrimSuffix_length _ _ (filepathExt_suffix filename)]
  have := (filepathExt_suffix filename).length_le
  omega

/-- After the length limit the name is made of bytes of the name before, and is at most 255
bytes long. -/
theorem limitLength_ok (filename limited : List Byte)
    (h : limitLength filename = Except.ok limited) :
    (∀ b ∈ limited, b ∈ filename) ∧ limited.length ≤ 255 := by
  unfold limitLength at h
  simp only [] at h
  split_ifs at h with h1 h2
  · simp only [Except.ok.injEq] at h
    subst h
    constructor
    · intro b hb
      rcases List.mem_append.mp hb with hb | hb
      · exact stringsTrimSuffix_subset _ _ b (List.mem_of_mem_take hb)
      · exact (filepathExt_suffix filename).subset hb
    · rw [List.length_append, List.length_take]
      omega
  · simp only [Except.ok.injEq] at h
    subst h
    exact ⟨fun b hb => hb, by omega⟩

theorem replacerReplace_mem (s : List Byte) (x : Byte) (hx : x ∈ replacerReplace s) :
    x ∈ s ∨ x = 95 ∨ x = 97 ∨ x = 110 ∨ x = 100 := by
  unfold replacerReplace at hx
  rw [List.mem_flatMap] at hx
  obtain ⟨b, hb, hxb⟩ := hx
  unfold replacerByte at hxb
  split_ifs at hxb
  · simp at hxb
    exact Or.inr (Or.inl hxb)
  · simp at hxb
    rcases hxb with h | h | h
    · exact Or.inr (Or.inr (Or.inl h))
    · exact Or.inr (Or.inr (Or.inr (Or.inl h)))
    · exact Or.inr (Or.inr (Or.inr (Or.inr h)))
  · simp at hxb
  · simp at hxb
    exact Or.inl (hxb ▸ hb)

theorem collapseUnderscores_subset (s : List Byte) : ∀ b ∈ collapseUnderscores s, b ∈ s := by
  induction s with
  | nil => simp [collapseUnderscores]
  | cons a t ih =>
    intro b hb
    unfold collapseUnderscores at hb
    split_ifs at hb
    · exact List.mem_cons_of_mem _ (ih b hb)
    · rcases List.mem_cons.mp hb with hb | hb
      · exact hb ▸ List.mem_cons_self _ _
      · exact List.mem_cons_of_mem _ (ih b hb)

theorem trimUnderscores_subset (s : List Byte) : ∀ b ∈ trimUnderscores s, b ∈ s := by
  intro b hb
  unfold trimUnderscores at hb
  have h1 := (List.dropWhile_sublist _).subset (List.mem_reverse.mp hb)
  exact (List.dropWhile_sublist _).subset (List.mem_reverse.mp h1)

/-! ## Joining a name to a directory -/

theorem pathElements_ne_nil (a : List Byte) : pathElements a ≠ [] := by
  cases a with
  | nil => simp [pathElements]
  | cons c cs =>
    unfold pathElements
    split_ifs
    · simp
    · split <;> simp

theorem pathElements_of_not_mem (a : List Byte) (h : 47 ∉ a) : pathElements a = [a] := by
  induction a with
  | nil => rfl
  | cons c cs ih =>
    have hc : c ≠ 47 := fun hc => h (by simp [hc])
    have hcs : 47 ∉ cs := fun hm => h (List.mem_cons_of_mem _ hm)
    simp [pathElements, hc, ih hcs]

theorem pathElements_append (a rest : List Byte) :
    pathElements (a ++ 47 :: rest) = pathElements a ++ pathElements rest := by
  induction a with
  | nil => simp [pathElements]
  | cons c cs ih =>
    obtain ⟨p, ps, hp⟩ := List.exists_cons_of_ne_nil (pathElements_ne_nil cs)
    by_cases hc : c = 47
    · simp [pathElements, hc, ih]
    · simp [pathElements, hc, ih, hp]

theorem joinElements_append_singleton (es : List (List Byte)) (e : List Byte) (h : es ≠ []) :
    joinElements (es ++ [e]) = joinElements es ++ 47 :: e := by
  induction es with
  | nil => exact absurd rfl h
  | cons a t ih =>
    cases t with
    | nil => simp [joinElements]
    | cons b u =>
      have := ih (by simp)
      simp only [List.cons_append] at this ⊢
      simp only [joinElements, this, List.append_assoc, List.cons_append]

/-- A name that is a single path element other than `.` and `..`, put after a directory,
is one more element after the elements of the directory. -/
theorem cleanElements_child (dir name : List Byte) (hdir : dir ≠ []) (h0 : name ≠ [])
    (h1 : name ≠ [46]) (h2 : name ≠ [46, 46]) (hs : 47 ∉ name) :
    cleanElements (dir ++ 47 :: name) = cleanElements dir ++ [name] := by
  obtain ⟨c, t, rfl⟩ := List.exists_cons_of_ne_nil hdir
  unfold cleanElements
  rw [pathElements_append, pathElements_of_not_mem name hs, List.foldl_append]
  simp [cleanStep, h0, h1, h2]

/-- The path that `filepath.Join` makes of a directory and a name that is a single path
element other than `.` and `..`: the cleaned directory, a slash, the name. -/
theorem filepathJoin_child (dir name : List Byte) (h0 : name ≠ []) (h1 : name ≠ [46])
    (h2 : name ≠ [46, 46]) (hs : 47 ∉ name) :
    filepathJoin dir name = filepathClean dir ++ 47 :: name ∨
      (filepathClean dir = [46] ∧ filepathJoin dir name = name) ∨
      (filepathClean dir = [47] ∧ filepathJoin dir name = 47 :: name) := by
  by_cases hdir : dir = []
  · subst hdir
    right
    left
    obtain ⟨c, t, rfl⟩ := List.exists_cons_of_ne_nil h0
    have hc : c ≠ 47 := fun hc => hs (by simp [hc])
    have hce : cleanElements (c :: t) = [c :: t] := by
      unfold cleanElements
      rw [pathElements_of_not_mem _ hs]
      simp [cleanStep, h1, h2]
    refine ⟨rfl, ?_⟩
    simp [filepathJoin, filepathClean, hce, hc, joinElements]
  · have hce := cleanElements_child dir name hdir h0 h1 h2 hs
    obtain ⟨c, t, rfl⟩ := List.exists_cons_of_ne_nil hdir
    have hjoin : filepathJoin (c :: t) name = filepathClean ((c :: t) ++ 47 :: name) := by
      simp [filepathJoin]
    rw [hjoin]
    rw [List.cons_append] at hce ⊢
    have hclean : filepathClean (c :: (t ++ 47 :: name)) =
        if c = 47 then 47 :: joinElements (cleanElements (c :: t) ++ [name])
        else joinElements (cleanElements (c :: t) ++ [name]) := by
      simp [filepathClean, hce]
    have hcleand : filepathClean (c :: t) =
        if c = 47 then 47 :: joinElements (cleanElements (c :: t))
        else if cleanElements (c :: t) = [] then [46]
        else joinElements (cleanElements (c :: t)) := by
      simp [filepathClean]
    rw [hclean, hcleand]
    by_cases hroot : c = 47
    · rw [if_pos hroot, if_pos hroot]
      by_cases hnil : cleanElements (c :: t) = []
      · right
        right
        rw [hnil]
        exact ⟨rfl, rfl⟩
      · left
        rw [joinElements_append_singleton _ name hnil]
        rfl
    · rw [if_neg hroot, if_neg hroot]
      by_cases hnil : cleanElements (c :: t) = []
      · right
        left
        rw [if_pos hnil, hnil]
        exact ⟨rfl, rfl⟩
      · left
        rw [if_neg hnil, joinElements_append_singleton _ name hnil]

/-- The name that `sanitizeFilename` returns is made of bytes of the base name of its input
and of the letters and the underscore that the replacer writes. -/
theorem sanitizeFilename_ok (filename name : List Byte)
    (h : sanitizeFilename filename = Except.ok name) :
    filename ≠ [] ∧ ¬ dangerousPatterns.any (fun pattern => pattern filename) = true ∧
      ∃ limited, limitLength (filepathBase filename) = Except.ok limited ∧
        name = trimUnderscores (collapseUnderscores (replacerReplace limited)) ∧
        name ≠ [] ∧ name ≠ [46] ∧ name ≠ [46, 46] := by
  unfold sanitizeFilename at h
  split_ifs at h with h1 h2
  refine ⟨h1, h2, ?_⟩
  cases hl : limitLength (filepathBase filename) with
  | error e => simp [hl] at h
  | ok limited =>
    simp only [hl] at h
    split_ifs at h with h3
    simp only [Except.ok.injEq] at h
    refine ⟨limited, rfl, h.symm, ?_⟩
    rw [← h]
    exact ⟨fun h4 => h3 (Or.inl h4), fun h4 => h3 (Or.inr (Or.inl h4)),
      fun h4 => h3 (Or.inr (Or.inr h4))⟩

/-- C23. Filename path safety: for every input on which `sanitizeFilename` succeeds, the
returned name is non-empty, is neither `.` nor `..`, and has no `/` (`47`) and no backslash
(`92`), so `filepath.Join` of a directory and the name is the cleaned directory followed by a
separator and the name, a path inside the directory; an input that contains `..`, starts with
`/` or contains a backslash is rejected with an error. -/
theorem sanitizeFilename_path_safety (filename : List Byte) :
    (∀ name, sanitizeFilename filename = Except.ok name →
      name ≠ [] ∧ name ≠ [46] ∧ name ≠ [46, 46] ∧ 47 ∉ name ∧ 92 ∉ name ∧
      ∀ dir, filepathJoin dir name = filepathClean dir ++ 47 :: name ∨
        (filepathClean dir = [46] ∧ filepathJoin dir name = name) ∨
        (filepathClean dir = [47] ∧ filepathJoin dir name = 47 :: name)) ∧
    (([46, 46] <:+: filename ∨ filename.head? = some 47 ∨ 92 ∈ filename) →
      ∃ e, sanitizeFilename filename = Except.error e) := by
  constructor
  · intro name h
    obtain ⟨hne, hpat, limited, hlim, hname, h0, h1, h2⟩ := sanitizeFilename_ok filename name h
    obtain ⟨-, hhead, hback⟩ := dangerousPatterns_pass filename hpat
    obtain ⟨-, hslash, hsub⟩ := filepathBase_element filename hne hhead
    have hsafe : ∀ b ∈ name, b ≠ 47 ∧ b ≠ 92 := by
      intro b hb
      rw [hname] at hb
      have hb2 := collapseUnderscores_subset _ b (trimUnderscores_subset _ b hb)
      rcases replacerReplace_mem limited b hb2 with hm | hm | hm | hm | hm
      · have hbase := (limitLength_ok _ _ hlim).1 b hm
        exact ⟨fun hb47 => hslash (hb47 ▸ hbase), fun hb92 => hback (hb92 ▸ hsub b hbase)⟩
      · rw [hm]; decide
      · rw [hm]; decide
      · rw [hm]; decide
      · rw [hm]; decide
    have hs47 : 47 ∉ name := fun hm => (hsafe 47 hm).1 rfl
    have hs92 : 92 ∉ name := fun hm => (hsafe 92 hm).2 rfl
    exact ⟨h0, h1, h2, hs47, hs92, fun dir => filepathJoin_child dir name h0 h1 h2 hs47⟩
  · intro h
    by_cases hne : filename = []
    · exact ⟨"filename cannot be empty", by simp [sanitizeFilename, hne]⟩
    · exact ⟨"filename contains invalid characters or patterns",
        by simp [sanitizeFilename, hne, dangerousPatterns_match filename h]⟩

/-- C24. The filename length limit fails on the code: `sanitizeFilename` applies the limit of
255 bytes before its replacer turns every `&` (`38`) into `and`. On the name made of 100
times `&` followed by `.zip`, which is 104 bytes long and passes the limit unchanged, it
succeeds and returns 100 times `and` followed by `.zip`, which is 304 bytes long. -/
theorem sanitizeFilename_exceeds_limit :
    (List.replicate 100 (38 : Byte) ++ [46, 122, 105, 112]).length = 104 ∧
    limitLength (filepathBase (List.replicate 100 (38 : Byte) ++ [46, 122, 105, 112])) =
      Except.ok (List.replicate 100 (38 : Byte) ++ [46, 122, 105, 112]) ∧
    sanitizeFilename (List.replicate 100 (38 : Byte) ++ [46, 122, 105, 112]) =
      Except.ok ((List.replicate 100 [(97 : Byte), 110, 100]).flatten ++ [46, 122, 105, 112]) ∧
    ((List.replicate 100 [(97 : Byte), 110, 100]).flatten ++ [46, 122, 105, 112]).length = 304 ∧
    ¬ ((List.replicate 100 [(97 : Byte), 110, 100]).flatten ++ [46, 122, 105, 112]).length ≤
      255 :=
  ⟨by decide!, by decide!, by decide!, by decide!, by decide!⟩

/-! ## `getIP` -/

/-- Without an `X-Forwarded-For` value, `getIP` returns `X-Real-IP` if it has a value, and
otherwise the host of `RemoteAddr`, or all of `RemoteAddr` if it does not split. -/
theorem getIP_without_forwarded (r : Request) (h : r.headerGet "X-Forwarded-For" = []) :
    getIP r =
      if r.headerGet "X-Real-IP" ≠ [] then r.headerGet "X-Real-IP"
      else
        match SplitHostPort r.RemoteAddr with
        | Except.ok (ip, _) => ip
        | Except.error _ => r.RemoteAddr := by
  simp [getIP, h]

/-- With an `X-Forwarded-For` value in which there is no colon, `getIP` returns the whole
value. -/
theorem getIP_forwarded_without_colon (r : Request) (h : r.headerGet "X-Forwarded-For" ≠ [])
    (hc : 58 ∉ r.headerGet "X-Forwarded-For") : getIP r = r.headerGet "X-Forwarded-For" := by
  have hidx : lastIndexByte (r.headerGet "X-Forwarded-For") 58 = none := by
    unfold lastIndexByte
    have hrev : 58 ∉ (r.headerGet "X-Forwarded-For").reverse := fun hm => hc (List.mem_reverse.mp hm)
    have := List.indexOf_eq_length.mpr hrev
    rw [this, List.length_reverse]
    simp
  simp [getIP, h, SplitHostPort, hidx]

/-- C25. Client IP extraction fails on the code for a list: with the header
`X-Forwarded-For: 203.0.113.7, 10.0.0.1`, whose first entry is `203.0.113.7`, `getIP` returns
the whole header value `203.0.113.7, 10.0.0.1`, because `net.SplitHostPort` is applied to the
whole value and, when it fails, the whole value is returned. For a single `host:port` value
the host is returned; without the header, `X-Real-IP` is returned if set and the host of
`RemoteAddr` otherwise. -/
theorem getIP_forwarded_list :
    getIP ⟨fun key => if key = "X-Forwarded-For" then [goString "203.0.113.7, 10.0.0.1"] else [],
        goString "198.51.100.2:51234"⟩ = goString "203.0.113.7, 10.0.0.1" ∧
    firstListed (goString "203.0.113.7, 10.0.0.1") = goString "203.0.113.7" ∧
    goString "203.0.113.7, 10.0.0.1" ≠ goString "203.0.113.7" ∧
    getIP ⟨fun key => if key = "X-Forwarded-For" then [goString "203.0.113.7:4711"] else [],
        goString "198.51.100.2:51234"⟩ = goString "203.0.113.7" ∧
    getIP ⟨fun key => if key = "X-Real-IP" then [goString "192.0.2.9"] else [],
        goString "198.51.100.2:51234"⟩ = goString "192.0.2.9" ∧
    getIP ⟨fun _ => [], goString "198.51.100.2:51234"⟩ = goString "198.51.100.2" := by
  refine ⟨?_, ?_, ?_, ?_, ?_, ?_⟩ <;> decide

/-! ## The package cache -/

/-- Calls other than `Set` leave a cache without packages without packages. -/
theorem calls_without_set {α : Type} (l : List (CacheCall α)) (c : PackageCache α)
    (hc : c.packages = none) (hl : ∀ x ∈ l, x.isSet = false) : (c.calls l).packages = none := by
  induction l generalizing c with
  | nil => exact hc
  | cons x t ih =>
    have hx := hl x (List.mem_cons_self _ _)
    have ht : ∀ y ∈ t, y.isSet = false := fun y hy => hl y (List.mem_cons_of_mem _ hy)
    have hstep : (c.call x).packages = none := by
      cases x <;>
        first
          | exact hc
          | rfl
          | cases hx
    exact ih (c.call x) hstep ht

/-- Calls other than `Enable` leave a disabled cache disabled and without packages. -/
theorem calls_without_enable {α : Type} (l : List (CacheCall α)) (c : PackageCache α)
    (he : c.enabled = false) (hc : c.packages = none) (hl : ∀ x ∈ l, x.isEnable = false) :
    (c.calls l).enabled = false ∧ (c.calls l).packages = none := by
  induction l generalizing c with
  | nil => exact ⟨he, hc⟩
  | cons x t ih =>
    have hx := hl x (List.mem_cons_self _ _)
    have ht : ∀ y ∈ t, y.isEnable = false := fun y hy => hl y (List.mem_cons_of_mem _ hy)
    have hstep : (c.call x).enabled = false ∧ (c.call x).packages = none := by
      cases x <;>
        first
          | exact ⟨he, hc⟩
          | exact ⟨he, rfl⟩
          | exact ⟨rfl, rfl⟩
          | (simp [PackageCache.call, PackageCache.Set, he, hc]; done)
          | cases hx
    exact ih (c.call x) hstep.1 hstep.2 ht

theorem get_without_packages {α : Type} (c : PackageCache α) (hc : c.packages = none) :
    c.Get = (none, false) := by
  unfold PackageCache.Get
  rw [hc]
  split_ifs <;> rfl

/-- C26. Package cache protocol: on an enabled cache, for every non-empty list `ps`, `Get`
right after `Set(ps)` returns `(ps, true)`; after `Invalidate`, whatever is called other than
`Set`, `Get` returns `(nil, false)`; and after `Disable`, whatever is called other than
`Enable`, `Set` leaves the cache as it is and `Get` returns `(nil, false)`. -/
theorem packageCache_protocol {α : Type} (c : PackageCache α) (ps : List α) (now : Int)
    (henabled : c.enabled = true) (hps : ps ≠ []) :
    (c.Set (some ps) now).Get = (some ps, true) ∧
    (∀ l : List (CacheCall α), (∀ x ∈ l, x.isSet = false) →
      (c.Invalidate.calls l).Get = (none, false)) ∧
    (∀ (l : List (CacheCall α)) (qs : Option (List α)) (t : Int),
      (∀ x ∈ l, x.isEnable = false) →
      (c.Disable.calls l).Set qs t = c.Disable.calls l ∧
      (c.Disable.calls l).Get = (none, false)) := by
  refine ⟨?_, ?_, ?_⟩
  · have hlen : ps.length ≠ 0 := fun h => hps (List.length_eq_zero.mp h)
    simp [PackageCache.Set, PackageCache.Get, henabled, hlen]
  · intro l hl
    exact get_without_packages _ (calls_without_set l c.Invalidate rfl hl)
  · intro l qs t hl
    obtain ⟨he, hp⟩ := calls_without_enable l c.Disable rfl rfl hl
    exact ⟨by simp [PackageCache.Set, he], get_without_packages _ hp⟩

/-! ## The last claims at concrete inputs -/

/-- The parts of the token that `GenerateToken` returns. -/
theorem generateToken_parts (L : JWTLib) (j : JWTManager) (now userID : Int)
    (email role : List Byte) (isAdmin : Bool) :
    ∃ header payload signature claims,
      stringsSplit (j.GenerateToken L now userID email role isAdmin).1 '.' =
        [header, payload, signature] ∧
      signature =
        L.base64Encode (hmacSHA256 j.secret (header ++ "." ++ payload).toUTF8.toList) ∧
      (L.base64Decode payload).bind L.jsonUnmarshal = some claims ∧
      claims.ExpiresAt = unixSeconds (now + j.accessExpiration) := by
  refine ⟨_, _, _, ⟨userID, jsonCoerce email, jsonCoerce role, isAdmin,
    unixSeconds (now + j.accessExpiration), unixSeconds now⟩, stringsSplit_three _ _ (JWTManager.sign L j _) (L.base64_alphabet _)
    (L.base64_alphabet _) (L.base64_alphabet _), rfl, ?_, rfl⟩
  simp [L.base64_roundtrip, L.json_roundtrip, coerceClaims]

/-- C21 with the unary stand-ins for the encoding libraries: the token `abc` is invalid, and
a token issued at time 0 for one day is expired after 25 hours. -/
theorem validateToken_rejection_witness :
    ∃ L : JWTLib, L.base64Encode = unaryEncode ∧ L.jsonMarshal = toyMarshal ∧
      L.jsonUnmarshal = toyUnmarshal ∧
      JWTManager.ValidateToken L ⟨[1, 2, 3], 24 * hour, 168 * hour⟩ 0 "abc" =
        Except.error AuthError.ErrInvalidToken ∧
      JWTManager.ValidateToken L ⟨[1, 2, 3], 24 * hour, 168 * hour⟩ (25 * hour)
        (JWTManager.GenerateToken L ⟨[1, 2, 3], 24 * hour, 168 * hour⟩ 0 7
          (goString "ana@example.edu") (goString "student") false).1 =
        Except.error AuthError.ErrTokenExpired := by
  refine ⟨⟨unaryEncode, fun s => unaryDecode 0 s.data, toyMarshal, toyUnmarshal,
    unaryDecode_encode, unaryEncode_no_dot, toyUnmarshal_marshal⟩, rfl, rfl, rfl, ?_, ?_⟩
  · apply (validateToken_rejection _ _ 0 "abc").1
    rintro ⟨header, payload, signature, claims, hsplit, -⟩
    have hlen : (stringsSplit "abc" '.').length = 3 := congrArg List.length hsplit
    exact absurd hlen (by decide)
  · obtain ⟨header, payload, signature, claims, hsplit, hsig, hdec, hexp⟩ :=
      generateToken_parts ⟨unaryEncode, fun s => unaryDecode 0 s.data, toyMarshal, toyUnmarshal,
        unaryDecode_encode, unaryEncode_no_dot, toyUnmarshal_marshal⟩
        ⟨[1, 2, 3], 24 * hour, 168 * hour⟩ 0 7 (goString "ana@example.edu")
        (goString "student") false
    apply ((validateToken_rejection _ _ (25 * hour) _).2 header payload signature claims hsplit
      hsig hdec).1.mpr
    rw [hexp]
    decide

/-- C23 on the names `report (final) [v2].pdf` and `../etc/passwd`. -/
theorem sanitizeFilename_path_safety_witness :
    sanitizeFilename (goString "report (final) [v2].pdf") =
      Except.ok (goString "report_final_v2_.pdf") ∧
    (goString "report_final_v2_.pdf" ≠ [] ∧ goString "report_final_v2_.pdf" ≠ [46] ∧
      goString "report_final_v2_.pdf" ≠ [46, 46] ∧ 47 ∉ goString "report_final_v2_.pdf" ∧
      92 ∉ goString "report_final_v2_.pdf" ∧
      ∀ dir, filepathJoin dir (goString "report_final_v2_.pdf") =
          filepathClean dir ++ 47 :: goString "report_final_v2_.pdf" ∨
        (filepathClean dir = [46] ∧
          filepathJoin dir (goString "report_final_v2_.pdf") = goString "report_final_v2_.pdf") ∨
        (filepathClean dir = [47] ∧
          filepathJoin dir (goString "report_final_v2_.pdf") =
            47 :: goString "report_final_v2_.pdf")) ∧
    ([46, 46] <:+: goString "../etc/passwd") ∧
    ∃ e, sanitizeFilename (goString "../etc/passwd") = Except.error e :=
  ⟨by decide,
    (sanitizeFilename_path_safety (goString "report (final) [v2].pdf")).1
      (goString "report_final_v2_.pdf") (by decide),
    ⟨[], goString "/etc/passwd", by decide⟩,
    (sanitizeFilename_path_safety (goString "../etc/passwd")).2
      (Or.inl ⟨[], goString "/etc/passwd", by decide⟩)⟩

/-- C26 on a new cache, with the list 1, 2, 3 set at time 5. -/
theorem packageCache_protocol_witness :
    (NewPackageCache Nat).enabled = true ∧ ([1, 2, 3] : List Nat) ≠ [] ∧
    ((NewPackageCache Nat).Set (some [1, 2, 3]) 5).Get = (some [1, 2, 3], true) ∧
    (∀ l : List (CacheCall Nat), (∀ x ∈ l, x.isSet = false) →
      ((NewPackageCache Nat).Invalidate.calls l).Get = (none, false)) ∧
    (∀ (l : List (CacheCall Nat)) (qs : Option (List Nat)) (t : Int),
      (∀ x ∈ l, x.isEnable = false) →
      ((NewPackageCache Nat).Disable.calls l).Set qs t = (NewPackageCache Nat).Disable.calls l ∧
      ((NewPackageCache Nat).Disable.calls l).Get = (none, false)) :=
  ⟨rfl, by decide, packageCache_protocol (NewPackageCache Nat) [1, 2, 3] 5 rfl (by decide)⟩

end FCCUR
